import Mathlib

/-!
# backup_client: the binary-diff and patch engine (`src/bindiff/bindiff.go`)

A shallow embedding of the capture side (`MakeRDiffBlocks`, `UpdateFileMetaData`,
`CreateRangeFile`, `CreatePatch`), of the restore side (`MergePatch`,
`ConsolidatePatches`), of the metadata codecs (`MarshalJSON`, `UnmarshalJSON` of
`SHAValue` and `RDiffBlock`) and of the download loop of `GetFile`
(`src/main/mock_client.go`), followed by theorems about them.

Modelling conventions.

* A file is the list of its bytes.  Reads of a regular file are complete: a read of
  `n` bytes returns `min n remaining` bytes, and `io.EOF` only when nothing remains.
* `bufio.Reader` is modelled with its default buffer of 4096 bytes; the state kept is
  the unread part of the buffer and the part of the file not yet fetched.
* `int64`, `int8` and `int` are `Int`; file sizes stay far below `2^63`.  The range end
  `Offset + Size - 1` of `CreateRangeFile`, which is computed for any entry list, wraps
  around as `int64` arithmetic does (`wrapInt64`).
* SHA-1 (`crypto/sha1`) is a parameter `sha1 : List Byte → SHAValue`.
* The file system is reduced to what one tracked file `P` touches: `P` itself and the
  sidecar directory `<root>/<dir(P)>` with `P.meta`, `P.patch` and `P.range`.  System
  calls fail only because a file is absent (no permission or disk errors).  The
  metadata document is kept as the record it encodes; the codecs are modelled on their
  own, over the texts of the members of the document.
* A Go run-time panic is the outcome `Outcome.panic`.
-/

set_option autoImplicit false

namespace Bindiff

/-! ## Data model -/

/-- One byte. -/
abbrev Byte := Fin 256

/-- The type `SHAValue [20]byte`. -/
abbrev SHAValue := { l : List Byte // l.length = 20 }

/-- The zero value `SHAValue{}`: twenty zero bytes. -/
def SHAValue.empty : SHAValue := ⟨List.replicate 20 0, rfl⟩

def FORMAT_BASELINE : Int := 0
def FORMAT_PATCH : Int := 1

def PATCH_CHANGE : Int := 0
def PATCH_TRUNCATE : Int := 2

def RDIFF_BLOCKSIZE : Nat := 512

/-- The default buffer size of `bufio.NewReader`. -/
def defaultBufSize : Nat := 4096

/-- The type `Patch struct`; the field `Type` is written `Type_`. -/
structure Patch where
  Offset : Int
  Size : Int
  Type_ : Int
deriving DecidableEq, Repr

/-- The type `RDiffBlock struct`. -/
structure RDiffBlock where
  Offset : Int
  Size : Int
  Signature : SHAValue
deriving DecidableEq

/-- The type `FileMetaData struct`. -/
structure FileMetaData where
  Backuptime : Int
  Atime : Int
  Mtime : Int
  Ctime : Int
  FileSize : Int
  PatchSize : Int
  PatchType : Int
  PrevPatchHash : SHAValue
  PatchHash : SHAValue
  PatchState : List RDiffBlock
deriving DecidableEq

/-- The error values that can reach a caller.  `outOfFuel` is not a Go error: it marks
the exhaustion of the iteration bound of an embedded loop, and never occurs. -/
inductive GoError where
  | EOF
  | ENOENT
  | EINVAL
  | syntaxOrRange
  | sizeMismatched
  | truncateFormat
  | invalidHash
  | invalidHex
  | outOfFuel
deriving DecidableEq, Repr

/-- How a call ends: `err == nil`, `err != nil`, or a run-time panic. -/
inductive Outcome where
  | ok
  | error (e : GoError)
  | panic
deriving DecidableEq, Repr

/-- An integer of `bitSize` bits: `-2^(bitSize-1) ≤ i < 2^(bitSize-1)`. -/
def isInt (bitSize : Nat) (i : Int) : Prop :=
  -((2 ^ (bitSize - 1) : Nat) : Int) ≤ i ∧ i < ((2 ^ (bitSize - 1) : Nat) : Int)

instance (bitSize : Nat) (i : Int) : Decidable (isInt bitSize i) := by
  unfold isInt
  infer_instance

/-- The `int64` value of an expression whose exact value is `i`: the integer arithmetic
of Go wraps around. -/
def wrapInt64 (i : Int) : Int :=
  (i + 9223372036854775808) % 18446744073709551616 - 9223372036854775808

/-! ## `bufio.Reader` over a regular file -/

/-- The state of a `bufio.Reader`: `buf` is the unread part `b.buf[b.r:b.w]` of its
buffer, `rest` the bytes of the file the descriptor has not delivered yet. -/
structure Reader where
  buf : List Byte
  rest : List Byte
deriving DecidableEq

/-- The call `bufio.NewReader(file)` on a freshly opened file. -/
def NewReader (data : List Byte) : Reader := ⟨[], data⟩

/-- The method `(*bufio.Reader).Read(p)` with `len(p) = k > 0`: the bytes copied into `p`, the
error, and the new state.  With an empty buffer a large `p` is read into directly,
otherwise the buffer is filled by ONE read of the file; then as much as is buffered,
at most `k` bytes, is copied. -/
def Reader.Read (b : Reader) (k : Nat) : List Byte × Option GoError × Reader :=
  if b.buf = [] then
    if defaultBufSize ≤ k then
      if b.rest = [] then ([], some .EOF, b)
      else (b.rest.take k, none, ⟨[], b.rest.drop k⟩)
    else
      if b.rest = [] then ([], some .EOF, b)
      else
        let fetched := b.rest.take defaultBufSize
        (fetched.take k, none, ⟨fetched.drop k, b.rest.drop defaultBufSize⟩)
  else (b.buf.take k, none, ⟨b.buf.drop k, b.rest⟩)

/-! ## Block signer -/

/-- The `for` loop of `MakeRDiffBlocks`: `fuel` bounds the number of iterations. -/
def MakeRDiffBlocks.loop (sha1 : List Byte → SHAValue) :
    Nat → Reader → Nat → List RDiffBlock → List RDiffBlock × Option GoError
  | 0, _, _, rdiffBlocks => (rdiffBlocks, some .outOfFuel)
  | fuel + 1, bufReader, offset, rdiffBlocks =>
    match bufReader.Read RDIFF_BLOCKSIZE with
    | (buf, err, bufReader1) =>
      let rc := buf.length
      if rc = 0 then (rdiffBlocks, err)
      else
        let signature := sha1 buf
        MakeRDiffBlocks.loop sha1 fuel bufReader1 (offset + rc)
          (rdiffBlocks ++ [⟨(offset : Int), (rc : Int), signature⟩])

/-- The function `MakeRDiffBlocks` on an opened file with content `data`.  The named result `err`
still holds the `io.EOF` that ended the loop when the function returns. -/
def MakeRDiffBlocks (sha1 : List Byte → SHAValue) (data : List Byte) :
    List RDiffBlock × Option GoError :=
  MakeRDiffBlocks.loop sha1 (data.length + 1) (NewReader data) 0 []

/-- The fixed-block chunking of the specification: `⌈n/512⌉` descriptors, the `i`-th
being `(512*i, min 512 (n - 512*i), SHA1(F[512*i .. 512*i+size)))`. -/
def refBlocks (sha1 : List Byte → SHAValue) (F : List Byte) : List RDiffBlock :=
  (List.range ((F.length + 511) / 512)).map fun i =>
    let size := min 512 (F.length - 512 * i)
    ⟨((512 * i : Nat) : Int), ((size : Nat) : Int), sha1 ((F.drop (512 * i)).take size)⟩


/-! ## Decimal and ASCII text -/

/-- The byte of an ASCII character. -/
def asciiByte (c : Char) : Byte := ⟨c.toNat % 256, Nat.mod_lt _ (by decide)⟩

/-- The bytes of an ASCII string literal. -/
def ascii (s : String) : List Byte := s.toList.map asciiByte

/-- The decimal digits of `n`, most significant first; `fuel` bounds the number of digits. -/
def natDigits : Nat → Nat → List Byte
  | 0, _ => []
  | fuel + 1, n =>
    if n < 10 then [⟨(48 + n) % 256, Nat.mod_lt _ (by decide)⟩]
    else natDigits fuel (n / 10) ++ [⟨(48 + n % 10) % 256, Nat.mod_lt _ (by decide)⟩]

/-- The function `strconv.FormatInt(i, 10)` (and `strconv.Itoa`). -/
def FormatInt (i : Int) : List Byte :=
  if i < 0 then asciiByte '-' :: natDigits (i.natAbs + 1) i.natAbs
  else natDigits (i.natAbs + 1) i.natAbs

/-! ## The file system seen by one tracked file -/

/-- A regular file: its bytes and the times `syscall.Stat` reports, in nanoseconds. -/
structure OSFile where
  data : List Byte
  Atim : Int
  Mtim : Int
  Ctim : Int
deriving DecidableEq

/-- The sidecar directory `<root>/<dir(P)>`, as far as the tracked file `P` is concerned:
`P.meta` (the record it holds), `P.patch` and `P.range`; `none` is an absent file. -/
structure Sidecar where
  metaFile : Option FileMetaData
  patchFile : Option (List Byte)
  rangeFile : Option (List Byte)
deriving DecidableEq

/-- The tracked file (`none` when absent) and its sidecar directory (`none` when the
directory does not exist). -/
structure FS where
  file : Option OSFile
  sidecar : Option Sidecar
deriving DecidableEq

/-- The function `CreateDirIfNotExist` on the sidecar directory: the directory afterwards. -/
def CreateDirIfNotExist (sidecar : Option Sidecar) : Sidecar :=
  match sidecar with
  | none => ⟨none, none, none⟩
  | some sc => sc

/-- The function `GetFileHash`: SHA-1 of the whole file. -/
def GetFileHash (sha1 : List Byte → SHAValue) (data : List Byte) : SHAValue := sha1 data

/-- The function `GetFileMetaData`: `none` when the `.meta` file is absent. -/
def GetFileMetaData (fs : FS) : Option FileMetaData :=
  match fs.sidecar with
  | none => none
  | some sc => sc.metaFile

/-- The function `IsBaseline`: no sidecar directory, or no `.meta` file in it. -/
def IsBaseline (fs : FS) : Bool :=
  match fs.sidecar with
  | none => true
  | some sc =>
    match sc.metaFile with
    | none => true
    | some _ => false

/-- The function `UpdateFileMetaData(filepath, state, prevPatchHash, isBaseline)` at time `now`.
When `state` is empty the blocks are recomputed, and the `io.EOF` that
`MakeRDiffBlocks` returns is taken for a failure. -/
def UpdateFileMetaData (sha1 : List Byte → SHAValue) (now : Int) (fs : FS)
    (state : List RDiffBlock) (prevPatchHash : SHAValue) (isBaseline : Bool) :
    Option GoError × FS :=
  match fs.file with
  | none => (some .ENOENT, fs)
  | some f =>
    let sc := CreateDirIfNotExist fs.sidecar
    let fs1 : FS := { fs with sidecar := some sc }
    let FileSize : Int := f.data.length
    let typed : Option (Int × Int × SHAValue × SHAValue) :=
      if isBaseline = false then
        match sc.patchFile with
        | none => none
        | some patchData =>
          some (FORMAT_PATCH, (patchData.length : Int), prevPatchHash,
            GetFileHash sha1 patchData)
      else
        some (FORMAT_BASELINE, FileSize, SHAValue.empty, GetFileHash sha1 f.data)
    match typed with
    | none => (some .ENOENT, fs1)
    | some (PatchType, PatchSize, PrevPatchHash, PatchHash) =>
      let stated : List RDiffBlock × Option GoError :=
        if state.length > 0 then (state, none) else MakeRDiffBlocks sha1 f.data
      match stated with
      | (_, some err) => (some err, fs1)
      | (PatchState, none) =>
        let metaData : FileMetaData :=
          { Backuptime := now
            Atime := Int.tdiv f.Atim 1000000000
            Mtime := Int.tdiv f.Mtim 1000000000
            Ctime := Int.tdiv f.Ctim 1000000000
            FileSize := FileSize
            PatchSize := PatchSize
            PatchType := PatchType
            PrevPatchHash := PrevPatchHash
            PatchHash := PatchHash
            PatchState := PatchState }
        (none, { fs1 with sidecar := some { sc with metaFile := some metaData } })

/-! ## Range manifest -/

/-- The expression `patch.Offset + patch.Size - 1` of `CreateRangeFile`: a sum of `int64`
values, which wraps around.  Fields outside the `int64` range are the fields of no Go
entry; their sum is left as it stands. -/
def CreateRangeFile.rangeEnd (patch : Patch) : Int :=
  if isInt 64 patch.Offset ∧ isInt 64 patch.Size then
    wrapInt64 (patch.Offset + patch.Size - 1)
  else patch.Offset + patch.Size - 1

/-- The loop of `CreateRangeFile` over `patches[i:]`, `n = len(patches)`: the text built,
or the error raised by a `PATCH_TRUNCATE` entry that is not the last one. -/
def CreateRangeFile.loop (fileSize : Int) (n : Nat) :
    List Patch → Nat → List Byte → Except GoError (List Byte)
  | [], _, buf => .ok buf
  | patch :: rest, i, buf =>
    let buf1 :=
      if i = 0 then
        buf ++ FormatInt patch.Offset ++ ascii "-" ++
          FormatInt (CreateRangeFile.rangeEnd patch) ++ ascii "/" ++ FormatInt fileSize
      else if patch.Size > 0 then
        buf ++ ascii ", " ++ FormatInt patch.Offset ++ ascii "-" ++
          FormatInt (CreateRangeFile.rangeEnd patch) ++ ascii "/*"
      else buf
    if patch.Type_ = PATCH_TRUNCATE ∧ i ≠ n - 1 then .error .truncateFormat
    else CreateRangeFile.loop fileSize n rest (i + 1) buf1

/-- The function `CreateRangeFile(filepath, patches)`: the `.range` file is created empty when it is
opened and receives the text only when no error occurs. -/
def CreateRangeFile (fs : FS) (patches : List Patch) : Option GoError × FS :=
  match fs.file with
  | none => (some .ENOENT, fs)
  | some f =>
    match fs.sidecar with
    | none => (some .ENOENT, fs)
    | some sc =>
      let fileSize : Int := f.data.length
      let written (text : List Byte) : FS :=
        { fs with sidecar := some { sc with rangeFile := some text } }
      let single : Bool :=
        match patches with
        | [p] => decide (p.Type_ = PATCH_TRUNCATE)
        | _ => false
      if single then (none, written (ascii "bytes " ++ ascii "*/" ++ FormatInt fileSize))
      else
        match CreateRangeFile.loop fileSize patches.length patches 0 (ascii "bytes ") with
        | .error e => (some e, written [])
        | .ok buf => (none, written buf)

/-! ## Patch builder -/

/-- The comparison loop of `CreatePatch` (`for i := 0; i < minLen; i++`): a
`PATCH_CHANGE` entry for every index whose signature differs from the stored one. -/
def CreatePatch.compare (rdiffBlocks state : List RDiffBlock) (minLen : Nat) : List Patch :=
  (List.range minLen).foldl (fun patches i =>
    match rdiffBlocks[i]?, state[i]? with
    | some cur, some org =>
      if cur.Signature ≠ org.Signature then
        patches ++ [⟨cur.Offset, cur.Size, PATCH_CHANGE⟩]
      else patches
    | _, _ => patches) []

/-- The tail of the entry list: the new blocks when the file has more blocks than
before, else (`orgRdiffLen >= minLen`) one `PATCH_TRUNCATE` entry at `fileSize`. -/
def CreatePatch.complete (rdiffBlocks : List RDiffBlock) (orgRdiffLen minLen : Nat)
    (fileSize : Int) (patches : List Patch) : List Patch :=
  if rdiffBlocks.length > minLen then
    (List.range' minLen (rdiffBlocks.length - minLen)).foldl (fun patches i =>
      match rdiffBlocks[i]? with
      | some cur => patches ++ [⟨cur.Offset, cur.Size, PATCH_CHANGE⟩]
      | none => patches) patches
  else if orgRdiffLen ≥ minLen then patches ++ [⟨fileSize, 0, PATCH_TRUNCATE⟩]
  else patches

/-- The entry list `CreatePatch` builds from the current blocks and the stored ones:
`none` for a no-content capture (same number of blocks, no signature differs). -/
def CreatePatch.entries (rdiffBlocks state : List RDiffBlock) (fileSize : Int) :
    Option (List Patch) :=
  let curRdiffLen := rdiffBlocks.length
  let orgRdiffLen := state.length
  let minLen := min curRdiffLen orgRdiffLen
  let patches := CreatePatch.compare rdiffBlocks state minLen
  if curRdiffLen = orgRdiffLen ∧ patches.length = 0 then none
  else some (CreatePatch.complete rdiffBlocks orgRdiffLen minLen fileSize patches)

/-- The header of the patch file: the entry count, then one line per entry. -/
def CreatePatch.header (patches : List Patch) : List Byte :=
  FormatInt patches.length ++ ascii "\n" ++
    patches.flatMap fun patch =>
      FormatInt patch.Offset ++ ascii ":" ++ FormatInt patch.Size ++ ascii ":" ++
        FormatInt patch.Type_ ++ ascii "\n"

/-- The method `(*os.File).ReadAt(b, off)` with `len(b) = k`: the bytes read; `io.EOF` when fewer
than `k`; an error for a negative offset. -/
def ReadAt (data : List Byte) (k : Nat) (off : Int) : List Byte × Option GoError :=
  if off < 0 then ([], some .EINVAL)
  else
    let got := (data.drop off.toNat).take k
    (got, if got.length < k then some .EOF else none)

/-- The payload loop of `CreatePatch`: `buf` is the shared buffer (re-sliced after a
short read), `out` what has been written to the patch file so far. -/
def CreatePatch.payload (data : List Byte) :
    List Patch → List Byte → List Byte → Option GoError × List Byte
  | [], _, out => (none, out)
  | patch :: rest, buf, out =>
    if patch.Size = 0 then (none, out)
    else
      match ReadAt data buf.length patch.Offset with
      | (got, err) =>
        if err ≠ none ∧ err ≠ some .EOF then (err, out)
        else
          let rc := got.length
          let buf1 := got ++ buf.drop rc
          let buf2 := if rc < RDIFF_BLOCKSIZE then buf1.take rc else buf1
          CreatePatch.payload data rest buf2 (out ++ buf2)

/-- Turns the `err` a callee returned into the outcome of the caller. -/
def Outcome.ofErr (r : Option GoError × FS) : Outcome × FS :=
  match r with
  | (none, fs1) => (.ok, fs1)
  | (some e, fs1) => (.error e, fs1)

/-- The function `CreatePatch(filepath)` at time `now`. -/
def CreatePatch (sha1 : List Byte → SHAValue) (now : Int) (fs : FS) : Outcome × FS :=
  match fs.file with
  | none => (.error .ENOENT, fs)
  | some f =>
    let isBaseline := IsBaseline fs
    match MakeRDiffBlocks sha1 f.data with
    | (rdiffBlocks, err) =>
      if err ≠ none ∧ err ≠ some .EOF then Outcome.ofErr (err, fs)
      else if isBaseline then
        Outcome.ofErr (UpdateFileMetaData sha1 now fs rdiffBlocks SHAValue.empty true)
      else
        match GetFileMetaData fs, fs.sidecar with
        | some metadata, some sc =>
          let curRdiffLen := rdiffBlocks.length
          match rdiffBlocks[curRdiffLen - 1]? with
          | none => (.panic, fs)
          | some last =>
            let fileSize := last.Offset + last.Size
            match CreatePatch.entries rdiffBlocks metadata.PatchState fileSize with
            | none =>
              let isBaseline1 : Bool :=
                match sc.patchFile with
                | none => true
                | some _ => false
              Outcome.ofErr
                (UpdateFileMetaData sha1 now fs rdiffBlocks metadata.PatchHash isBaseline1)
            | some patches =>
              match CreatePatch.payload f.data patches (List.replicate RDIFF_BLOCKSIZE 0)
                  (CreatePatch.header patches) with
              | (some e, out) =>
                (.error e, { fs with sidecar := some { sc with patchFile := some out } })
              | (none, out) =>
                let fs1 : FS := { fs with sidecar := some { sc with patchFile := some out } }
                match CreateRangeFile fs1 patches with
                | (some e, fs2) => (.error e, fs2)
                | (none, fs2) =>
                  Outcome.ofErr
                    (UpdateFileMetaData sha1 now fs2 rdiffBlocks metadata.PatchHash false)
        | _, _ => (.error .ENOENT, fs)

/-! ## Patch applier -/

/-- The line up to and including the first `delim` of `l`, and what follows it. -/
def splitAfter (delim : Byte) : List Byte → Option (List Byte × List Byte)
  | [] => none
  | c :: cs =>
    if c = delim then some ([c], cs)
    else
      match splitAfter delim cs with
      | none => none
      | some (line, remaining) => some (c :: line, remaining)

/-- The loop of `(*bufio.Reader).ReadString` (`collectFragments` over `ReadSlice` and
`fill`): the delimiter is searched in the buffer; a full buffer without delimiter is
set aside in `acc`; otherwise the buffer is topped up from the file, and the end of
the file ends the line with `io.EOF`. -/
def Reader.ReadString.loop (delim : Byte) :
    Nat → Reader → List Byte → List Byte × Option GoError × Reader
  | 0, b, acc => (acc, some .outOfFuel, b)
  | fuel + 1, b, acc =>
    match splitAfter delim b.buf with
    | some (line, remaining) => (acc ++ line, none, ⟨remaining, b.rest⟩)
    | none =>
      if defaultBufSize ≤ b.buf.length then
        Reader.ReadString.loop delim fuel ⟨[], b.rest⟩ (acc ++ b.buf)
      else if b.rest = [] then (acc ++ b.buf, some .EOF, ⟨[], []⟩)
      else
        let n := defaultBufSize - b.buf.length
        Reader.ReadString.loop delim fuel ⟨b.buf ++ b.rest.take n, b.rest.drop n⟩ acc

/-- The method `(*bufio.Reader).ReadString(delim)`. -/
def Reader.ReadString (b : Reader) (delim : Byte) : List Byte × Option GoError × Reader :=
  Reader.ReadString.loop delim (2 * b.rest.length + 3) b []

/-- The function `strings.Split(s, sep)` for a one-byte separator. -/
def Split (sep : Byte) : List Byte → List (List Byte)
  | [] => [[]]
  | c :: cs =>
    if c = sep then [] :: Split sep cs
    else
      match Split sep cs with
      | [] => [[c]]
      | field :: fields => (c :: field) :: fields

/-- The value of a string of decimal digits, `none` when a byte is not a digit. -/
def parseDigits : List Byte → Nat → Option Nat
  | [], n => some n
  | c :: cs, n =>
    if 48 ≤ c.val ∧ c.val ≤ 57 then parseDigits cs (10 * n + (c.val - 48)) else none

/-- The function `strconv.ParseInt(s, 10, bitSize)`: `none` for a syntax or range error. -/
def ParseInt (s : List Byte) (bitSize : Nat) : Option Int :=
  match s with
  | [] => none
  | c :: cs =>
    let neg : Bool := decide (c = asciiByte '-')
    let digits := if c = asciiByte '+' ∨ c = asciiByte '-' then cs else s
    if digits = [] then none
    else
      match parseDigits digits 0 with
      | none => none
      | some un =>
        let cutoff : Nat := 2 ^ (bitSize - 1)
        if neg = false ∧ cutoff ≤ un then none
        else if neg = true ∧ cutoff < un then none
        else some (if neg then -(un : Int) else (un : Int))

/-- The header loop of `MergePatch` (`for i := int64(0); i < patchlineCnt; i++`), with
`n` iterations left.  Slicing an empty line and indexing a missing field panic. -/
def MergePatch.readLines :
    Nat → Reader → List Patch → Except Outcome (List Patch × Reader)
  | 0, b, patchlines => .ok (patchlines, b)
  | n + 1, b, patchlines =>
    match b.ReadString (asciiByte '\n') with
    | (strline, err, b1) =>
      if err ≠ none ∧ err ≠ some .EOF then .error (.error (err.getD .outOfFuel))
      else if strline = [] then .error .panic
      else
        let fields := Split (asciiByte ':') strline.dropLast
        match fields[0]? with
        | none => .error .panic
        | some f0 =>
          match ParseInt f0 64 with
          | none => .error (.error .syntaxOrRange)
          | some offset =>
            match fields[1]? with
            | none => .error .panic
            | some f1 =>
              match ParseInt f1 64 with
              | none => .error (.error .syntaxOrRange)
              | some size =>
                match fields[2]? with
                | none => .error .panic
                | some f2 =>
                  match ParseInt f2 8 with
                  | none => .error (.error .syntaxOrRange)
                  | some patchType =>
                    MergePatch.readLines n b1 (patchlines ++ [⟨offset, size, patchType⟩])

/-- The method `(*os.File).WriteAt(p, off)` for `off ≥ 0`: the file afterwards (a gap is
zero-filled). -/
def WriteAt (base p : List Byte) (off : Nat) : List Byte :=
  (base ++ List.replicate (off - base.length) 0).take off ++ p ++ base.drop (off + p.length)

/-- The method `(*os.File).Truncate(size)` for `size ≥ 0`: the file afterwards. -/
def Truncate (base : List Byte) (size : Nat) : List Byte :=
  (base ++ List.replicate (size - base.length) 0).take size

/-- The apply loop of `MergePatch` (`for i, patchline := range patchlines`). -/
def MergePatch.apply (basefileSize : Int) :
    List Patch → Reader → List Byte → Option GoError × List Byte
  | [], _, base => (none, base)
  | patchline :: rest, b, base =>
    if patchline.Size = 0 then
      if patchline.Offset < 0 then (some .EINVAL, base)
      else (none, Truncate base patchline.Offset.toNat)
    else
      match b.Read RDIFF_BLOCKSIZE with
      | (buf, err, b1) =>
        if err ≠ none ∧ err ≠ some .EOF then (err, base)
        else if (buf.length : Int) ≠ patchline.Size then (some .sizeMismatched, base)
        else if patchline.Offset < basefileSize then
          if patchline.Offset < 0 then (some .EINVAL, base)
          else MergePatch.apply basefileSize rest b1 (WriteAt base buf patchline.Offset.toNat)
        else MergePatch.apply basefileSize rest b1 (base ++ buf)

/-- The function `MergePatch(base, patch)` on the contents of the two files (`none`: absent): the
outcome and the base file afterwards. -/
def MergePatch (base patch : Option (List Byte)) : Outcome × Option (List Byte) :=
  match base, patch with
  | none, _ => (.error .ENOENT, base)
  | some _, none => (.error .ENOENT, base)
  | some basefile, some patchfile =>
    let basefileSize : Int := basefile.length
    match (NewReader patchfile).ReadString (asciiByte '\n') with
    | (strline, err, b1) =>
      if err ≠ none ∧ err ≠ some .EOF then (.error (err.getD .outOfFuel), base)
      else if strline = [] then (.panic, base)
      else
        match ParseInt strline.dropLast 64 with
        | none => (.error .syntaxOrRange, base)
        | some patchlineCnt =>
          match MergePatch.readLines patchlineCnt.toNat b1 [] with
          | .error o => (o, base)
          | .ok (patchlines, b2) =>
            match MergePatch.apply basefileSize patchlines b2 basefile with
            | (none, basefile1) => (.ok, some basefile1)
            | (some e, basefile1) => (.error e, some basefile1)

/-- The function `ConsolidatePatches(baseline, patches)`: the patches are merged in order, and the
first failure ends the loop. -/
def ConsolidatePatches (baseline : Option (List Byte)) :
    List (Option (List Byte)) → Outcome × Option (List Byte)
  | [] => (.ok, baseline)
  | patch :: patches =>
    match MergePatch baseline patch with
    | (.ok, baseline1) => ConsolidatePatches baseline1 patches
    | (o, baseline1) => (o, baseline1)

/-! ## Auxiliary definitions of the proofs -/

/-- The reader invariant of the signing loop: while the file has bytes left to fetch,
the buffer holds a whole number of blocks. -/
def Reader.Aligned (b : Reader) : Prop :=
  b.rest = [] ∨ b.buf.length % 512 = 0

/-- The bytes a reader will still deliver. -/
def Reader.pending (b : Reader) : List Byte := b.buf ++ b.rest

/-- The blocks the loop still has to emit when `s` is pending at offset `offset`. -/
def blocksFrom (sha1 : List Byte → SHAValue) (offset : Nat) (s : List Byte) :
    List RDiffBlock :=
  (List.range ((s.length + 511) / 512)).map fun i =>
    ⟨((offset + 512 * i : Nat) : Int), ((min 512 (s.length - 512 * i) : Nat) : Int),
      sha1 ((s.drop (512 * i)).take 512)⟩

/-- What the comparison loop of `CreatePatch` appends at index `i`. -/
def CreatePatch.changeAt (rdiffBlocks state : List RDiffBlock) (i : Nat) : List Patch :=
  match rdiffBlocks[i]?, state[i]? with
  | some cur, some org =>
    if cur.Signature ≠ org.Signature then [⟨cur.Offset, cur.Size, PATCH_CHANGE⟩] else []
  | _, _ => []

/-- What the growth loop of `CreatePatch` appends at index `i`. -/
def CreatePatch.newAt (rdiffBlocks : List RDiffBlock) (i : Nat) : List Patch :=
  match rdiffBlocks[i]? with
  | some cur => [⟨cur.Offset, cur.Size, PATCH_CHANGE⟩]
  | none => []

/-- The `PATCH_CHANGE` entries of a capture, index by index. -/
def CreatePatch.entryAt (rdiffBlocks state : List RDiffBlock) (i : Nat) : List Patch :=
  if i < state.length then CreatePatch.changeAt rdiffBlocks state i
  else CreatePatch.newAt rdiffBlocks i

/-- A sample signature: twenty bytes `1`. -/
def sampleSigA : SHAValue := ⟨List.replicate 20 1, rfl⟩

/-- A sample signature: twenty bytes `2`. -/
def sampleSigB : SHAValue := ⟨List.replicate 20 2, rfl⟩

/-- A sample descriptor list: one full block. -/
def sampleOne : List RDiffBlock := [⟨0, 512, sampleSigA⟩]

/-- A sample descriptor list: the block of `sampleOne` followed by a short block. -/
def sampleTwo : List RDiffBlock := [⟨0, 512, sampleSigA⟩, ⟨512, 100, sampleSigB⟩]

/-- The record `UpdateFileMetaData` writes for the file `f` at time `now`, given the
fields that depend on the kind of capture. -/
def recordOf (now : Int) (f : OSFile) (PatchType PatchSize : Int)
    (PrevPatchHash PatchHash : SHAValue) (PatchState : List RDiffBlock) : FileMetaData :=
  { Backuptime := now
    Atime := Int.tdiv f.Atim 1000000000
    Mtime := Int.tdiv f.Mtim 1000000000
    Ctime := Int.tdiv f.Ctim 1000000000
    FileSize := f.data.length
    PatchSize := PatchSize
    PatchType := PatchType
    PrevPatchHash := PrevPatchHash
    PatchHash := PatchHash
    PatchState := PatchState }

/-- The bytes of the patch file `CreatePatch` writes for the entry list `patches`. -/
def patchFileOf (data : List Byte) (patches : List Patch) : List Byte :=
  (CreatePatch.payload data patches (List.replicate RDIFF_BLOCKSIZE 0)
    (CreatePatch.header patches)).2

/-- A stand-in for SHA-1 in evaluations on concrete files: the first twenty bytes of
the block, zero-padded.  It separates blocks that differ within their first twenty
bytes. -/
def prefixDigest (block : List Byte) : SHAValue :=
  ⟨(block ++ List.replicate 20 0).take 20, by simp⟩

/-- A tracked file with content `data` and zero time stamps. -/
def fileOf (data : List Byte) : OSFile := ⟨data, 0, 0, 0⟩

/-- The sidecar left by a baseline capture of the one-byte file `A`. -/
def samplePrior : Sidecar :=
  ⟨some (recordOf 0 (fileOf [65]) FORMAT_BASELINE 1 SHAValue.empty (prefixDigest [65])
    (refBlocks prefixDigest [65])), none, none⟩

/-- The patch file written when the one-byte file `A` has become `B`. -/
def samplePatchFile : List Byte := ascii "2\n0:1:0\n1:0:2\nB"

/-- The sidecar left by the patch capture of `B` over `samplePrior`. -/
def samplePatched : Sidecar :=
  ⟨some (recordOf 1 (fileOf [66]) FORMAT_PATCH 15 (prefixDigest [65])
    (prefixDigest samplePatchFile) (refBlocks prefixDigest [66])),
    some samplePatchFile, some (ascii "bytes 0-0/1")⟩

/-- A file of eight full blocks of the byte `B`. -/
def largeFile : List Byte := List.replicate 4096 66

/-- The entry `CreatePatch` generates for block `i` of the file `F`. -/
def blockEntry (F : List Byte) (i : Nat) : Patch :=
  ⟨((512 * i : Nat) : Int), ((min 512 (F.length - 512 * i) : Nat) : Int), PATCH_CHANGE⟩

/-- The payload of a `PATCH_CHANGE` entry `e` of the file `F`: `F[offset .. offset+size)`. -/
def payloadOf (F : List Byte) (e : Patch) : List Byte :=
  (F.drop e.Offset.toNat).take e.Size.toNat

/-- The entries of the capture in which the one-byte file `A` has become `B`. -/
def sampleEntries : List Patch := [⟨0, 1, PATCH_CHANGE⟩, ⟨1, 0, PATCH_TRUNCATE⟩]

/-- The text `o-e` of the byte range of an entry as `CreateRangeFile` writes it, with
`e = o + size - 1` computed in `int64`. -/
def rangeOf (p : Patch) : List Byte :=
  FormatInt p.Offset ++ ascii "-" ++ FormatInt (CreateRangeFile.rangeEnd p)

/-- The text `o-e` of the byte range of an entry in the words of the specification, with
`e = o + size - 1`. -/
def specRangeOf (p : Patch) : List Byte :=
  FormatInt p.Offset ++ ascii "-" ++ FormatInt (p.Offset + p.Size - 1)

/-- The manifest `CreateRangeFile` builds when the list is not a single truncate entry:
the range of the first entry, whatever its size, suffixed `/S`, then the ranges of the
later entries of positive size, each preceded by `, ` and suffixed `/*`. -/
def rangeManifest (S : Int) : List Patch → List Byte
  | [] => ascii "bytes "
  | first :: later =>
    ascii "bytes " ++ rangeOf first ++ ascii "/" ++ FormatInt S ++
      (later.filter fun p => decide (p.Size > 0)).flatMap fun p =>
        ascii ", " ++ rangeOf p ++ ascii "/*"

/-- The manifest in the words of the specification: the ranges of the entries with
non-zero size, in order and separated by `, `, the first suffixed `/S` and every later
one `/*`; zero-size entries contribute nothing. -/
def specManifest (S : Int) (patches : List Patch) : List Byte :=
  match patches.filter fun p => decide (p.Size ≠ 0) with
  | [] => ascii "bytes "
  | first :: later =>
    ascii "bytes " ++ specRangeOf first ++ ascii "/" ++ FormatInt S ++
      later.flatMap fun p => ascii ", " ++ specRangeOf p ++ ascii "/*"

/-- Whether the list is exactly one `PATCH_TRUNCATE` entry. -/
def isSingleTruncate (patches : List Patch) : Bool :=
  match patches with
  | [p] => decide (p.Type_ = PATCH_TRUNCATE)
  | _ => false

/-- A stand-in for SHA-1 in evaluations on concrete files: the length of the block in
two bytes, then its first eighteen bytes, zero-padded.  It separates blocks of
different lengths and blocks that differ within their first eighteen bytes. -/
def sizedDigest (block : List Byte) : SHAValue :=
  ⟨[⟨(block.length / 256) % 256, Nat.mod_lt _ (by decide)⟩,
      ⟨block.length % 256, Nat.mod_lt _ (by decide)⟩] ++
    (block ++ List.replicate 18 0).take 18, by simp⟩

/-- A file of 100 bytes `A`. -/
def sampleA100 : List Byte := List.replicate 100 65

/-- A tail of 50 bytes `B`. -/
def sampleT50 : List Byte := List.replicate 50 66

/-! ## Restore chain (`src/main/mock_client.go`) -/

/-- The fields of `triton.Version` that `GetFile` reads; the field `Type` is written `Type_`. -/
structure Version where
  ObjectId : List Byte
  Type_ : List Byte
deriving DecidableEq

/-- The local file `GetFile` downloads the object `objectId` to:
`tmpDownloadPath + version.ObjectId + ".dat"`. -/
def GetFile.path (tmpDownloadPath objectId : List Byte) : List Byte :=
  tmpDownloadPath ++ objectId ++ ascii ".dat"

/-- The download loop of `GetFile` over `fileVersions[idx:]`: a version whose file is
already in `downloadFiles` is skipped; slicing `ObjectId[0:2]`, `ObjectId[2:4]` panics
for an object ID of fewer than four bytes; `fetch` is the transfer
(`s3Conveyor.DownloadObject`), whose error ends the call; the loop stops after a
version of type `baseline`. -/
def GetFile.download (tmpDownloadPath : List Byte) (fetch : List Byte → Option GoError) :
    List Version → List (List Byte) → Outcome × List (List Byte)
  | [], downloadFiles => (.ok, downloadFiles)
  | version :: rest, downloadFiles =>
    let file := GetFile.path tmpDownloadPath version.ObjectId
    if file ∈ downloadFiles then GetFile.download tmpDownloadPath fetch rest downloadFiles
    else if version.ObjectId.length < 4 then (.panic, downloadFiles)
    else
      match fetch version.ObjectId with
      | some e => (.error e, downloadFiles)
      | none =>
        let downloadFiles1 := downloadFiles ++ [file]
        if version.Type_ = ascii "baseline" then (.ok, downloadFiles1)
        else GetFile.download tmpDownloadPath fetch rest downloadFiles1

/-- The list `downloadFiles` at the moment `GetFile` calls
`ConsolidatePatches(downloadFiles[0], downloadFiles[1:])`: the downloaded files,
reversed in place.  Slicing `fileVersions[idx:]` out of range and indexing an empty
`downloadFiles` panic. -/
def GetFile.downloadFiles (tmpDownloadPath : List Byte) (fetch : List Byte → Option GoError)
    (fileVersions : List Version) (idx : Int) : Outcome × List (List Byte) :=
  if idx < 0 ∨ (fileVersions.length : Int) < idx then (.panic, [])
  else
    match GetFile.download tmpDownloadPath fetch (fileVersions.drop idx.toNat) [] with
    | (.ok, downloadFiles) =>
      if downloadFiles.reverse = [] then (.panic, []) else (.ok, downloadFiles.reverse)
    | (o, downloadFiles) => (o, downloadFiles)

/-- The versions from the newest up to and including the first one of type `baseline`. -/
def untilBaseline : List Version → List Version
  | [] => []
  | version :: rest =>
    if version.Type_ = ascii "baseline" then [version] else version :: untilBaseline rest

deriving instance DecidableEq for Except

/-- The digit `"0123456789abcdef"[n]` of `encoding/hex`. -/
def hexDigit (n : Nat) : Byte :=
  if n < 10 then ⟨(48 + n) % 256, Nat.mod_lt _ (by decide)⟩
  else ⟨(87 + n) % 256, Nat.mod_lt _ (by decide)⟩

/-- The function `hex.EncodeToString`: two lower-case digits per byte. -/
def EncodeToString (src : List Byte) : List Byte :=
  src.flatMap fun b => [hexDigit (b.val / 16), hexDigit (b.val % 16)]

/-- The function `fromHexChar` of `encoding/hex`: digits and letters of either case. -/
def fromHexChar (c : Byte) : Option Nat :=
  if 48 ≤ c.val ∧ c.val ≤ 57 then some (c.val - 48)
  else if 97 ≤ c.val ∧ c.val ≤ 102 then some (c.val - 87)
  else if 65 ≤ c.val ∧ c.val ≤ 70 then some (c.val - 55)
  else none

/-- The function `hex.DecodeString`: `none` for a byte that is no hex digit and for an odd
length. -/
def DecodeString : List Byte → Option (List Byte)
  | [] => some []
  | [_] => none
  | a :: b :: rest =>
    match fromHexChar a, fromHexChar b with
    | some x, some y =>
      match DecodeString rest with
      | some out => some (⟨(x * 16 + y) % 256, Nat.mod_lt _ (by decide)⟩ :: out)
      | none => none
    | _, _ => none

/-- The function `strings.Trim(s, cutset)` for a one-byte cutset. -/
def Trim (cut : Byte) (s : List Byte) : List Byte :=
  ((s.dropWhile fun c => c = cut).reverse.dropWhile fun c => c = cut).reverse

/-- The built-in `copy(hash[:], src)` into a 20-byte array. -/
def copyHash (hash : SHAValue) (src : List Byte) : SHAValue :=
  ⟨(src ++ hash.val.drop src.length).take 20, by
    have := hash.property
    simp only [List.length_take, List.length_append, List.length_drop]
    omega⟩

/-- The method `SHAValue.MarshalJSON`. -/
def SHAValue.MarshalJSON (hash : SHAValue) : List Byte :=
  if hash = SHAValue.empty then ascii "\"\""
  else ascii "\"" ++ EncodeToString hash.val ++ ascii "\""

/-- The method `(*SHAValue).UnmarshalJSON` on a non-nil receiver: the receiver afterwards. -/
def SHAValue.UnmarshalJSON (hash : SHAValue) (data : List Byte) : Except GoError SHAValue :=
  let strHash := Trim (asciiByte '"') data
  if strHash.length = 0 then .ok SHAValue.empty
  else if strHash.length ≠ 40 then .error .invalidHash
  else
    match DecodeString strHash with
    | none => .error .invalidHex
    | some tmpHash => .ok (copyHash hash tmpHash)

/-- The method `RDiffBlock.MarshalJSON` (`unsafe.Sizeof(block)` is 36, never 0). -/
def RDiffBlock.MarshalJSON (block : RDiffBlock) : List Byte :=
  ascii "\"" ++ FormatInt block.Offset ++ ascii ":" ++ FormatInt block.Size ++ ascii ":" ++
    EncodeToString block.Signature.val ++ ascii "\""

/-- The method `(*RDiffBlock).UnmarshalJSON` on a non-nil receiver: the receiver afterwards
when the call returns nil, the error, or the panic of indexing a missing field. -/
def RDiffBlock.UnmarshalJSON (block : RDiffBlock) (data : List Byte) :
    Except Outcome RDiffBlock :=
  let fields := Split (asciiByte ':') (Trim (asciiByte '"') data)
  match fields[0]? with
  | none => .error .panic
  | some f0 =>
    match ParseInt f0 64 with
    | none => .error (.error .syntaxOrRange)
    | some offset =>
      match fields[1]? with
      | none => .error .panic
      | some f1 =>
        match ParseInt f1 64 with
        | none => .error (.error .syntaxOrRange)
        | some size =>
          match fields[2]? with
          | none => .error .panic
          | some f2 =>
            if f2.length ≠ 40 then .error (.error .invalidHash)
            else
              match DecodeString f2 with
              | none => .error (.error .invalidHex)
              | some tmpHash => .ok ⟨offset, size, copyHash block.Signature tmpHash⟩

/-- The members of the JSON object that `json.Marshal` writes for a `FileMetaData` and
`json.Unmarshal` reads back, each as the text of its value; `patch_state` is the list of
its elements, `none` when the member is left out.  The object syntax around the values
belongs to `encoding/json`. -/
structure MetaDocument where
  backuptime : List Byte
  atime : List Byte
  mtime : List Byte
  ctime : List Byte
  file_size : List Byte
  patch_size : List Byte
  patch_type : List Byte
  prev_patch_hash : List Byte
  patch_hash : List Byte
  patch_state : Option (List (List Byte))
deriving DecidableEq

/-- The call `json.Marshal(metaData)` in `UpdateFileMetaData`: an integer is written in
decimal, a hash and a block descriptor by the `MarshalJSON` of their types, and
`patch_state` is left out (`omitempty`) when the list is empty; a hash, being an array,
is never left out. -/
def Marshal (metaData : FileMetaData) : MetaDocument :=
  { backuptime := FormatInt metaData.Backuptime
    atime := FormatInt metaData.Atime
    mtime := FormatInt metaData.Mtime
    ctime := FormatInt metaData.Ctime
    file_size := FormatInt metaData.FileSize
    patch_size := FormatInt metaData.PatchSize
    patch_type := FormatInt metaData.PatchType
    prev_patch_hash := metaData.PrevPatchHash.MarshalJSON
    patch_hash := metaData.PatchHash.MarshalJSON
    patch_state :=
      if metaData.PatchState = [] then none
      else some (metaData.PatchState.map RDiffBlock.MarshalJSON) }

/-- How `json.Unmarshal` stores a number in an integer field of `bitSize` bits. -/
def Unmarshal.number (text : List Byte) (bitSize : Nat) : Except Outcome Int :=
  match ParseInt text bitSize with
  | none => .error (.error .syntaxOrRange)
  | some v => .ok v

/-- How `json.Unmarshal` stores the elements of `patch_state`: each one through
`(*RDiffBlock).UnmarshalJSON` on a zero block. -/
def Unmarshal.blocks : List (List Byte) → Except Outcome (List RDiffBlock)
  | [] => .ok []
  | data :: rest =>
    match RDiffBlock.UnmarshalJSON ⟨0, 0, SHAValue.empty⟩ data with
    | .error o => .error o
    | .ok block =>
      match Unmarshal.blocks rest with
      | .error o => .error o
      | .ok blocks => .ok (block :: blocks)

/-- How `json.Unmarshal` stores `patch_state`: a member that is left out leaves the nil
list of the zero record. -/
def Unmarshal.state : Option (List (List Byte)) → Except Outcome (List RDiffBlock)
  | none => .ok []
  | some elements => Unmarshal.blocks elements

/-- How `json.Unmarshal` stores a hash: through `(*SHAValue).UnmarshalJSON` on the zero hash. -/
def Unmarshal.hash (data : List Byte) : Except Outcome SHAValue :=
  match SHAValue.UnmarshalJSON SHAValue.empty data with
  | .error e => .error (.error e)
  | .ok hash => .ok hash

/-- The call `json.Unmarshal(jsondata, &metadata)` in `GetFileMetaData`, `metadata` being the
zero record. -/
def Unmarshal (doc : MetaDocument) : Except Outcome FileMetaData := do
  let Backuptime ← Unmarshal.number doc.backuptime 64
  let Atime ← Unmarshal.number doc.atime 64
  let Mtime ← Unmarshal.number doc.mtime 64
  let Ctime ← Unmarshal.number doc.ctime 64
  let FileSize ← Unmarshal.number doc.file_size 64
  let PatchSize ← Unmarshal.number doc.patch_size 64
  let PatchType ← Unmarshal.number doc.patch_type 8
  let PrevPatchHash ← Unmarshal.hash doc.prev_patch_hash
  let PatchHash ← Unmarshal.hash doc.patch_hash
  let PatchState ← Unmarshal.state doc.patch_state
  pure
    { Backuptime := Backuptime
      Atime := Atime
      Mtime := Mtime
      Ctime := Ctime
      FileSize := FileSize
      PatchSize := PatchSize
      PatchType := PatchType
      PrevPatchHash := PrevPatchHash
      PatchHash := PatchHash
      PatchState := PatchState }

/-- The integers of a record are values of their Go types: `int8` for the kind, `int64`
for the others. -/
def FileMetaData.typed (m : FileMetaData) : Prop :=
  isInt 64 m.Backuptime ∧ isInt 64 m.Atime ∧ isInt 64 m.Mtime ∧ isInt 64 m.Ctime ∧
    isInt 64 m.FileSize ∧ isInt 64 m.PatchSize ∧ isInt 8 m.PatchType ∧
    ∀ block ∈ m.PatchState, isInt 64 block.Offset ∧ isInt 64 block.Size

instance (m : FileMetaData) : Decidable m.typed := by
  unfold FileMetaData.typed
  infer_instance

/-- A sample record: a patch over two blocks. -/
def sampleRecord : FileMetaData :=
  { Backuptime := 1700000000
    Atime := 1699999000
    Mtime := 1699999001
    Ctime := 1699999002
    FileSize := 612
    PatchSize := 125
    PatchType := FORMAT_PATCH
    PrevPatchHash := sampleSigA
    PatchHash := sampleSigB
    PatchState := sampleTwo }

/-- A document whose `patch_state` holds one element with two fields only. -/
def sampleCorrupt : MetaDocument :=
  { Marshal sampleRecord with patch_state := some [ascii "\"512:512\""] }


/-! ## Patch files within the reader's buffer -/

/-- The fields of an entry are values of their Go types: `int64` offset and size, `int8` kind. -/
def Patch.typed (e : Patch) : Prop := isInt 64 e.Offset ∧ isInt 64 e.Size ∧ isInt 8 e.Type_

instance (e : Patch) : Decidable e.typed := by
  unfold Patch.typed
  infer_instance

/-- The header line `offset:size:kind` of an entry, without its newline. -/
def entryLine (e : Patch) : List Byte :=
  FormatInt e.Offset ++ ascii ":" ++ FormatInt e.Size ++ ascii ":" ++ FormatInt e.Type_

/-- What `MergePatch` returns for the result of its apply loop. -/
def MergePatch.result (r : Option GoError × List Byte) : Outcome × Option (List Byte) :=
  match r with
  | (none, basefile) => (.ok, some basefile)
  | (some e, basefile) => (.error e, some basefile)

/-- The placement rule of the specification, with the base length `L` captured once: a
`PATCH_TRUNCATE` entry cuts the file at its offset and ends the patch; any other entry
takes `Size` bytes of the payload, overwrites the file at its offset when the offset
is below `L`, and appends them to the file otherwise. -/
def specPlace (L : Int) : List Patch → List Byte → List Byte → List Byte
  | [], _, file => file
  | e :: rest, payload, file =>
    if e.Type_ = PATCH_TRUNCATE then Truncate file e.Offset.toNat
    else
      specPlace L rest (payload.drop e.Size.toNat)
        (if e.Offset < L then WriteAt file (payload.take e.Size.toNat) e.Offset.toNat
        else file ++ payload.take e.Size.toNat)

/-- Entries of kind `PATCH_CHANGE` with a full block of 512 bytes each, at offsets of
the `int64` range that are not negative. -/
def fullBlocks (C : List Patch) : Prop :=
  ∀ e ∈ C, e.Type_ = PATCH_CHANGE ∧ e.Size = 512 ∧ 0 ≤ e.Offset ∧ isInt 64 e.Offset

instance (C : List Patch) : Decidable (fullBlocks C) := by
  unfold fullBlocks
  infer_instance

/-- A final entry of kind `PATCH_TRUNCATE`: size 0, at an offset of the `int64` range that
is not negative. -/
def finalTruncate (t : Option Patch) : Prop :=
  ∀ x ∈ t, x.Type_ = PATCH_TRUNCATE ∧ x.Size = 0 ∧ 0 ≤ x.Offset ∧ isInt 64 x.Offset

instance (t : Option Patch) : Decidable (finalTruncate t) := by
  unfold finalTruncate
  cases t with
  | none => exact isTrue (fun _ h => by cases h)
  | some x =>
    exact decidable_of_iff (x.Type_ = PATCH_TRUNCATE ∧ x.Size = 0 ∧ 0 ≤ x.Offset ∧ isInt 64 x.Offset)
      ⟨fun h y hy => by cases hy; exact h, fun h => h x rfl⟩

/-- Eight entries of kind `PATCH_CHANGE` for the blocks at offsets 0, 512, .., 3584. -/
def sampleBlocks : List Patch :=
  (List.range 8).map fun i => ⟨((512 * i : Nat) : Int), 512, PATCH_CHANGE⟩

/-! ## Sample data of the truncation theorems -/

/-- A file of 1000 bytes `A`. -/
def sampleA1000 : List Byte := List.replicate 1000 65

/-- The first 300 bytes of `sampleA1000`. -/
def sampleA300 : List Byte := List.replicate 300 65

/-- A block of 512 bytes `A`. -/
def sampleBlock512 : List Byte := List.replicate 512 65

/-- The sidecar directory after a baseline capture of the file `P` at time 0: the record,
and neither patch nor range file. -/
def priorOf (sha1 : List Byte → SHAValue) (P : List Byte) : Sidecar :=
  ⟨some (recordOf 0 (fileOf P) FORMAT_BASELINE P.length SHAValue.empty (sha1 P)
    (MakeRDiffBlocks sha1 P).1), none, none⟩

/-! # Theorems -/

/-! ## Block signer -/


theorem Reader.Read_of_pending_nil (b : Reader) (h : b.pending = []) :
    b.Read RDIFF_BLOCKSIZE = ([], some .EOF, b) := by
  obtain ⟨buf, rest⟩ := b
  simp only [Reader.pending, List.append_eq_nil] at h
  obtain ⟨rfl, rfl⟩ := h
  simp [Reader.Read, RDIFF_BLOCKSIZE, defaultBufSize]

theorem Reader.Read_of_pending_ne_nil (b : Reader) (hal : b.Aligned) (h : b.pending ≠ []) :
    ∃ b1 : Reader, b.Read RDIFF_BLOCKSIZE = (b.pending.take 512, none, b1) ∧
      b1.pending = b.pending.drop 512 ∧ b1.Aligned := by
  obtain ⟨buf, rest⟩ := b
  simp only [Reader.pending, Reader.Aligned] at *
  by_cases hb : buf = []
  · subst hb
    have hr : rest ≠ [] := by simpa using h
    refine ⟨⟨(rest.take 4096).drop 512, rest.drop 4096⟩, ?_, ?_, ?_⟩
    · simp [Reader.Read, RDIFF_BLOCKSIZE, defaultBufSize, hr, List.take_take]
    · simp only [List.nil_append]
      by_cases hl : rest.length ≤ 4096
      · rw [List.take_of_length_le hl, List.drop_of_length_le hl, List.append_nil]
      · have h4 : (rest.take 4096).length = 4096 := by
          rw [List.length_take]; omega
        rw [← List.drop_append_of_le_length (by omega), List.take_append_drop]
    · by_cases hl : rest.length ≤ 4096
      · exact Or.inl (List.drop_of_length_le hl)
      · right
        rw [List.length_drop, List.length_take]
        omega
  · refine ⟨⟨buf.drop 512, rest⟩, ?_, ?_, ?_⟩
    · have hk : buf.take 512 = (buf ++ rest).take 512 := by
        rcases hal with hr | hm
        · rw [hr, List.append_nil]
        · have : 0 < buf.length := List.length_pos.mpr hb
          rw [List.take_append_of_le_length (by omega)]
      simp [Reader.Read, RDIFF_BLOCKSIZE, hb, hk]
    · rcases hal with hr | hm
      · simp [hr]
      · have : 0 < buf.length := List.length_pos.mpr hb
        simp only
        rw [List.drop_append_of_le_length (by omega)]
    · rcases hal with hr | hm
      · exact Or.inl hr
      · right
        rw [List.length_drop]
        omega

theorem blocksFrom_nil (sha1 : List Byte → SHAValue) (offset : Nat) :
    blocksFrom sha1 offset [] = [] := by
  simp [blocksFrom]

theorem blocksFrom_of_ne_nil (sha1 : List Byte → SHAValue) (offset : Nat) (s : List Byte)
    (h : s ≠ []) :
    blocksFrom sha1 offset s =
      ⟨(offset : Int), ((min 512 s.length : Nat) : Int), sha1 (s.take 512)⟩ ::
        blocksFrom sha1 (offset + min 512 s.length) (s.drop 512) := by
  have hpos : 0 < s.length := List.length_pos.mpr h
  have hk : (s.length + 511) / 512 = ((s.drop 512).length + 511) / 512 + 1 := by
    rw [List.length_drop]; omega
  unfold blocksFrom
  rw [hk, List.range_succ_eq_map, List.map_cons, List.map_map]
  congr 1
  apply List.map_congr_left
  intro i hi
  rw [List.mem_range, List.length_drop] at hi
  have h1 : min 512 s.length = 512 := by omega
  simp only [Function.comp_apply, List.length_drop, List.drop_drop]
  have h2 : offset + min 512 s.length + 512 * i = offset + 512 * (i + 1) := by omega
  have h3 : s.length - 512 - 512 * i = s.length - 512 * (i + 1) := by omega
  have h4 : 512 + 512 * i = 512 * (i + 1) := by omega
  rw [h2, h3, h4]

theorem MakeRDiffBlocks.loop_eq (sha1 : List Byte → SHAValue) :
    ∀ (fuel : Nat) (b : Reader) (offset : Nat) (acc : List RDiffBlock),
      b.Aligned → b.pending.length < fuel →
      MakeRDiffBlocks.loop sha1 fuel b offset acc =
        (acc ++ blocksFrom sha1 offset b.pending, some .EOF) := by
  intro fuel
  induction fuel with
  | zero => intro b offset acc _ h; omega
  | succ fuel ih =>
    intro b offset acc hal hlen
    by_cases hp : b.pending = []
    · simp [MakeRDiffBlocks.loop, Reader.Read_of_pending_nil b hp, hp, blocksFrom_nil]
    · obtain ⟨b1, hread, hpend, hal1⟩ := Reader.Read_of_pending_ne_nil b hal hp
      have hpos : 0 < b.pending.length := List.length_pos.mpr hp
      have hrc : (b.pending.take 512).length = min 512 b.pending.length := List.length_take _ _
      have hne : ¬ (b.pending.take 512).length = 0 := by omega
      have hfuel : b1.pending.length < fuel := by
        rw [hpend, List.length_drop]; omega
      simp only [MakeRDiffBlocks.loop, hread, hne, if_false]
      rw [ih b1 _ _ hal1 hfuel, hpend, blocksFrom_of_ne_nil sha1 offset _ hp, hrc]
      simp

theorem blocksFrom_zero_eq_refBlocks (sha1 : List Byte → SHAValue) (F : List Byte) :
    blocksFrom sha1 0 F = refBlocks sha1 F := by
  unfold blocksFrom refBlocks
  apply List.map_congr_left
  intro i _
  have ht : ∀ l : List Byte, l.take (min 512 l.length) = l.take 512 := by
    intro l
    rcases Nat.le_total l.length 512 with h | h
    · rw [Nat.min_eq_right h, List.take_of_length_le h, List.take_of_length_le (le_refl _)]
    · rw [Nat.min_eq_left h]
  have := ht (F.drop (512 * i))
  rw [List.length_drop] at this
  simp [this]

theorem MakeRDiffBlocks_eq (sha1 : List Byte → SHAValue) (F : List Byte) :
    MakeRDiffBlocks sha1 F = (refBlocks sha1 F, some .EOF) := by
  unfold MakeRDiffBlocks
  rw [MakeRDiffBlocks.loop_eq sha1 _ (NewReader F) 0 [] (Or.inr rfl) (by simp [NewReader, Reader.pending])]
  simp [NewReader, Reader.pending, blocksFrom_zero_eq_refBlocks]

theorem blocksFrom_sizes_sum (sha1 : List Byte → SHAValue) :
    ∀ (n : Nat) (s : List Byte) (offset : Nat), s.length ≤ n →
      ((blocksFrom sha1 offset s).map RDiffBlock.Size).sum = (s.length : Int) := by
  intro n
  induction n with
  | zero =>
    intro s offset h
    have hs : s = [] := List.length_eq_zero.mp (Nat.le_zero.mp h)
    simp [hs, blocksFrom_nil]
  | succ n ih =>
    intro s offset h
    by_cases hs : s = []
    · simp [hs, blocksFrom_nil]
    · have hpos : 0 < s.length := List.length_pos.mpr hs
      rw [blocksFrom_of_ne_nil sha1 offset s hs, List.map_cons, List.sum_cons,
        ih (s.drop 512) _ (by rw [List.length_drop]; omega), List.length_drop]
      simp only
      omega

theorem blocksFrom_offsets (sha1 : List Byte → SHAValue) :
    ∀ (n : Nat) (s : List Byte) (offset i : Nat) (b : RDiffBlock), s.length ≤ n →
      (blocksFrom sha1 offset s)[i]? = some b →
      b.Offset = (offset : Int) + (((blocksFrom sha1 offset s).take i).map RDiffBlock.Size).sum := by
  intro n
  induction n with
  | zero =>
    intro s offset i b h hb
    have hs : s = [] := List.length_eq_zero.mp (Nat.le_zero.mp h)
    simp [hs, blocksFrom_nil] at hb
  | succ n ih =>
    intro s offset i b h hb
    by_cases hs : s = []
    · simp [hs, blocksFrom_nil] at hb
    · have hpos : 0 < s.length := List.length_pos.mpr hs
      rw [blocksFrom_of_ne_nil sha1 offset s hs] at hb ⊢
      cases i with
      | zero =>
        simp only [List.getElem?_cons_zero, Option.some.injEq] at hb
        subst hb
        simp
      | succ i =>
        rw [List.getElem?_cons_succ] at hb
        have := ih (s.drop 512) _ i b (by rw [List.length_drop]; omega) hb
        rw [this, List.take_succ_cons, List.map_cons, List.sum_cons]
        push_cast
        ring

theorem refBlocks_getElem? (sha1 : List Byte → SHAValue) (F : List Byte) (i : Nat)
    (hi : i < (F.length + 511) / 512) :
    (refBlocks sha1 F)[i]? =
      some ⟨((512 * i : Nat) : Int), ((min 512 (F.length - 512 * i) : Nat) : Int),
        sha1 ((F.drop (512 * i)).take (min 512 (F.length - 512 * i)))⟩ := by
  unfold refBlocks
  rw [List.getElem?_map, List.getElem?_range hi]
  rfl

theorem refBlocks_length (sha1 : List Byte → SHAValue) (F : List Byte) :
    (refBlocks sha1 F).length = (F.length + 511) / 512 := by
  simp [refBlocks]

/-- C2, as stated, fails: the call never returns a nil error, since the `io.EOF` that
ends the read loop is still in the named result `err` at the final `return`. -/
theorem MakeRDiffBlocks_not_without_error :
    ¬ ∀ (sha1 : List Byte → SHAValue) (F : List Byte),
      (MakeRDiffBlocks sha1 F).2 = none ∧ (MakeRDiffBlocks sha1 F).1 = refBlocks sha1 F := by
  intro h
  have h1 := (h (fun _ => SHAValue.empty) []).1
  rw [MakeRDiffBlocks_eq] at h1
  exact absurd h1 (by decide)

/-- C2 (amended): for every file `F` of length `n`, `MakeRDiffBlocks` returns the
fixed-block reference chunking together with `err = io.EOF` (the end-of-input mark,
never another error): exactly `⌈n/512⌉` descriptors, the `i`-th being
`(512*i, min 512 (n - 512*i), SHA1(F[512*i .. 512*i+size)))`; the sizes sum to `n`,
each offset is the sum of the preceding sizes, every block but the last has size 512,
no descriptor has size 0, and an empty file yields an empty list. -/
theorem MakeRDiffBlocks_fixed_blocks (sha1 : List Byte → SHAValue) (F : List Byte) :
    MakeRDiffBlocks sha1 F = (refBlocks sha1 F, some GoError.EOF) ∧
    (MakeRDiffBlocks sha1 F).1.length = (F.length + 511) / 512 ∧
    (∀ i, i < (F.length + 511) / 512 →
      (MakeRDiffBlocks sha1 F).1[i]? =
        some ⟨((512 * i : Nat) : Int), ((min 512 (F.length - 512 * i) : Nat) : Int),
          sha1 ((F.drop (512 * i)).take (min 512 (F.length - 512 * i)))⟩) ∧
    ((MakeRDiffBlocks sha1 F).1.map RDiffBlock.Size).sum = (F.length : Int) ∧
    (∀ i b, (MakeRDiffBlocks sha1 F).1[i]? = some b →
      b.Offset = (((MakeRDiffBlocks sha1 F).1.take i).map RDiffBlock.Size).sum) ∧
    (∀ i b, (MakeRDiffBlocks sha1 F).1[i]? = some b →
      i + 1 < (MakeRDiffBlocks sha1 F).1.length → b.Size = 512) ∧
    (∀ b ∈ (MakeRDiffBlocks sha1 F).1, 0 < b.Size ∧ b.Size ≤ 512) ∧
    (F = [] → (MakeRDiffBlocks sha1 F).1 = []) := by
  have hget : ∀ i b, (refBlocks sha1 F)[i]? = some b →
      i < (F.length + 511) / 512 ∧
        b = ⟨((512 * i : Nat) : Int), ((min 512 (F.length - 512 * i) : Nat) : Int),
          sha1 ((F.drop (512 * i)).take (min 512 (F.length - 512 * i)))⟩ := by
    intro i b hb
    have hi : i < (F.length + 511) / 512 := by
      have := (List.getElem?_eq_some_iff.mp hb).1
      rwa [refBlocks_length] at this
    rw [refBlocks_getElem? sha1 F i hi] at hb
    exact ⟨hi, (Option.some.inj hb).symm⟩
  rw [MakeRDiffBlocks_eq]
  refine ⟨rfl, refBlocks_length sha1 F, fun i hi => refBlocks_getElem? sha1 F i hi, ?_, ?_, ?_,
    ?_, ?_⟩
  · rw [← blocksFrom_zero_eq_refBlocks]
    exact blocksFrom_sizes_sum sha1 F.length F 0 (le_refl _)
  · intro i b hb
    simp only at hb ⊢
    rw [← blocksFrom_zero_eq_refBlocks] at hb ⊢
    simpa using blocksFrom_offsets sha1 F.length F 0 i b (le_refl _) hb
  · intro i b hb hlt
    obtain ⟨_, rfl⟩ := hget i b hb
    simp only [refBlocks_length] at hlt
    simp only
    have : min 512 (F.length - 512 * i) = 512 := by omega
    rw [this]; rfl
  · intro b hb
    obtain ⟨i, hi⟩ := List.getElem?_of_mem hb
    obtain ⟨hlt, rfl⟩ := hget i b hi
    simp only
    constructor
    · have : 0 < min 512 (F.length - 512 * i) := by omega
      exact_mod_cast this
    · have : min 512 (F.length - 512 * i) ≤ 512 := by omega
      exact_mod_cast this
  · intro hF
    simp [hF, refBlocks]

theorem replicate_ne_nil_of_pos (n : Nat) (b : Byte) (h : 0 < n) : List.replicate n b ≠ [] :=
  List.ne_nil_of_length_pos (by rw [List.length_replicate]; exact h)

/-- The blocks of 1200 bytes of `0x41`: offsets 0, 512, 1024, sizes 512, 512, 176, and
the first two signatures are those of the same block. -/
theorem MakeRDiffBlocks_scenario_1200 (sha1 : List Byte → SHAValue) :
    (MakeRDiffBlocks sha1 (List.replicate 1200 65)).1 =
      [⟨0, 512, sha1 (List.replicate 512 65)⟩, ⟨512, 512, sha1 (List.replicate 512 65)⟩,
        ⟨1024, 176, sha1 (List.replicate 176 65)⟩] := by
  rw [MakeRDiffBlocks_eq, ← blocksFrom_zero_eq_refBlocks,
    blocksFrom_of_ne_nil _ _ _ (replicate_ne_nil_of_pos 1200 65 (by decide))]
  simp only [List.take_replicate, List.drop_replicate, List.length_replicate]
  rw [show 1200 - 512 = 688 from rfl,
    blocksFrom_of_ne_nil _ _ _ (replicate_ne_nil_of_pos 688 65 (by decide))]
  simp only [List.take_replicate, List.drop_replicate, List.length_replicate]
  rw [show 688 - 512 = 176 from rfl,
    blocksFrom_of_ne_nil _ _ _ (replicate_ne_nil_of_pos 176 65 (by decide))]
  simp only [List.take_replicate, List.drop_replicate, List.length_replicate]
  rw [show 176 - 512 = 0 from rfl, List.replicate_zero, blocksFrom_nil]
  rfl

/-! ## Patch builder: the entry list -/

theorem foldl_append_eq_flatMap {α β : Type} (F : List β → α → List β) (g : α → List β)
    (hF : ∀ acc i, F acc i = acc ++ g i) :
    ∀ (l : List α) (acc : List β), l.foldl F acc = acc ++ l.flatMap g := by
  intro l
  induction l with
  | nil => intro acc; simp
  | cons a l ih =>
    intro acc
    rw [List.foldl_cons, ih, hF, List.flatMap_cons, List.append_assoc]

theorem CreatePatch.compare_eq (rdiffBlocks state : List RDiffBlock) (minLen : Nat) :
    CreatePatch.compare rdiffBlocks state minLen =
      (List.range minLen).flatMap (CreatePatch.changeAt rdiffBlocks state) := by
  unfold CreatePatch.compare
  rw [foldl_append_eq_flatMap _ (CreatePatch.changeAt rdiffBlocks state)]
  · simp
  · intro acc i
    unfold CreatePatch.changeAt
    split
    · split <;> simp
    · simp

theorem CreatePatch.complete_eq (rdiffBlocks : List RDiffBlock) (orgRdiffLen minLen : Nat)
    (fileSize : Int) (patches : List Patch) (hmin : minLen = min rdiffBlocks.length orgRdiffLen) :
    CreatePatch.complete rdiffBlocks orgRdiffLen minLen fileSize patches =
      if rdiffBlocks.length ≤ orgRdiffLen then patches ++ [⟨fileSize, 0, PATCH_TRUNCATE⟩]
      else patches ++
        (List.range' minLen (rdiffBlocks.length - minLen)).flatMap (CreatePatch.newAt rdiffBlocks) := by
  unfold CreatePatch.complete
  by_cases h : rdiffBlocks.length ≤ orgRdiffLen
  · have h1 : ¬ rdiffBlocks.length > minLen := by omega
    have h2 : orgRdiffLen ≥ minLen := by omega
    simp only [h1, h2, h, if_true, if_false]
  · have h1 : rdiffBlocks.length > minLen := by omega
    simp only [h1, h, if_true, if_false]
    apply foldl_append_eq_flatMap
    intro acc i
    unfold CreatePatch.newAt
    split <;> simp

theorem CreatePatch.entries_eq (rdiffBlocks state : List RDiffBlock) (fileSize : Int)
    (patches : List Patch)
    (h : CreatePatch.entries rdiffBlocks state fileSize = some patches) :
    patches = (List.range rdiffBlocks.length).flatMap (CreatePatch.entryAt rdiffBlocks state) ++
      (if rdiffBlocks.length ≤ state.length then [⟨fileSize, 0, PATCH_TRUNCATE⟩] else []) := by
  unfold CreatePatch.entries at h
  simp only at h
  split at h
  · exact absurd h (by simp)
  · rw [Option.some.injEq] at h
    rw [← h, CreatePatch.complete_eq _ _ _ _ _ rfl, CreatePatch.compare_eq]
    by_cases hle : rdiffBlocks.length ≤ state.length
    · simp only [hle, if_true, Nat.min_eq_left hle]
      congr 1
      apply List.flatMap_congr
      intro i hi
      have : i < state.length := by have := List.mem_range.mp hi; omega
      simp [CreatePatch.entryAt, this]
    · have hlt : state.length < rdiffBlocks.length := by omega
      simp only [hle, if_false, Nat.min_eq_right (Nat.le_of_lt hlt), List.append_nil]
      have hr : List.range rdiffBlocks.length =
          List.range state.length ++
            List.range' state.length (rdiffBlocks.length - state.length) := by
        rw [List.range_eq_range', List.range_eq_range']
        have := List.range'_append 0 state.length (rdiffBlocks.length - state.length) 1
        simp only [Nat.one_mul, Nat.zero_add] at this
        rw [this]
        congr 1
        omega
      rw [hr, List.flatMap_append]
      congr 1
      · apply List.flatMap_congr
        intro i hi
        have : i < state.length := List.mem_range.mp hi
        simp [CreatePatch.entryAt, this]
      · apply List.flatMap_congr
        intro i hi
        have : ¬ i < state.length := by
          have := (List.mem_range'_1.mp hi).1
          omega
        simp [CreatePatch.entryAt, this]

theorem filter_filterMap_eq_flatMap {α β : Type} (Q : α → Bool) (R : α → Option β) :
    ∀ l : List α, (l.filter Q).filterMap R =
      l.flatMap fun a => if Q a then (R a).toList else [] := by
  intro l
  induction l with
  | nil => simp
  | cons a l ih =>
    rw [List.flatMap_cons, ← ih]
    by_cases hq : Q a = true
    · cases hr : R a <;> simp [hq, hr]
    · simp [hq]

/-- C3: when the capture is not a no-content capture, the `PATCH_CHANGE` entries of the
entry list `CreatePatch` builds from the current list `cur` and the stored list `prev`
are exactly, in increasing index order, `(cur[i].Offset, cur[i].Size, PATCH_CHANGE)` for
the indices `i` with `i ≥ len(prev)` or `cur[i].Signature ≠ prev[i].Signature`. -/
theorem CreatePatch_change_entries (cur prev : List RDiffBlock) (fileSize : Int)
    (patches : List Patch) (h : CreatePatch.entries cur prev fileSize = some patches) :
    patches.filter (fun p => decide (p.Type_ = PATCH_CHANGE)) =
      ((List.range cur.length).filter fun i =>
          decide (prev.length ≤ i) ||
            decide (cur[i]?.map RDiffBlock.Signature ≠ prev[i]?.map RDiffBlock.Signature)).filterMap
        fun i => cur[i]?.map fun c => (⟨c.Offset, c.Size, PATCH_CHANGE⟩ : Patch) := by
  rw [CreatePatch.entries_eq cur prev fileSize patches h, filter_filterMap_eq_flatMap,
    List.filter_append, List.filter_flatMap]
  have hT : (if cur.length ≤ prev.length then [(⟨fileSize, 0, PATCH_TRUNCATE⟩ : Patch)] else []).filter
      (fun p => decide (p.Type_ = PATCH_CHANGE)) = [] := by
    split <;> simp [PATCH_TRUNCATE, PATCH_CHANGE]
  rw [hT, List.append_nil]
  apply List.flatMap_congr
  intro i hi
  have hlt : i < cur.length := List.mem_range.mp hi
  have hc : cur[i]? = some cur[i] := List.getElem?_eq_getElem hlt
  by_cases hp : i < prev.length
  · have hpe : prev[i]? = some prev[i] := List.getElem?_eq_getElem hp
    have hnle : ¬ prev.length ≤ i := by omega
    by_cases hs : cur[i].Signature = prev[i].Signature
    · simp [CreatePatch.entryAt, CreatePatch.changeAt, hp, hc, hpe, hs, hnle]
    · simp [CreatePatch.entryAt, CreatePatch.changeAt, hp, hc, hpe, hs, hnle]
  · have hle : prev.length ≤ i := by omega
    simp [CreatePatch.entryAt, CreatePatch.newAt, hp, hc, hle]

/-- An instance of C3: one block kept, one block appended. -/
theorem CreatePatch_change_entries_witness :
    CreatePatch.entries sampleTwo sampleOne 612 = some [⟨512, 100, PATCH_CHANGE⟩] ∧
      ([⟨512, 100, PATCH_CHANGE⟩] : List Patch).filter (fun p => decide (p.Type_ = PATCH_CHANGE)) =
        ((List.range sampleTwo.length).filter fun i =>
          decide (sampleOne.length ≤ i) ||
            decide (sampleTwo[i]?.map RDiffBlock.Signature ≠
              sampleOne[i]?.map RDiffBlock.Signature)).filterMap
          fun i => sampleTwo[i]?.map fun c => (⟨c.Offset, c.Size, PATCH_CHANGE⟩ : Patch) :=
  ⟨by decide, CreatePatch_change_entries sampleTwo sampleOne 612 _ (by decide)⟩

theorem CreatePatch.entryAt_type (rdiffBlocks state : List RDiffBlock) (n : Nat) :
    ∀ p ∈ (List.range n).flatMap (CreatePatch.entryAt rdiffBlocks state),
      p.Type_ = PATCH_CHANGE := by
  intro p hp
  obtain ⟨i, _, hi⟩ := List.mem_flatMap.mp hp
  unfold CreatePatch.entryAt CreatePatch.changeAt CreatePatch.newAt at hi
  split at hi
  · split at hi
    · split at hi
      · rw [List.mem_singleton] at hi; rw [hi]
      · simp at hi
    · simp at hi
  · split at hi
    · rw [List.mem_singleton] at hi; rw [hi]
    · simp at hi

theorem CreatePatch.entries_truncate_last (cur prev : List RDiffBlock) (fileSize : Int)
    (patches : List Patch) (h : CreatePatch.entries cur prev fileSize = some patches) :
    ∀ i p, patches[i]? = some p → p.Type_ = PATCH_TRUNCATE →
      i + 1 = patches.length ∧ p = ⟨fileSize, 0, PATCH_TRUNCATE⟩ := by
  have hL := CreatePatch.entryAt_type cur prev cur.length
  have hne : PATCH_CHANGE ≠ PATCH_TRUNCATE := by decide
  rw [CreatePatch.entries_eq cur prev fileSize patches h]
  generalize (List.range cur.length).flatMap (CreatePatch.entryAt cur prev) = L at hL
  intro i p hp ht
  by_cases hi : i < L.length
  · rw [List.getElem?_append_left hi] at hp
    have := hL p (List.getElem?_mem hp)
    rw [this] at ht
    exact absurd ht hne
  · rw [List.getElem?_append_right (by omega)] at hp
    by_cases hle : cur.length ≤ prev.length
    · simp only [hle, if_true] at hp ⊢
      have h0 : i - L.length = 0 := by
        by_contra hc
        obtain ⟨k, hk⟩ := Nat.exists_eq_succ_of_ne_zero hc
        rw [hk] at hp
        simp at hp
      rw [h0] at hp
      simp only [List.getElem?_cons_zero, Option.some.injEq] at hp
      refine ⟨?_, hp.symm⟩
      simp only [List.length_append, List.length_singleton]
      omega
    · simp [hle] at hp

theorem CreatePatch.entries_mem (cur prev : List RDiffBlock) (fileSize : Int)
    (patches : List Patch) (h : CreatePatch.entries cur prev fileSize = some patches) :
    ∀ p ∈ patches, (∃ c ∈ cur, p = ⟨c.Offset, c.Size, PATCH_CHANGE⟩) ∨
      p = ⟨fileSize, 0, PATCH_TRUNCATE⟩ := by
  rw [CreatePatch.entries_eq cur prev fileSize patches h]
  intro p hp
  rcases List.mem_append.mp hp with hp | hp
  · left
    obtain ⟨i, _, hi⟩ := List.mem_flatMap.mp hp
    unfold CreatePatch.entryAt CreatePatch.changeAt CreatePatch.newAt at hi
    split at hi
    · split at hi
      · rename_i c _ hc _
        split at hi
        · rw [List.mem_singleton] at hi
          exact ⟨c, List.getElem?_mem hc, hi⟩
        · simp at hi
      · simp at hi
    · split at hi
      · rename_i c hc
        rw [List.mem_singleton] at hi
        exact ⟨c, List.getElem?_mem hc, hi⟩
      · simp at hi
  · right
    split at hp
    · simpa using hp
    · simp at hp

/-- C4, as stated, fails: with the same number of blocks before and after and one block
changed, the entry list ends with a `PATCH_TRUNCATE` entry. -/
theorem CreatePatch_truncate_with_equal_block_count :
    CreatePatch.entries [⟨0, 512, sampleSigA⟩] [⟨0, 512, sampleSigB⟩] 512 =
        some [⟨0, 512, PATCH_CHANGE⟩, ⟨512, 0, PATCH_TRUNCATE⟩] ∧
      ([⟨0, 512, sampleSigA⟩] : List RDiffBlock).length =
        ([⟨0, 512, sampleSigB⟩] : List RDiffBlock).length := by
  decide

/-- C4 (amended): in every entry list `CreatePatch` generates, a `PATCH_TRUNCATE` entry
appears at most once, only as the final entry (where it is `(fileSize, 0, TRUNCATE)`),
and exactly when the current descriptor list is not longer than the previous one; a
capture whose current list is longer than the previous one emits no `PATCH_TRUNCATE`. -/
theorem CreatePatch_truncate_placement (cur prev : List RDiffBlock) (fileSize : Int)
    (patches : List Patch) (h : CreatePatch.entries cur prev fileSize = some patches) :
    (patches.filter (fun p => decide (p.Type_ = PATCH_TRUNCATE))).length ≤ 1 ∧
    (∀ i p, patches[i]? = some p → p.Type_ = PATCH_TRUNCATE →
      i + 1 = patches.length ∧ p = ⟨fileSize, 0, PATCH_TRUNCATE⟩) ∧
    ((∃ p ∈ patches, p.Type_ = PATCH_TRUNCATE) ↔ cur.length ≤ prev.length) := by
  have hL := CreatePatch.entryAt_type cur prev cur.length
  have hne : PATCH_CHANGE ≠ PATCH_TRUNCATE := by decide
  have hb := CreatePatch.entries_truncate_last cur prev fileSize patches h
  rw [CreatePatch.entries_eq cur prev fileSize patches h] at hb ⊢
  generalize (List.range cur.length).flatMap (CreatePatch.entryAt cur prev) = L at hL hb
  refine ⟨?_, ?_, ?_⟩
  · have hf : L.filter (fun p => decide (p.Type_ = PATCH_TRUNCATE)) = [] := by
      rw [List.filter_eq_nil_iff]
      intro p hp
      simp [hL p hp, hne]
    rw [List.filter_append, hf, List.nil_append]
    split <;> simp [List.filter_cons]
  · exact hb
  · constructor
    · rintro ⟨p, hp, ht⟩
      rcases List.mem_append.mp hp with hp | hp
      · rw [hL p hp] at ht
        exact absurd ht hne
      · by_contra hc
        simp [hc] at hp
    · intro hle
      exact ⟨⟨fileSize, 0, PATCH_TRUNCATE⟩, by simp [hle], rfl⟩

/-- An instance of C4 (amended): a file that lost its second block. -/
theorem CreatePatch_truncate_placement_witness :
    CreatePatch.entries sampleOne sampleTwo 512 = some [⟨512, 0, PATCH_TRUNCATE⟩] ∧
      ((([⟨512, 0, PATCH_TRUNCATE⟩] : List Patch).filter
          (fun p => decide (p.Type_ = PATCH_TRUNCATE))).length ≤ 1 ∧
        (∀ i p, ([⟨512, 0, PATCH_TRUNCATE⟩] : List Patch)[i]? = some p →
          p.Type_ = PATCH_TRUNCATE →
          i + 1 = ([⟨512, 0, PATCH_TRUNCATE⟩] : List Patch).length ∧
            p = ⟨512, 0, PATCH_TRUNCATE⟩) ∧
        ((∃ p ∈ ([⟨512, 0, PATCH_TRUNCATE⟩] : List Patch), p.Type_ = PATCH_TRUNCATE) ↔
          sampleOne.length ≤ sampleTwo.length)) :=
  ⟨by decide, CreatePatch_truncate_placement sampleOne sampleTwo 512 _ (by decide)⟩

/-! ## Metadata store -/

theorem UpdateFileMetaData_baseline (sha1 : List Byte → SHAValue) (now : Int) (f : OSFile)
    (sidecar : Option Sidecar) (state : List RDiffBlock) (prevPatchHash : SHAValue)
    (hstate : state ≠ []) :
    UpdateFileMetaData sha1 now ⟨some f, sidecar⟩ state prevPatchHash true =
      (none, ⟨some f, some { CreateDirIfNotExist sidecar with
        metaFile := some (recordOf now f FORMAT_BASELINE f.data.length SHAValue.empty
          (sha1 f.data) state) }⟩) := by
  have hpos : state.length > 0 := List.length_pos.mpr hstate
  simp [UpdateFileMetaData, hpos, recordOf, GetFileHash]

theorem UpdateFileMetaData_patch (sha1 : List Byte → SHAValue) (now : Int) (f : OSFile)
    (sc : Sidecar) (patchData : List Byte) (state : List RDiffBlock) (prevPatchHash : SHAValue)
    (hstate : state ≠ []) (hpatch : sc.patchFile = some patchData) :
    UpdateFileMetaData sha1 now ⟨some f, some sc⟩ state prevPatchHash false =
      (none, ⟨some f, some { sc with
        metaFile := some (recordOf now f FORMAT_PATCH patchData.length prevPatchHash
          (sha1 patchData) state) }⟩) := by
  have hpos : state.length > 0 := List.length_pos.mpr hstate
  simp [UpdateFileMetaData, hpos, recordOf, GetFileHash, CreateDirIfNotExist, hpatch]

theorem UpdateFileMetaData_empty_state (sha1 : List Byte → SHAValue) (now : Int) (f : OSFile)
    (sidecar : Option Sidecar) (prevPatchHash : SHAValue) :
    UpdateFileMetaData sha1 now ⟨some f, sidecar⟩ [] prevPatchHash true =
      (some .EOF, ⟨some f, some (CreateDirIfNotExist sidecar)⟩) := by
  simp [UpdateFileMetaData, MakeRDiffBlocks_eq]

/-! ## Patch builder: the capture -/

theorem refBlocks_ne_nil (sha1 : List Byte → SHAValue) (F : List Byte) (h : F ≠ []) :
    refBlocks sha1 F ≠ [] := by
  have hpos : 0 < F.length := List.length_pos.mpr h
  intro hn
  have := congrArg List.length hn
  rw [refBlocks_length] at this
  simp only [List.length_nil] at this
  omega

theorem refBlocks_last (sha1 : List Byte → SHAValue) (F : List Byte) (h : F ≠ []) :
    ∃ last, (refBlocks sha1 F)[(refBlocks sha1 F).length - 1]? = some last ∧
      last.Offset + last.Size = (F.length : Int) := by
  have hpos : 0 < F.length := List.length_pos.mpr h
  have hk : (F.length + 511) / 512 - 1 < (F.length + 511) / 512 := by omega
  have hget := refBlocks_getElem? sha1 F _ hk
  rw [refBlocks_length]
  refine ⟨_, hget, ?_⟩
  · simp only
    have : 512 * ((F.length + 511) / 512 - 1) +
        min 512 (F.length - 512 * ((F.length + 511) / 512 - 1)) = F.length := by omega
    exact_mod_cast this

theorem CreatePatch.payload_no_error (data : List Byte) :
    ∀ (patches : List Patch) (buf out : List Byte), (∀ p ∈ patches, 0 ≤ p.Offset) →
      (CreatePatch.payload data patches buf out).1 = none := by
  intro patches
  induction patches with
  | nil => intro buf out _; rfl
  | cons p rest ih =>
    intro buf out h
    have hp : ¬ p.Offset < 0 := by
      have := h p (List.mem_cons_self _ _)
      omega
    unfold CreatePatch.payload
    by_cases hs : p.Size = 0
    · simp [hs]
    · have hrest : ∀ q ∈ rest, 0 ≤ q.Offset := fun q hq => h q (List.mem_cons_of_mem _ hq)
      simp only [hs, if_false, ReadAt, hp]
      by_cases hlt : (List.take buf.length (List.drop p.Offset.toNat data)).length < buf.length
      · simp only [hlt, if_true, ne_eq, not_true_eq_false, and_false, if_false]
        exact ih _ _ hrest
      · simp only [hlt, if_false, ne_eq, not_true_eq_false, false_and, if_false]
        exact ih _ _ hrest

theorem CreateRangeFile.loop_ok (fileSize : Int) (n : Nat) :
    ∀ (patches : List Patch) (i : Nat) (buf : List Byte),
      (∀ j p, patches[j]? = some p → p.Type_ = PATCH_TRUNCATE → i + j + 1 = n) →
      ∃ text, CreateRangeFile.loop fileSize n patches i buf = .ok text := by
  intro patches
  induction patches with
  | nil => intro i buf _; exact ⟨buf, rfl⟩
  | cons p rest ih =>
    intro i buf h
    unfold CreateRangeFile.loop
    have hcond : ¬ (p.Type_ = PATCH_TRUNCATE ∧ i ≠ n - 1) := by
      rintro ⟨ht, hi⟩
      have := h 0 p (by simp) ht
      omega
    simp only [hcond, if_false]
    apply ih
    intro j q hq ht
    have := h (j + 1) q (by simpa using hq) ht
    omega

theorem CreateRangeFile_ok (f : OSFile) (sc : Sidecar) (patches : List Patch)
    (h : ∀ j p, patches[j]? = some p → p.Type_ = PATCH_TRUNCATE → j + 1 = patches.length) :
    ∃ text, CreateRangeFile ⟨some f, some sc⟩ patches =
      (none, ⟨some f, some { sc with rangeFile := some text }⟩) := by
  unfold CreateRangeFile
  simp only
  split
  · exact ⟨_, rfl⟩
  · obtain ⟨text, htext⟩ := CreateRangeFile.loop_ok (f.data.length : Int) patches.length patches 0
      (ascii "bytes ") (fun j p hp ht => by have := h j p hp ht; omega)
    rw [htext]
    exact ⟨text, rfl⟩

theorem CreatePatch_baseline_path (sha1 : List Byte → SHAValue) (now : Int) (f : OSFile)
    (sidecar : Option Sidecar) (hbase : IsBaseline ⟨some f, sidecar⟩ = true) :
    CreatePatch sha1 now ⟨some f, sidecar⟩ =
      Outcome.ofErr (UpdateFileMetaData sha1 now ⟨some f, sidecar⟩ (refBlocks sha1 f.data)
        SHAValue.empty true) := by
  simp [CreatePatch, MakeRDiffBlocks_eq, hbase]

theorem CreatePatch_empty_panics (sha1 : List Byte → SHAValue) (now : Int) (f : OSFile)
    (sc : Sidecar) (md : FileMetaData) (hmeta : sc.metaFile = some md) (hdata : f.data = []) :
    CreatePatch sha1 now ⟨some f, some sc⟩ = (.panic, ⟨some f, some sc⟩) := by
  simp [CreatePatch, MakeRDiffBlocks_eq, IsBaseline, GetFileMetaData, hmeta, hdata, refBlocks]

theorem CreatePatch_no_content_path (sha1 : List Byte → SHAValue) (now : Int) (f : OSFile)
    (sc : Sidecar) (md : FileMetaData) (hmeta : sc.metaFile = some md) (hdata : f.data ≠ [])
    (hnone : CreatePatch.entries (refBlocks sha1 f.data) md.PatchState f.data.length = none) :
    CreatePatch sha1 now ⟨some f, some sc⟩ =
      Outcome.ofErr (UpdateFileMetaData sha1 now ⟨some f, some sc⟩ (refBlocks sha1 f.data)
        md.PatchHash (match sc.patchFile with
          | none => true
          | some _ => false)) := by
  obtain ⟨last, hlast, hsize⟩ := refBlocks_last sha1 f.data hdata
  simp [CreatePatch, MakeRDiffBlocks_eq, IsBaseline, GetFileMetaData, hmeta, hlast, hsize, hnone]

theorem CreatePatch_patch_path (sha1 : List Byte → SHAValue) (now : Int) (f : OSFile)
    (sc : Sidecar) (md : FileMetaData) (patches : List Patch)
    (hmeta : sc.metaFile = some md) (hdata : f.data ≠ [])
    (hsome : CreatePatch.entries (refBlocks sha1 f.data) md.PatchState f.data.length =
      some patches) :
    ∃ text, CreatePatch sha1 now ⟨some f, some sc⟩ =
      (.ok, ⟨some f, some
        ⟨some (recordOf now f FORMAT_PATCH (patchFileOf f.data patches).length md.PatchHash
            (sha1 (patchFileOf f.data patches)) (refBlocks sha1 f.data)),
          some (patchFileOf f.data patches), some text⟩⟩) := by
  obtain ⟨mf, pf, rf⟩ := sc
  simp only at hmeta
  subst hmeta
  obtain ⟨last, hlast, hsize⟩ := refBlocks_last sha1 f.data hdata
  have hoff : ∀ p ∈ patches, 0 ≤ p.Offset := by
    intro p hp
    rcases CreatePatch.entries_mem _ _ _ _ hsome p hp with ⟨c, hc, rfl⟩ | rfl
    · obtain ⟨i, hi⟩ := List.getElem?_of_mem hc
      have hi' : i < (f.data.length + 511) / 512 := by
        have := (List.getElem?_eq_some_iff.mp hi).1
        rwa [refBlocks_length] at this
      rw [refBlocks_getElem? sha1 f.data i hi'] at hi
      rw [← Option.some.inj hi]
      exact Int.natCast_nonneg _
    · exact Int.natCast_nonneg f.data.length
  have hpay : CreatePatch.payload f.data patches (List.replicate RDIFF_BLOCKSIZE 0)
      (CreatePatch.header patches) = (none, patchFileOf f.data patches) := by
    have := CreatePatch.payload_no_error f.data patches (List.replicate RDIFF_BLOCKSIZE 0)
      (CreatePatch.header patches) hoff
    exact Prod.ext this rfl
  obtain ⟨text, hrange⟩ := CreateRangeFile_ok f
    ⟨some md, some (patchFileOf f.data patches), rf⟩ patches
    (fun j p hp ht => (CreatePatch.entries_truncate_last _ _ _ _ hsome j p hp ht).1)
  refine ⟨text, ?_⟩
  have hupd := UpdateFileMetaData_patch sha1 now f
    ⟨some md, some (patchFileOf f.data patches), some text⟩
    (patchFileOf f.data patches) (refBlocks sha1 f.data) md.PatchHash
    (refBlocks_ne_nil sha1 f.data hdata) rfl
  simp only [CreatePatch, MakeRDiffBlocks_eq, IsBaseline, GetFileMetaData, hlast, hsize,
    hsome, hpay, hrange, hupd, Outcome.ofErr]
  simp

theorem CreatePatch_baseline_record (sha1 : List Byte → SHAValue) (now : Int) (f : OSFile)
    (sidecar : Option Sidecar) (hbase : IsBaseline ⟨some f, sidecar⟩ = true)
    (hdata : f.data ≠ []) :
    CreatePatch sha1 now ⟨some f, sidecar⟩ =
      (.ok, ⟨some f, some { CreateDirIfNotExist sidecar with
        metaFile := some (recordOf now f FORMAT_BASELINE f.data.length SHAValue.empty
          (sha1 f.data) (refBlocks sha1 f.data)) }⟩) := by
  rw [CreatePatch_baseline_path sha1 now f sidecar hbase,
    UpdateFileMetaData_baseline sha1 now f sidecar _ _ (refBlocks_ne_nil sha1 f.data hdata)]
  rfl

theorem CreatePatch_no_content_record (sha1 : List Byte → SHAValue) (now : Int) (f : OSFile)
    (sc : Sidecar) (md : FileMetaData) (hmeta : sc.metaFile = some md) (hdata : f.data ≠ [])
    (hnone : CreatePatch.entries (refBlocks sha1 f.data) md.PatchState f.data.length = none) :
    CreatePatch sha1 now ⟨some f, some sc⟩ =
      (.ok, ⟨some f, some { sc with
        metaFile := some (match sc.patchFile with
          | none => recordOf now f FORMAT_BASELINE f.data.length SHAValue.empty (sha1 f.data)
              (refBlocks sha1 f.data)
          | some patchData => recordOf now f FORMAT_PATCH patchData.length md.PatchHash
              (sha1 patchData) (refBlocks sha1 f.data)) }⟩) := by
  rw [CreatePatch_no_content_path sha1 now f sc md hmeta hdata hnone]
  cases hp : sc.patchFile with
  | none =>
    simp only
    rw [UpdateFileMetaData_baseline sha1 now f (some sc) _ _ (refBlocks_ne_nil sha1 f.data hdata)]
    simp [Outcome.ofErr, CreateDirIfNotExist, hp]
  | some patchData =>
    simp only
    rw [UpdateFileMetaData_patch sha1 now f sc patchData _ _
      (refBlocks_ne_nil sha1 f.data hdata) hp]
    simp [Outcome.ofErr, hp]

theorem CreatePatch.changeAt_self (l : List RDiffBlock) (i : Nat) :
    CreatePatch.changeAt l l i = [] := by
  unfold CreatePatch.changeAt
  cases h : l[i]? <;> simp

theorem CreatePatch.entries_self (l : List RDiffBlock) (fileSize : Int) :
    CreatePatch.entries l l fileSize = none := by
  have : ∀ n, CreatePatch.compare l l n = [] := by
    intro n
    rw [CreatePatch.compare_eq, List.flatMap_eq_nil_iff]
    intro i _
    exact CreatePatch.changeAt_self l i
  simp [CreatePatch.entries, this]

/-- What a successful capture leaves behind: the file untouched and not empty, and a
record whose block list and size are those of the file. -/
theorem CreatePatch_ok_inv (sha1 : List Byte → SHAValue) (now : Int) (fs fs1 : FS)
    (h : CreatePatch sha1 now fs = (.ok, fs1)) :
    ∃ f sc md, fs.file = some f ∧ fs1 = ⟨some f, some sc⟩ ∧ sc.metaFile = some md ∧
      f.data ≠ [] ∧ md.PatchState = refBlocks sha1 f.data ∧ md.FileSize = f.data.length := by
  obtain ⟨file, sidecar⟩ := fs
  cases file with
  | none => simp [CreatePatch] at h
  | some f =>
    by_cases hdata : f.data = []
    · exfalso
      cases hb : IsBaseline ⟨some f, sidecar⟩ with
      | true =>
        rw [CreatePatch_baseline_path sha1 now f sidecar hb, hdata, show refBlocks sha1 [] = [] from rfl,
          UpdateFileMetaData_empty_state] at h
        simp [Outcome.ofErr] at h
      | false =>
        cases sidecar with
        | none => simp [IsBaseline] at hb
        | some sc =>
          cases hm : sc.metaFile with
          | none => simp [IsBaseline, hm] at hb
          | some md =>
            rw [CreatePatch_empty_panics sha1 now f sc md hm hdata] at h
            simp at h
    · cases hb : IsBaseline ⟨some f, sidecar⟩ with
      | true =>
        rw [CreatePatch_baseline_record sha1 now f sidecar hb hdata] at h
        refine ⟨f, _, _, rfl, (Prod.mk.inj h).2.symm, rfl, hdata, rfl, rfl⟩
      | false =>
        cases sidecar with
        | none => simp [IsBaseline] at hb
        | some sc =>
          cases hm : sc.metaFile with
          | none => simp [IsBaseline, hm] at hb
          | some md =>
            cases he : CreatePatch.entries (refBlocks sha1 f.data) md.PatchState f.data.length with
            | none =>
              rw [CreatePatch_no_content_record sha1 now f sc md hm hdata he] at h
              refine ⟨f, _, _, rfl, (Prod.mk.inj h).2.symm, rfl, hdata, ?_, ?_⟩ <;>
                cases sc.patchFile <;> rfl
            | some patches =>
              obtain ⟨text, ht⟩ := CreatePatch_patch_path sha1 now f sc md patches hm hdata he
              rw [ht] at h
              exact ⟨f, _, _, rfl, (Prod.mk.inj h).2.symm, rfl, hdata, rfl, rfl⟩

/-! ## Patch builder: the records -/

/-- C5 fails on the code: after a baseline capture of a one-byte file, a capture of the
file emptied in between ends in a run-time panic (`rdiffBlocks[curRdiffLen - 1]` with
`curRdiffLen = 0`), and neither a patch file nor a record is written. -/
theorem CreatePatch_empty_current_file_panics :
    CreatePatch prefixDigest 0 ⟨some (fileOf [65]), none⟩ =
        (.ok, ⟨some (fileOf [65]), some samplePrior⟩) ∧
      CreatePatch prefixDigest 1 ⟨some (fileOf []), some samplePrior⟩ =
        (.panic, ⟨some (fileOf []), some samplePrior⟩) := by
  decide

/-- C6 fails on the code: the one-byte file `B`, captured as a patch over `A`, is emptied
and captured again.  The capture is content-changing (the block lists differ, and the
entry list is the single `(0,0,TRUNCATE)`), but `CreatePatch` panics at
`rdiffBlocks[curRdiffLen - 1]` and stores nothing: the record in `.meta` is still the
one of the capture of `B`, with `FileSize = 1` and the block of `B` as `PatchState`,
where the claim has `FileSize = 0` and the empty descriptor list. -/
theorem CreatePatch_emptied_file_keeps_old_record :
    CreatePatch prefixDigest 1 ⟨some (fileOf [66]), some samplePrior⟩ =
        (.ok, ⟨some (fileOf [66]), some samplePatched⟩) ∧
      CreatePatch.entries (MakeRDiffBlocks prefixDigest []).1
          (MakeRDiffBlocks prefixDigest [66]).1 0 = some [⟨0, 0, PATCH_TRUNCATE⟩] ∧
      CreatePatch prefixDigest 2 ⟨some (fileOf []), some samplePatched⟩ =
        (.panic, ⟨some (fileOf []), some samplePatched⟩) ∧
      samplePatched.metaFile.map FileMetaData.FileSize = some 1 ∧
      samplePatched.metaFile.map FileMetaData.PatchState =
        some (MakeRDiffBlocks prefixDigest [66]).1 ∧
      (MakeRDiffBlocks prefixDigest []).1 = [] := by
  decide!

/-- The part of C6 that the code meets: for every content-changing capture of a non-empty
file with prior record `Prev`, `CreatePatch` succeeds and the stored record has
`PatchType = FORMAT_PATCH`, `PrevPatchHash = Prev.PatchHash`, `PatchHash` = SHA-1 of the
written patch file, `PatchSize` = its byte length, `FileSize` = the length of the
current file, and `PatchState` = the descriptor list of the current file. -/
theorem CreatePatch_patch_record (sha1 : List Byte → SHAValue) (now : Int) (f : OSFile)
    (sc : Sidecar) (Prev : FileMetaData) (hmeta : sc.metaFile = some Prev)
    (hdata : f.data ≠ [])
    (hchange : CreatePatch.entries (MakeRDiffBlocks sha1 f.data).1 Prev.PatchState
      f.data.length ≠ none) :
    ∃ record patchData rangeData,
      CreatePatch sha1 now ⟨some f, some sc⟩ =
        (.ok, ⟨some f, some ⟨some record, some patchData, some rangeData⟩⟩) ∧
      record.PatchType = FORMAT_PATCH ∧
      record.PrevPatchHash = Prev.PatchHash ∧
      record.PatchHash = sha1 patchData ∧
      record.PatchSize = (patchData.length : Int) ∧
      record.FileSize = (f.data.length : Int) ∧
      record.PatchState = (MakeRDiffBlocks sha1 f.data).1 := by
  rw [MakeRDiffBlocks_eq] at hchange ⊢
  cases he : CreatePatch.entries (refBlocks sha1 f.data) Prev.PatchState f.data.length with
  | none => exact absurd he hchange
  | some patches =>
    obtain ⟨text, ht⟩ := CreatePatch_patch_path sha1 now f sc Prev patches hmeta hdata he
    exact ⟨_, _, text, ht, rfl, rfl, rfl, rfl, rfl, rfl⟩

/-- An instance of `CreatePatch_patch_record`: the one-byte file `A` becomes `B`. -/
theorem CreatePatch_patch_record_witness :
    ∃ record patchData rangeData,
      CreatePatch prefixDigest 1 ⟨some (fileOf [66]), some samplePrior⟩ =
        (.ok, ⟨some (fileOf [66]), some ⟨some record, some patchData, some rangeData⟩⟩) ∧
      record.PatchType = FORMAT_PATCH ∧
      record.PrevPatchHash = prefixDigest [65] ∧
      record.PatchHash = prefixDigest patchData ∧
      record.PatchSize = (patchData.length : Int) ∧
      record.FileSize = ((fileOf [66]).data.length : Int) ∧
      record.PatchState = (MakeRDiffBlocks prefixDigest (fileOf [66]).data).1 :=
  CreatePatch_patch_record prefixDigest 1 (fileOf [66]) samplePrior _ rfl (by decide) (by decide)

/-- C7 fails on the code: for an empty file with no prior state, `UpdateFileMetaData`
recomputes the blocks (the state it was given is empty), takes the `io.EOF` of
`MakeRDiffBlocks` for a failure and returns before writing the record; `CreatePatch`
returns `io.EOF` and leaves an empty sidecar directory. -/
theorem CreatePatch_empty_file_no_baseline (sha1 : List Byte → SHAValue) (now : Int) :
    CreatePatch sha1 now ⟨some (fileOf []), none⟩ =
      (.error .EOF, ⟨some (fileOf []), some ⟨none, none, none⟩⟩) := by
  rw [CreatePatch_baseline_path sha1 now (fileOf []) none rfl]
  exact congrArg Outcome.ofErr (UpdateFileMetaData_empty_state sha1 now (fileOf []) none _)

/-- C8, as stated, fails: capturing the one-byte file `A` twice, the second capture is a
no-content capture with no `.patch` sidecar; it stores a baseline record whose
`PrevPatchHash` is empty, not the `PatchHash` of the first record. -/
theorem CreatePatch_no_content_breaks_linkage :
    CreatePatch prefixDigest 0 ⟨some (fileOf [65]), none⟩ =
        (.ok, ⟨some (fileOf [65]), some samplePrior⟩) ∧
      (CreatePatch prefixDigest 1 ⟨some (fileOf [65]), some samplePrior⟩).1 = .ok ∧
      (GetFileMetaData (CreatePatch prefixDigest 1 ⟨some (fileOf [65]), some samplePrior⟩).2).map
          FileMetaData.PrevPatchHash = some SHAValue.empty ∧
      (GetFileMetaData ⟨some (fileOf [65]), some samplePrior⟩).map FileMetaData.PatchHash =
        some (prefixDigest [65]) ∧
      prefixDigest [65] ≠ SHAValue.empty := by
  decide

/-- C8 (amended): a capture of a non-empty file made over the record `first` of the
preceding capture succeeds, and the record it writes has `PrevPatchHash =
first.PatchHash` when it is a content-changing capture, or a no-content capture made
while a `.patch` sidecar exists; a no-content capture made while no `.patch` sidecar
exists writes a baseline record with an empty `PrevPatchHash`. -/
theorem CreatePatch_chain_linkage (sha1 : List Byte → SHAValue) (now : Int) (f : OSFile)
    (sc : Sidecar) (first : FileMetaData) (hmeta : sc.metaFile = some first)
    (hdata : f.data ≠ []) :
    ∃ second fs2,
      CreatePatch sha1 now ⟨some f, some sc⟩ = (.ok, fs2) ∧ GetFileMetaData fs2 = some second ∧
      ((CreatePatch.entries (MakeRDiffBlocks sha1 f.data).1 first.PatchState f.data.length ≠ none ∨
          sc.patchFile ≠ none) → second.PrevPatchHash = first.PatchHash) ∧
      ((CreatePatch.entries (MakeRDiffBlocks sha1 f.data).1 first.PatchState f.data.length = none ∧
          sc.patchFile = none) →
        second.PatchType = FORMAT_BASELINE ∧ second.PrevPatchHash = SHAValue.empty) := by
  rw [MakeRDiffBlocks_eq]
  simp only
  cases he : CreatePatch.entries (refBlocks sha1 f.data) first.PatchState f.data.length with
  | some patches =>
    obtain ⟨text, ht⟩ := CreatePatch_patch_path sha1 now f sc first patches hmeta hdata he
    exact ⟨_, _, ht, rfl, fun _ => rfl, fun h => absurd h.1 (by simp)⟩
  | none =>
    refine ⟨_, _, CreatePatch_no_content_record sha1 now f sc first hmeta hdata he, rfl, ?_, ?_⟩
    · intro h
      cases hp : sc.patchFile with
      | none => simp [hp] at h
      | some patchData => rfl
    · intro h
      rw [h.2]
      exact ⟨rfl, rfl⟩

/-- An instance of C8 (amended): the one-byte file `A` becomes `B`. -/
theorem CreatePatch_chain_linkage_witness :
    ∃ second fs2,
      CreatePatch prefixDigest 1 ⟨some (fileOf [66]), some samplePrior⟩ = (.ok, fs2) ∧
      GetFileMetaData fs2 = some second ∧
      ((CreatePatch.entries (MakeRDiffBlocks prefixDigest (fileOf [66]).data).1
            (refBlocks prefixDigest [65]) ((fileOf [66]).data.length : Int) ≠ none ∨
          samplePrior.patchFile ≠ none) → second.PrevPatchHash = prefixDigest [65]) ∧
      ((CreatePatch.entries (MakeRDiffBlocks prefixDigest (fileOf [66]).data).1
            (refBlocks prefixDigest [65]) ((fileOf [66]).data.length : Int) = none ∧
          samplePrior.patchFile = none) →
        second.PatchType = FORMAT_BASELINE ∧ second.PrevPatchHash = SHAValue.empty) :=
  CreatePatch_chain_linkage prefixDigest 1 (fileOf [66]) samplePrior _ rfl (by decide)

/-- C9: when a capture has succeeded and the file is captured again unchanged, the
second `CreatePatch` succeeds, builds no entry list (no `PATCH_CHANGE` entry), leaves
the `.patch` and `.range` sidecars as they were, and stores a record with the
`PatchState` and the `FileSize` of the first record. -/
theorem CreatePatch_twice_unchanged (sha1 : List Byte → SHAValue) (now1 now2 : Int)
    (fs0 fs1 : FS) (h1 : CreatePatch sha1 now1 fs0 = (.ok, fs1)) :
    ∃ f sc first second,
      fs1 = ⟨some f, some sc⟩ ∧ sc.metaFile = some first ∧
      CreatePatch.entries (MakeRDiffBlocks sha1 f.data).1 first.PatchState f.data.length = none ∧
      CreatePatch sha1 now2 fs1 = (.ok, ⟨some f, some { sc with metaFile := some second }⟩) ∧
      second.PatchState = first.PatchState ∧ second.FileSize = first.FileSize := by
  obtain ⟨f, sc, first, _, hfs1, hmeta, hdata, hstate, hsize⟩ :=
    CreatePatch_ok_inv sha1 now1 fs0 fs1 h1
  have hnone : CreatePatch.entries (refBlocks sha1 f.data) first.PatchState f.data.length =
      none := by
    rw [hstate]
    exact CreatePatch.entries_self _ _
  have hrec := CreatePatch_no_content_record sha1 now2 f sc first hmeta hdata hnone
  rw [← hfs1] at hrec
  refine ⟨f, sc, first, _, hfs1, hmeta, ?_, hrec, ?_, ?_⟩
  · rw [MakeRDiffBlocks_eq]
    exact hnone
  · rw [hstate]
    cases sc.patchFile <;> rfl
  · rw [hsize]
    cases sc.patchFile <;> rfl

/-- An instance of C9: the one-byte file `A` captured twice. -/
theorem CreatePatch_twice_unchanged_witness :
    ∃ f sc first second,
      (⟨some (fileOf [65]), some samplePrior⟩ : FS) = ⟨some f, some sc⟩ ∧
      sc.metaFile = some first ∧
      CreatePatch.entries (MakeRDiffBlocks prefixDigest f.data).1 first.PatchState
        f.data.length = none ∧
      CreatePatch prefixDigest 1 ⟨some (fileOf [65]), some samplePrior⟩ =
        (.ok, ⟨some f, some { sc with metaFile := some second }⟩) ∧
      second.PatchState = first.PatchState ∧ second.FileSize = first.FileSize :=
  CreatePatch_twice_unchanged prefixDigest 0 1 ⟨some (fileOf [65]), none⟩
    ⟨some (fileOf [65]), some samplePrior⟩ (by decide)

/-- C10, as stated, fails: after the one-byte file `A` has become `B` and the patch
capture has stored a `FORMAT_PATCH` record, two captures of the unchanged file that
differ only in the `.patch` sidecar store different kinds and hashes: with the sidecar
the record is a patch record, without it a baseline record with the hash of the file. -/
theorem CreatePatch_no_change_consults_sidecar :
    CreatePatch prefixDigest 1 ⟨some (fileOf [66]), some samplePrior⟩ =
        (.ok, ⟨some (fileOf [66]), some samplePatched⟩) ∧
      (GetFileMetaData ⟨some (fileOf [66]), some samplePatched⟩).map
        (fun r => (r.PatchType, r.PatchHash)) =
          some (FORMAT_PATCH, prefixDigest samplePatchFile) ∧
      (GetFileMetaData (CreatePatch prefixDigest 2
          ⟨some (fileOf [66]), some samplePatched⟩).2).map
        (fun r => (r.PatchType, r.PatchHash)) =
          some (FORMAT_PATCH, prefixDigest samplePatchFile) ∧
      (GetFileMetaData (CreatePatch prefixDigest 2
          ⟨some (fileOf [66]), some { samplePatched with patchFile := none }⟩).2).map
        (fun r => (r.PatchType, r.PatchHash)) = some (FORMAT_BASELINE, prefixDigest [66]) ∧
      FORMAT_BASELINE ≠ FORMAT_PATCH ∧ prefixDigest [66] ≠ prefixDigest samplePatchFile := by
  decide!

/-- C10 (amended): for every capture of a non-empty file whose current descriptor list
is identical to the previous one, `CreatePatch` succeeds and classifies the record by
the `.patch` sidecar: without one the record is a baseline record with `PatchHash` =
SHA-1 of the file, with one it is a patch record with `PatchHash` = SHA-1 of the
sidecar.  Kind and hash equal those of the previous record when the sidecar is as the
previous capture left it: absent after a baseline capture of that file, or holding the
patch file that the previous record hashed. -/
theorem CreatePatch_no_change_classification (sha1 : List Byte → SHAValue) (now : Int)
    (f : OSFile) (sc : Sidecar) (Prev : FileMetaData) (hmeta : sc.metaFile = some Prev)
    (hdata : f.data ≠ []) (hsame : (MakeRDiffBlocks sha1 f.data).1 = Prev.PatchState) :
    ∃ record,
      CreatePatch sha1 now ⟨some f, some sc⟩ =
        (.ok, ⟨some f, some { sc with metaFile := some record }⟩) ∧
      (sc.patchFile = none →
        record.PatchType = FORMAT_BASELINE ∧ record.PatchHash = sha1 f.data) ∧
      (∀ patchData, sc.patchFile = some patchData →
        record.PatchType = FORMAT_PATCH ∧ record.PatchHash = sha1 patchData) ∧
      (((sc.patchFile = none ∧ Prev.PatchType = FORMAT_BASELINE ∧ Prev.PatchHash = sha1 f.data) ∨
          (∃ patchData, sc.patchFile = some patchData ∧ Prev.PatchType = FORMAT_PATCH ∧
            Prev.PatchHash = sha1 patchData)) →
        record.PatchType = Prev.PatchType ∧ record.PatchHash = Prev.PatchHash) := by
  rw [MakeRDiffBlocks_eq] at hsame
  simp only at hsame
  have hnone : CreatePatch.entries (refBlocks sha1 f.data) Prev.PatchState f.data.length =
      none := by
    rw [← hsame]
    exact CreatePatch.entries_self _ _
  refine ⟨_, CreatePatch_no_content_record sha1 now f sc Prev hmeta hdata hnone, ?_, ?_, ?_⟩
  · intro hp
    rw [hp]
    exact ⟨rfl, rfl⟩
  · intro patchData hp
    rw [hp]
    exact ⟨rfl, rfl⟩
  · rintro (⟨hp, ht, hh⟩ | ⟨patchData, hp, ht, hh⟩)
    · rw [hp, ht, hh]
      exact ⟨rfl, rfl⟩
    · rw [hp, ht, hh]
      exact ⟨rfl, rfl⟩

/-- An instance of C10 (amended): the one-byte file `A` captured again after its
baseline capture, no `.patch` sidecar present. -/
theorem CreatePatch_no_change_classification_witness :
    ∃ record,
      CreatePatch prefixDigest 1 ⟨some (fileOf [65]), some samplePrior⟩ =
        (.ok, ⟨some (fileOf [65]), some { samplePrior with metaFile := some record }⟩) ∧
      (samplePrior.patchFile = none →
        record.PatchType = FORMAT_BASELINE ∧ record.PatchHash = prefixDigest (fileOf [65]).data) ∧
      (∀ patchData, samplePrior.patchFile = some patchData →
        record.PatchType = FORMAT_PATCH ∧ record.PatchHash = prefixDigest patchData) ∧
      (((samplePrior.patchFile = none ∧ FORMAT_BASELINE = FORMAT_BASELINE ∧
            prefixDigest [65] = prefixDigest (fileOf [65]).data) ∨
          (∃ patchData, samplePrior.patchFile = some patchData ∧
            FORMAT_BASELINE = FORMAT_PATCH ∧ prefixDigest [65] = prefixDigest patchData)) →
        record.PatchType = FORMAT_BASELINE ∧ record.PatchHash = prefixDigest [65]) :=
  CreatePatch_no_change_classification prefixDigest 1 (fileOf [65]) samplePrior _ rfl
    (by decide) (by decide)

/-! ## Restore -/

/-- C1 fails on the code: the one-byte file `A` is captured (baseline), then replaced by
eight full blocks of `B` and captured again; both captures succeed, and the patch file
is an 86-byte header followed by 4096 payload bytes.  `MergePatch` reads the payload
with single `bufio.Reader.Read` calls: the first fill of the 4096-byte buffer holds the
header and 4010 payload bytes, so the eighth read delivers the 426 bytes left in the
buffer instead of 512, and the restore stops with "patchline size mismatched", leaving
3584 bytes instead of the 4096 bytes of the captured file. -/
theorem ConsolidatePatches_fails_on_large_patch :
    CreatePatch prefixDigest 0 ⟨some (fileOf [65]), none⟩ =
        (.ok, ⟨some (fileOf [65]), some samplePrior⟩) ∧
      (CreatePatch prefixDigest 1 ⟨some (fileOf largeFile), some samplePrior⟩).1 = .ok ∧
      ConsolidatePatches (some [65])
          [(CreatePatch prefixDigest 1 ⟨some (fileOf largeFile), some samplePrior⟩).2.sidecar.bind
            Sidecar.patchFile] =
        (.error .sizeMismatched, some (List.replicate 3584 66)) ∧
      prefixDigest [65] ≠ prefixDigest (List.replicate 512 66) := by
  decide!

/-! ## Patch file format -/

theorem flatMap_eq_map_filter {α β : Type} [DecidableEq β] (g : α → List β) (h : α → β) :
    ∀ l : List α, (∀ a ∈ l, g a = [] ∨ g a = [h a]) →
      l.flatMap g = (l.filter fun a => decide (g a ≠ [])).map h := by
  intro l
  induction l with
  | nil => intro _; rfl
  | cons a l ih =>
    intro hl
    have ih' := ih (fun b hb => hl b (List.mem_cons_of_mem _ hb))
    rw [List.flatMap_cons, ih']
    rcases hl a (List.mem_cons_self _ _) with h0 | h1
    · simp [h0]
    · simp [h1]

theorem CreatePatch.entryAt_refBlocks (sha1 : List Byte → SHAValue) (F : List Byte)
    (prev : List RDiffBlock) (i : Nat) (hi : i < (refBlocks sha1 F).length) :
    CreatePatch.entryAt (refBlocks sha1 F) prev i = [] ∨
      CreatePatch.entryAt (refBlocks sha1 F) prev i = [blockEntry F i] := by
  rw [refBlocks_length] at hi
  have hget := refBlocks_getElem? sha1 F i hi
  unfold CreatePatch.entryAt CreatePatch.changeAt CreatePatch.newAt
  rw [hget]
  split
  · cases prev[i]? with
    | none => left; rfl
    | some org =>
      simp only
      split
      · right; rfl
      · left; rfl
  · right; rfl

/-- The entry list of a capture of the file `F`: the entries of an increasing list of
block indices, then the `PATCH_TRUNCATE` entry when the file has not more blocks than
before. -/
theorem CreatePatch.entries_blocks (sha1 : List Byte → SHAValue) (F : List Byte)
    (prev : List RDiffBlock) (fileSize : Int) (patches : List Patch)
    (h : CreatePatch.entries (refBlocks sha1 F) prev fileSize = some patches) :
    ∃ l : List Nat, l.Pairwise (· < ·) ∧ (∀ i ∈ l, i < (F.length + 511) / 512) ∧
      patches = l.map (blockEntry F) ++
        (if (refBlocks sha1 F).length ≤ prev.length then [⟨fileSize, 0, PATCH_TRUNCATE⟩] else []) := by
  refine ⟨(List.range (refBlocks sha1 F).length).filter
    (fun i => decide (CreatePatch.entryAt (refBlocks sha1 F) prev i ≠ [])), ?_, ?_, ?_⟩
  · exact (List.pairwise_lt_range _).filter _
  · intro i hi
    have := List.mem_range.mp (List.mem_of_mem_filter hi)
    rwa [refBlocks_length] at this
  · rw [CreatePatch.entries_eq _ _ _ _ h]
    congr 1
    apply flatMap_eq_map_filter
    intro i hi
    exact CreatePatch.entryAt_refBlocks sha1 F prev i (List.mem_range.mp hi)

theorem CreatePatch.payload_tail (F : List Byte) (tail : List Patch) (buf out : List Byte)
    (htail : tail = [] ∨ ∃ e, tail = [e] ∧ e.Size = 0) :
    CreatePatch.payload F tail buf out = (none, out) := by
  rcases htail with rfl | ⟨e, rfl, he⟩
  · rfl
  · simp [CreatePatch.payload, he]

theorem CreatePatch.payload_blocks (F : List Byte) :
    ∀ (l : List Nat) (buf out : List Byte) (tail : List Patch),
      l.Pairwise (· < ·) → (∀ i ∈ l, i < (F.length + 511) / 512) → buf.length = 512 →
      (tail = [] ∨ ∃ e, tail = [e] ∧ e.Size = 0) →
      CreatePatch.payload F (l.map (blockEntry F) ++ tail) buf out =
        (none, out ++ l.flatMap fun i => (F.drop (512 * i)).take 512) := by
  intro l
  induction l with
  | nil =>
    intro buf out tail _ _ _ htail
    simpa using CreatePatch.payload_tail F tail buf out htail
  | cons i l ih =>
    intro buf out tail hsorted hbound hbuf htail
    have hi : i < (F.length + 511) / 512 := hbound i (List.mem_cons_self _ _)
    have hsize : (blockEntry F i).Size ≠ 0 := by
      simp only [blockEntry]
      have : 0 < min 512 (F.length - 512 * i) := by omega
      omega
    have hoff : ¬ (blockEntry F i).Offset < 0 := by
      simp only [blockEntry]
      omega
    have hnat : (blockEntry F i).Offset.toNat = 512 * i := by
      simp only [blockEntry, Int.toNat_ofNat]
    have hlen : ((F.drop (512 * i)).take 512).length = min 512 (F.length - 512 * i) := by
      rw [List.length_take, List.length_drop]
    have hgot : ∀ buf : List Byte, buf.length = 512 →
        (if ((F.drop (512 * i)).take 512).length < RDIFF_BLOCKSIZE then
          ((F.drop (512 * i)).take 512 ++
            buf.drop ((F.drop (512 * i)).take 512).length).take
              ((F.drop (512 * i)).take 512).length
        else (F.drop (512 * i)).take 512 ++
          buf.drop ((F.drop (512 * i)).take 512).length) = (F.drop (512 * i)).take 512 := by
      intro buf hb
      split
      · rw [List.take_append_of_le_length (le_refl _), List.take_length]
      · rename_i hge
        have h512 : RDIFF_BLOCKSIZE = 512 := rfl
        rw [h512] at hge
        have hle := List.length_take_le 512 (F.drop (512 * i))
        have : ((F.drop (512 * i)).take 512).length = 512 := by omega
        rw [this, List.drop_of_length_le (show buf.length ≤ 512 by omega), List.append_nil]
    rw [List.map_cons, List.cons_append, CreatePatch.payload]
    simp only [hsize, if_false, ReadAt, hoff, hnat, hbuf]
    have herr : ¬ ((if ((F.drop (512 * i)).take 512).length < 512 then some GoError.EOF else none) ≠
        none ∧ (if ((F.drop (512 * i)).take 512).length < 512 then some GoError.EOF else none) ≠
        some GoError.EOF) := by
      split <;> simp
    simp only [herr, if_false, hgot buf hbuf]
    by_cases hfull : ((F.drop (512 * i)).take 512).length = 512
    · rw [ih _ _ tail (List.Pairwise.of_cons hsorted)
        (fun j hj => hbound j (List.mem_cons_of_mem _ hj)) hfull htail]
      simp [List.flatMap_cons, List.append_assoc]
    · have hl : l = [] := by
        cases l with
        | nil => rfl
        | cons j l' =>
          exfalso
          have hij : i < j := (List.pairwise_cons.mp hsorted).1 j (List.mem_cons_self _ _)
          have hj : j < (F.length + 511) / 512 :=
            hbound j (List.mem_cons_of_mem _ (List.mem_cons_self _ _))
          rw [hlen] at hfull
          omega
      subst hl
      simp only [List.map_nil, List.nil_append, List.flatMap_cons, List.flatMap_nil,
        List.append_nil]
      exact CreatePatch.payload_tail F tail _ _ htail

theorem payloadOf_blockEntry (F : List Byte) (i : Nat) :
    payloadOf F (blockEntry F i) = (F.drop (512 * i)).take 512 := by
  simp only [payloadOf, blockEntry, Int.toNat_ofNat]
  rcases Nat.le_total (F.length - 512 * i) 512 with h | h
  · rw [Nat.min_eq_right h, List.take_of_length_le (by rw [List.length_drop]),
      List.take_of_length_le (by rw [List.length_drop]; exact h)]
  · rw [Nat.min_eq_left h]

theorem blockEntry_payload_length (F : List Byte) :
    ∀ l : List Nat, (((l.map (blockEntry F)).flatMap (payloadOf F)).length : Int) =
      ((l.map (blockEntry F)).map Patch.Size).sum := by
  intro l
  induction l with
  | nil => rfl
  | cons i l ih =>
    rw [List.map_cons, List.flatMap_cons, List.length_append, List.map_cons, List.sum_cons,
      Nat.cast_add, ih, payloadOf_blockEntry, List.length_take, List.length_drop]
    rfl

/-- The patch file of a capture: the header, then the payloads of the `PATCH_CHANGE`
entries in entry order; the payload is as long as the sum of the entries' sizes. -/
theorem patchFileOf_eq (sha1 : List Byte → SHAValue) (F : List Byte) (prev : List RDiffBlock)
    (fileSize : Int) (patches : List Patch)
    (h : CreatePatch.entries (refBlocks sha1 F) prev fileSize = some patches) :
    patchFileOf F patches = CreatePatch.header patches ++
        (patches.filter fun e => decide (e.Type_ = PATCH_CHANGE)).flatMap (payloadOf F) ∧
      ((((patches.filter fun e => decide (e.Type_ = PATCH_CHANGE)).flatMap
        (payloadOf F)).length : Int) = (patches.map Patch.Size).sum) := by
  obtain ⟨l, hsorted, hbound, hpatches⟩ := CreatePatch.entries_blocks sha1 F prev fileSize patches h
  have htail : (if (refBlocks sha1 F).length ≤ prev.length then
      [(⟨fileSize, 0, PATCH_TRUNCATE⟩ : Patch)] else []) = [] ∨
      ∃ e, (if (refBlocks sha1 F).length ≤ prev.length then
        [(⟨fileSize, 0, PATCH_TRUNCATE⟩ : Patch)] else []) = [e] ∧ e.Size = 0 := by
    split
    · exact Or.inr ⟨_, rfl, rfl⟩
    · exact Or.inl rfl
  have hfilter : (patches.filter fun e => decide (e.Type_ = PATCH_CHANGE)) =
      l.map (blockEntry F) := by
    rw [hpatches, List.filter_append]
    have h1 : (l.map (blockEntry F)).filter (fun e => decide (e.Type_ = PATCH_CHANGE)) =
        l.map (blockEntry F) := by
      rw [List.filter_eq_self]
      intro e he
      obtain ⟨i, _, rfl⟩ := List.mem_map.mp he
      simp [blockEntry]
    have h2 : (if (refBlocks sha1 F).length ≤ prev.length then
        [(⟨fileSize, 0, PATCH_TRUNCATE⟩ : Patch)] else []).filter
          (fun e => decide (e.Type_ = PATCH_CHANGE)) = [] := by
      split <;> simp [PATCH_TRUNCATE, PATCH_CHANGE]
    rw [h1, h2, List.append_nil]
  have hsum : (patches.map Patch.Size).sum = ((l.map (blockEntry F)).map Patch.Size).sum := by
    rw [hpatches, List.map_append, List.sum_append]
    split <;> simp
  constructor
  · rw [hfilter]
    unfold patchFileOf
    have hpay := CreatePatch.payload_blocks F l (List.replicate RDIFF_BLOCKSIZE 0)
      (CreatePatch.header patches) _ hsorted hbound
      (by rw [List.length_replicate]; rfl) htail
    rw [← hpatches] at hpay
    rw [hpay]
    simp only
    congr 1
    rw [List.flatMap_map]
    apply List.flatMap_congr
    intro i _
    exact (payloadOf_blockEntry F i).symm
  · rw [hfilter, hsum]
    exact blockEntry_payload_length F l

/-- C11: for every capture that generates entries `patches` from the current file `F` (a
non-empty file with a prior record, not a no-content capture), `CreatePatch` succeeds and
the patch file it writes is exactly: the decimal entry count and a newline; for each
entry in order the line `offset:size:kind` and a newline, the kind being `0`
(`PATCH_CHANGE`) or `2` (`PATCH_TRUNCATE`); then, in entry order, `F[offset ..
offset+size)` for each `PATCH_CHANGE` entry.  The payload is as long as the sum of the
entries' sizes, a `PATCH_TRUNCATE` entry having size 0 and no payload. -/
theorem CreatePatch_patch_file_format (sha1 : List Byte → SHAValue) (now : Int) (f : OSFile)
    (sc : Sidecar) (Prev : FileMetaData) (patches : List Patch)
    (hmeta : sc.metaFile = some Prev) (hdata : f.data ≠ [])
    (hentries : CreatePatch.entries (MakeRDiffBlocks sha1 f.data).1 Prev.PatchState
      f.data.length = some patches) :
    ∃ record rangeData,
      CreatePatch sha1 now ⟨some f, some sc⟩ =
        (.ok, ⟨some f, some ⟨some record,
          some (FormatInt patches.length ++ ascii "\n" ++
            (patches.flatMap fun e =>
              FormatInt e.Offset ++ ascii ":" ++ FormatInt e.Size ++ ascii ":" ++
                FormatInt e.Type_ ++ ascii "\n") ++
            (patches.filter fun e => decide (e.Type_ = PATCH_CHANGE)).flatMap fun e =>
              (f.data.drop e.Offset.toNat).take e.Size.toNat),
          some rangeData⟩⟩) ∧
      ((((patches.filter fun e => decide (e.Type_ = PATCH_CHANGE)).flatMap fun e =>
        (f.data.drop e.Offset.toNat).take e.Size.toNat).length : Int) =
          (patches.map Patch.Size).sum) ∧
      (∀ e ∈ patches, (e.Type_ = PATCH_CHANGE ∧ FormatInt e.Type_ = ascii "0") ∨
        (e.Type_ = PATCH_TRUNCATE ∧ FormatInt e.Type_ = ascii "2" ∧ e.Size = 0)) := by
  rw [MakeRDiffBlocks_eq] at hentries
  simp only at hentries
  obtain ⟨text, ht⟩ := CreatePatch_patch_path sha1 now f sc Prev patches hmeta hdata hentries
  obtain ⟨hfile, hlen⟩ := patchFileOf_eq sha1 f.data Prev.PatchState _ patches hentries
  refine ⟨recordOf now f FORMAT_PATCH (patchFileOf f.data patches).length Prev.PatchHash
    (sha1 (patchFileOf f.data patches)) (refBlocks sha1 f.data), text, ?_, hlen, ?_⟩
  · rw [ht]
    nth_rewrite 3 [hfile]
    rfl
  · intro e he
    rcases CreatePatch.entries_mem _ _ _ _ hentries e he with ⟨c, _, rfl⟩ | rfl
    · exact Or.inl ⟨rfl, show FormatInt PATCH_CHANGE = ascii "0" by decide⟩
    · exact Or.inr ⟨rfl, show FormatInt PATCH_TRUNCATE = ascii "2" by decide, rfl⟩

/-- An instance of C11: the one-byte file `A` becomes `B`. -/
theorem CreatePatch_patch_file_format_witness :
    ∃ record rangeData,
      CreatePatch prefixDigest 1 ⟨some (fileOf [66]), some samplePrior⟩ =
        (.ok, ⟨some (fileOf [66]), some ⟨some record,
          some (FormatInt sampleEntries.length ++ ascii "\n" ++
            (sampleEntries.flatMap fun e =>
              FormatInt e.Offset ++ ascii ":" ++ FormatInt e.Size ++ ascii ":" ++
                FormatInt e.Type_ ++ ascii "\n") ++
            (sampleEntries.filter fun e => decide (e.Type_ = PATCH_CHANGE)).flatMap fun e =>
              ((fileOf [66]).data.drop e.Offset.toNat).take e.Size.toNat),
          some rangeData⟩⟩) ∧
      ((((sampleEntries.filter fun e => decide (e.Type_ = PATCH_CHANGE)).flatMap fun e =>
        ((fileOf [66]).data.drop e.Offset.toNat).take e.Size.toNat).length : Int) =
          (sampleEntries.map Patch.Size).sum) ∧
      (∀ e ∈ sampleEntries, (e.Type_ = PATCH_CHANGE ∧ FormatInt e.Type_ = ascii "0") ∨
        (e.Type_ = PATCH_TRUNCATE ∧ FormatInt e.Type_ = ascii "2" ∧ e.Size = 0)) :=
  CreatePatch_patch_file_format prefixDigest 1 (fileOf [66]) samplePrior _ sampleEntries rfl
    (by decide) (by decide)

/-! ## Range manifest -/

theorem wrapInt64_of_isInt (i : Int) (h : isInt 64 i) : wrapInt64 i = i := by
  obtain ⟨h1, h2⟩ := h
  have h3 : ((2 ^ (64 - 1) : Nat) : Int) = 9223372036854775808 := by norm_num
  rw [h3] at h1 h2
  unfold wrapInt64
  omega

theorem CreateRangeFile.rangeEnd_of_isInt (p : Patch) (h : isInt 64 (p.Offset + p.Size - 1)) :
    CreateRangeFile.rangeEnd p = p.Offset + p.Size - 1 := by
  unfold CreateRangeFile.rangeEnd
  split
  · exact wrapInt64_of_isInt _ h
  · rfl

theorem CreateRangeFile.rangeEnd_last_block (len : Nat) (kind : Int) :
    CreateRangeFile.rangeEnd
        ⟨((512 * (len / 512) : Nat) : Int), ((len % 512 : Nat) : Int), kind⟩ =
      (len : Int) - 1 := by
  have h3 : ((2 ^ (64 - 1) : Nat) : Int) = 9223372036854775808 := by norm_num
  unfold CreateRangeFile.rangeEnd
  simp only
  split
  · rename_i ht
    obtain ⟨⟨_, h2⟩, _⟩ := ht
    rw [h3] at h2
    rw [wrapInt64_of_isInt]
    · omega
    · constructor
      · rw [h3]; omega
      · rw [h3]; omega
  · omega

theorem rangeOf_eq_spec (p : Patch) (h : isInt 64 (p.Offset + p.Size - 1)) :
    rangeOf p = specRangeOf p := by
  unfold rangeOf specRangeOf
  rw [CreateRangeFile.rangeEnd_of_isInt p h]

theorem CreateRangeFile.loop_later (fileSize : Int) (n : Nat) :
    ∀ (patches : List Patch) (i : Nat) (buf : List Byte), 0 < i → n = i + patches.length →
      CreateRangeFile.loop fileSize n patches i buf =
        if patches.dropLast.any (fun p => decide (p.Type_ = PATCH_TRUNCATE)) then
          .error .truncateFormat
        else .ok (buf ++ (patches.filter fun p => decide (p.Size > 0)).flatMap fun p =>
          ascii ", " ++ rangeOf p ++ ascii "/*") := by
  intro patches
  induction patches with
  | nil => intro i buf _ _; simp [CreateRangeFile.loop]
  | cons p rest ih =>
    intro i buf hi hn
    have hi0 : ¬ i = 0 := by omega
    unfold CreateRangeFile.loop
    simp only [hi0, if_false]
    cases rest with
    | nil =>
      have hlast : ¬ (p.Type_ = PATCH_TRUNCATE ∧ i ≠ n - 1) := by
        simp only [List.length_singleton] at hn
        rintro ⟨_, h⟩
        omega
      simp only [hlast, if_false, CreateRangeFile.loop]
      by_cases hs : p.Size > 0
      · simp [hs, rangeOf, List.append_assoc]
      · simp [hs]
    | cons q rest' =>
      have hnl : i ≠ n - 1 := by
        simp only [List.length_cons] at hn
        omega
      by_cases ht : p.Type_ = PATCH_TRUNCATE
      · simp [ht, hnl]
      · have hc : ¬ (p.Type_ = PATCH_TRUNCATE ∧ i ≠ n - 1) := fun h => ht h.1
        simp only [hc, if_false]
        rw [ih (i + 1) _ (by omega) (by simp only [List.length_cons] at hn ⊢; omega)]
        by_cases hs : p.Size > 0
        · simp [hs, ht, rangeOf, List.append_assoc]
        · simp [hs, ht]

theorem CreateRangeFile.loop_first (fileSize : Int) (patches : List Patch) :
    CreateRangeFile.loop fileSize patches.length patches 0 (ascii "bytes ") =
      if patches.dropLast.any (fun p => decide (p.Type_ = PATCH_TRUNCATE)) then
        .error .truncateFormat
      else .ok (rangeManifest fileSize patches) := by
  cases patches with
  | nil => simp [CreateRangeFile.loop, rangeManifest]
  | cons p rest =>
    unfold CreateRangeFile.loop
    simp only [if_true]
    cases rest with
    | nil => simp [CreateRangeFile.loop, rangeManifest, rangeOf, List.append_assoc]
    | cons q rest' =>
      by_cases ht : p.Type_ = PATCH_TRUNCATE
      · simp [ht]
      · have hc : ¬ (p.Type_ = PATCH_TRUNCATE ∧
            0 ≠ (p :: q :: rest').length - 1) := fun h => ht h.1
        simp only [hc, if_false]
        rw [CreateRangeFile.loop_later fileSize _ _ 1 _ (by omega)
          (by simp only [List.length_cons]; omega)]
        simp [ht, rangeManifest, rangeOf, List.append_assoc]

/-- C16, as stated, fails: a first entry of size zero that is not a lone truncate entry
is listed, as the empty range `5-4`, where the claim has it contribute nothing. -/
theorem CreateRangeFile_lists_zero_size_first_entry :
    CreateRangeFile ⟨some (fileOf (List.replicate 10 65)), some ⟨none, none, none⟩⟩
        [⟨5, 0, PATCH_CHANGE⟩] =
      (none, ⟨some (fileOf (List.replicate 10 65)),
        some ⟨none, none, some (ascii "bytes 5-4/10")⟩⟩) ∧
    specManifest 10 [⟨5, 0, PATCH_CHANGE⟩] = ascii "bytes " ∧
    ascii "bytes 5-4/10" ≠ ascii "bytes " := by
  decide

/-- C16 (amended): for every entry list and file of size `S`, `CreateRangeFile` writes
`bytes */S` when the list is exactly one `PATCH_TRUNCATE` entry; otherwise it returns
an error, leaving the range file empty, when a `PATCH_TRUNCATE` entry is not last; and
otherwise it writes `bytes ` followed by the range `o-e/S` of the first entry, whatever
its size, and `, o-e/*` for every later entry of positive size, later entries of size
zero contributing nothing.  The end `e` is `o + size - 1` computed in `int64`, so it
wraps around: the entry `(9223372036854775807, 3, CHANGE)` is listed as
`9223372036854775807--9223372036854775807`.  When the first entry has a non-zero size,
no size is negative and no end leaves the `int64` range, this is the manifest of the
specification: the ranges of the entries with non-zero size, with `e = o + size - 1`,
the first suffixed `/S`, the later ones `/*`.  The entries
`(512,488,CHANGE),(1000,0,TRUNCATE)` with `S = 1000` give `bytes 512-999/1000`. -/
theorem CreateRangeFile_manifest (f : OSFile) (sc : Sidecar) (patches : List Patch) :
    CreateRangeFile ⟨some f, some sc⟩ patches =
      (if isSingleTruncate patches then
        (none, ⟨some f, some { sc with
          rangeFile := some (ascii "bytes " ++ ascii "*/" ++ FormatInt f.data.length) }⟩)
      else if patches.dropLast.any (fun p => decide (p.Type_ = PATCH_TRUNCATE)) then
        (some .truncateFormat, ⟨some f, some { sc with rangeFile := some [] }⟩)
      else
        (none, ⟨some f, some { sc with
          rangeFile := some (rangeManifest f.data.length patches) }⟩)) ∧
    (∀ p : Patch, isInt 64 p.Offset → isInt 64 p.Size →
      rangeOf p = FormatInt p.Offset ++ ascii "-" ++
        FormatInt (wrapInt64 (p.Offset + p.Size - 1))) ∧
    (∀ S : Int, (∀ p ∈ patches, 0 ≤ p.Size) → (∀ p, patches.head? = some p → p.Size ≠ 0) →
      (∀ p ∈ patches, isInt 64 (p.Offset + p.Size - 1)) →
      rangeManifest S patches = specManifest S patches) ∧
    rangeManifest 1000 [⟨512, 488, PATCH_CHANGE⟩, ⟨1000, 0, PATCH_TRUNCATE⟩] =
      ascii "bytes 512-999/1000" ∧
    rangeManifest 10 [⟨9223372036854775807, 3, PATCH_CHANGE⟩] =
      ascii "bytes 9223372036854775807--9223372036854775807/10" := by
  refine ⟨?_, ?_, ?_, by decide, by decide⟩
  · unfold CreateRangeFile
    simp only
    rw [CreateRangeFile.loop_first]
    rcases patches with _ | ⟨p, _ | ⟨q, rest⟩⟩
    · simp [isSingleTruncate]
    · by_cases ht : p.Type_ = PATCH_TRUNCATE
      · simp [isSingleTruncate, ht]
      · simp [isSingleTruncate, ht]
    · simp only [isSingleTruncate, Bool.false_eq_true, if_false]
      by_cases h2 : (p :: q :: rest).dropLast.any
          (fun p => decide (p.Type_ = PATCH_TRUNCATE)) = true
      · simp only [h2, if_true]
      · simp only [h2, Bool.false_eq_true, if_false]
  · intro p ho hs
    simp only [rangeOf, CreateRangeFile.rangeEnd, ho, hs, and_self, if_true]
  · intro S hnonneg hfirst hrange
    cases patches with
    | nil => rfl
    | cons first later =>
      have h1 : first.Size ≠ 0 := hfirst first rfl
      have h2 : (later.filter fun p => decide (p.Size > 0)) =
          later.filter fun p => decide (p.Size ≠ 0) := by
        apply List.filter_congr
        intro p hp
        have := hnonneg p (List.mem_cons_of_mem _ hp)
        simp only [decide_eq_decide]
        omega
      have h3 : ((later.filter fun p => decide (p.Size ≠ 0)).flatMap fun p =>
          ascii ", " ++ rangeOf p ++ ascii "/*") =
          (later.filter fun p => decide (p.Size ≠ 0)).flatMap fun p =>
            ascii ", " ++ specRangeOf p ++ ascii "/*" := by
        apply List.flatMap_congr
        intro p hp
        rw [rangeOf_eq_spec p (hrange p (List.mem_cons_of_mem _ (List.mem_of_mem_filter hp)))]
      simp only [rangeManifest, specManifest, h2, h3,
        rangeOf_eq_spec first (hrange first (List.mem_cons_self _ _))]
      simp [h1]

/-! ## Append -/

theorem take_min_length (l : List Byte) : l.take (min 512 l.length) = l.take 512 := by
  rcases Nat.le_total l.length 512 with h | h
  · rw [Nat.min_eq_right h, List.take_of_length_le h, List.take_of_length_le (le_refl _)]
  · rw [Nat.min_eq_left h]

theorem refBlocks_signature (sha1 : List Byte → SHAValue) (F : List Byte) (i : Nat)
    (hi : i < (F.length + 511) / 512) :
    (refBlocks sha1 F)[i]? =
      some ⟨((512 * i : Nat) : Int), ((min 512 (F.length - 512 * i) : Nat) : Int),
        sha1 ((F.drop (512 * i)).take 512)⟩ := by
  rw [refBlocks_getElem? sha1 F i hi]
  have := take_min_length (F.drop (512 * i))
  rw [List.length_drop] at this
  rw [this]

theorem CreatePatch.entries_eq_none_iff (cur prev : List RDiffBlock) (fileSize : Int) :
    CreatePatch.entries cur prev fileSize = none ↔
      cur.length = prev.length ∧
        (List.range (min cur.length prev.length)).flatMap (CreatePatch.changeAt cur prev) = [] := by
  unfold CreatePatch.entries
  simp only
  rw [CreatePatch.compare_eq]
  constructor
  · intro h
    split at h
    · rename_i hc
      exact ⟨hc.1, List.length_eq_zero.mp hc.2⟩
    · exact absurd h (by simp)
  · rintro ⟨h1, h2⟩
    rw [if_pos ⟨h1, by rw [h2]; rfl⟩]

/-- In a capture of `A ++ T` over the blocks of `A`, the full blocks of `A` give no entry. -/
theorem CreatePatch.entryAt_append_old (sha1 : List Byte → SHAValue) (A T : List Byte) (i : Nat)
    (hi : i < A.length / 512) :
    CreatePatch.entryAt (refBlocks sha1 (A ++ T)) (refBlocks sha1 A) i = [] := by
  have hp : i < (A.length + 511) / 512 := by omega
  have hc : i < ((A ++ T).length + 511) / 512 := by
    rw [List.length_append]; omega
  have hlt : i < (refBlocks sha1 A).length := by rw [refBlocks_length]; exact hp
  have hle : 512 * i ≤ A.length := by omega
  have hd : (A ++ T).drop (512 * i) = A.drop (512 * i) ++ T :=
    List.drop_append_of_le_length hle
  have ht : ((A ++ T).drop (512 * i)).take 512 = (A.drop (512 * i)).take 512 := by
    rw [hd, List.take_append_of_le_length (by rw [List.length_drop]; omega)]
  unfold CreatePatch.entryAt CreatePatch.changeAt
  rw [if_pos hlt, refBlocks_signature sha1 (A ++ T) i hc, refBlocks_signature sha1 A i hp, ht]
  simp

/-- In a capture of `A ++ T` over the blocks of `A`, every block from the last, partial
block of `A` onwards gives its entry, provided the digest separates that block from
the block that replaces it. -/
theorem CreatePatch.entryAt_append_new (sha1 : List Byte → SHAValue) (A T : List Byte) (i : Nat)
    (hsep : A.length % 512 ≠ 0 →
      sha1 (A.drop (512 * (A.length / 512))) ≠
        sha1 (((A ++ T).drop (512 * (A.length / 512))).take 512))
    (hq : A.length / 512 ≤ i) (hi : i < ((A ++ T).length + 511) / 512) :
    CreatePatch.entryAt (refBlocks sha1 (A ++ T)) (refBlocks sha1 A) i =
      [blockEntry (A ++ T) i] := by
  have hlen : i < (refBlocks sha1 (A ++ T)).length := by rw [refBlocks_length]; exact hi
  rcases CreatePatch.entryAt_refBlocks sha1 (A ++ T) (refBlocks sha1 A) i hlen with h0 | h1
  · exfalso
    unfold CreatePatch.entryAt CreatePatch.changeAt CreatePatch.newAt at h0
    rw [refBlocks_signature sha1 (A ++ T) i hi] at h0
    by_cases hp : i < (refBlocks sha1 A).length
    · rw [if_pos hp] at h0
      rw [refBlocks_length] at hp
      have hiq : i = A.length / 512 := by omega
      have hr : A.length % 512 ≠ 0 := by omega
      rw [refBlocks_signature sha1 A i hp] at h0
      simp only at h0
      have hold : (A.drop (512 * i)).take 512 = A.drop (512 * i) :=
        List.take_of_length_le (by rw [List.length_drop]; omega)
      rw [hold, hiq] at h0
      have := hsep hr
      simp only [ite_not, ne_eq] at h0
      split at h0
      · rename_i heq
        exact this heq.symm
      · simp at h0
    · rw [if_neg hp] at h0
      simp at h0
  · exact h1

theorem flatMap_singleton_eq_map {α β : Type} (g : α → List β) (h : α → β) :
    ∀ l : List α, (∀ a ∈ l, g a = [h a]) → l.flatMap g = l.map h := by
  intro l
  induction l with
  | nil => intro _; rfl
  | cons a l ih =>
    intro hl
    rw [List.flatMap_cons, List.map_cons, hl a (List.mem_cons_self _ _),
      ih (fun b hb => hl b (List.mem_cons_of_mem _ hb))]
    rfl

theorem range_split (q K : Nat) (h : q ≤ K) :
    List.range K = List.range q ++ List.range' q (K - q) := by
  rw [List.range_eq_range', List.range_eq_range']
  have := List.range'_append 0 q (K - q) 1
  simp only [Nat.one_mul, Nat.zero_add] at this
  rw [this]
  congr 1
  omega

/-- The entry list of a capture of `A ++ T` over the blocks of `A`. -/
theorem CreatePatch.entries_append (sha1 : List Byte → SHAValue) (A T : List Byte)
    (hT : T ≠ [])
    (hsep : A.length % 512 ≠ 0 →
      sha1 (A.drop (512 * (A.length / 512))) ≠
        sha1 (((A ++ T).drop (512 * (A.length / 512))).take 512)) (fileSize : Int) :
    CreatePatch.entries (refBlocks sha1 (A ++ T)) (refBlocks sha1 A) fileSize =
      some ((List.range' (A.length / 512)
          (((A ++ T).length + 511) / 512 - A.length / 512)).map (blockEntry (A ++ T)) ++
        (if ((A ++ T).length + 511) / 512 ≤ (A.length + 511) / 512 then
          [⟨fileSize, 0, PATCH_TRUNCATE⟩] else [])) := by
  have hm : 0 < T.length := List.length_pos.mpr hT
  have hK : A.length / 512 < ((A ++ T).length + 511) / 512 := by
    rw [List.length_append]; omega
  have hnew : ∀ i ∈ List.range' (A.length / 512)
      (((A ++ T).length + 511) / 512 - A.length / 512),
      CreatePatch.entryAt (refBlocks sha1 (A ++ T)) (refBlocks sha1 A) i =
        [blockEntry (A ++ T) i] := by
    intro i hi
    have := List.mem_range'_1.mp hi
    exact CreatePatch.entryAt_append_new sha1 A T i hsep this.1 (by omega)
  cases he : CreatePatch.entries (refBlocks sha1 (A ++ T)) (refBlocks sha1 A) fileSize with
  | none =>
    exfalso
    obtain ⟨hlen, hnil⟩ := (CreatePatch.entries_eq_none_iff _ _ _).mp he
    rw [refBlocks_length, refBlocks_length] at hlen
    rw [refBlocks_length, refBlocks_length, hlen, Nat.min_self, List.flatMap_eq_nil_iff] at hnil
    have hq : A.length / 512 < (A.length + 511) / 512 := by omega
    have h1 := hnil (A.length / 512) (List.mem_range.mpr hq)
    have h2 := CreatePatch.entryAt_append_new sha1 A T (A.length / 512) hsep (le_refl _) hK
    unfold CreatePatch.entryAt at h2
    rw [if_pos (by rw [refBlocks_length]; exact hq), h1] at h2
    exact absurd h2 (by simp)
  | some patches =>
    rw [CreatePatch.entries_eq _ _ _ _ he, refBlocks_length, refBlocks_length,
      range_split (A.length / 512) _ (Nat.le_of_lt hK), List.flatMap_append]
    have hold : (List.range (A.length / 512)).flatMap
        (CreatePatch.entryAt (refBlocks sha1 (A ++ T)) (refBlocks sha1 A)) = [] := by
      rw [List.flatMap_eq_nil_iff]
      intro i hi
      exact CreatePatch.entryAt_append_old sha1 A T i (List.mem_range.mp hi)
    rw [hold, List.nil_append, flatMap_singleton_eq_map _ (blockEntry (A ++ T)) _ hnew]

theorem chunks_from (F : List Byte) :
    ∀ (d q : Nat), (F.length + 511) / 512 - q = d →
      (List.range' q d).flatMap (fun i => (F.drop (512 * i)).take 512) = F.drop (512 * q) := by
  intro d
  induction d with
  | zero =>
    intro q h
    rw [List.range'_zero, List.flatMap_nil, List.drop_of_length_le (by omega)]
  | succ d ih =>
    intro q h
    rw [List.range'_succ, List.flatMap_cons, ih (q + 1) (by omega)]
    have : 512 * (q + 1) = 512 * q + 512 := by omega
    rw [this, ← List.drop_drop, List.take_append_drop]

/-- C20, as stated, fails: capturing 100 bytes and then the same 100 bytes followed by 50
new bytes generates the entries `(0,150,CHANGE),(150,0,TRUNCATE)`, with the whole 150
bytes as payload, not the single entry `(100,50,CHANGE)`: the one block of the file
starts at offset 0 and has changed as a whole. -/
theorem CreatePatch_append_rewrites_last_block :
    (CreatePatch sizedDigest 0 ⟨some (fileOf sampleA100), none⟩).1 = .ok ∧
    (GetFileMetaData (CreatePatch sizedDigest 0 ⟨some (fileOf sampleA100), none⟩).2).map
      FileMetaData.PatchState = some (MakeRDiffBlocks sizedDigest sampleA100).1 ∧
    CreatePatch.entries (MakeRDiffBlocks sizedDigest (sampleA100 ++ sampleT50)).1
      (MakeRDiffBlocks sizedDigest sampleA100).1 150 =
        some [⟨0, 150, PATCH_CHANGE⟩, ⟨150, 0, PATCH_TRUNCATE⟩] ∧
    (CreatePatch sizedDigest 1 ⟨some (fileOf (sampleA100 ++ sampleT50)),
      (CreatePatch sizedDigest 0 ⟨some (fileOf sampleA100), none⟩).2.sidecar⟩).2.sidecar.bind
        Sidecar.patchFile =
      some (ascii "2\n0:150:0\n150:0:2\n" ++ sampleA100 ++ sampleT50) := by
  decide!

/-- C20 (amended): for every prior file `A` and non-empty tail `T`, a capture of `A`
followed by `T` over the record of a capture of `A` (the digest separating the last,
partial block of `A` from the block that replaces it) succeeds and generates the
entries of the blocks of the new file from index `⌊len(A)/512⌋` on, followed by a
`PATCH_TRUNCATE` entry when the number of blocks has not grown.  No entry lies at an
offset below `512*⌊len(A)/512⌋`, and the payload is the new file from that offset to its
end.  When `len(A)` is a multiple of 512, no entry lies below `len(A)` and the payload
is exactly the appended bytes `T`. -/
theorem CreatePatch_append (sha1 : List Byte → SHAValue) (now : Int) (f : OSFile)
    (sc : Sidecar) (Prev : FileMetaData) (A T : List Byte)
    (hmeta : sc.metaFile = some Prev) (hprev : Prev.PatchState = (MakeRDiffBlocks sha1 A).1)
    (hfile : f.data = A ++ T) (hT : T ≠ [])
    (hsep : A.length % 512 ≠ 0 →
      sha1 (A.drop (512 * (A.length / 512))) ≠
        sha1 (((A ++ T).drop (512 * (A.length / 512))).take 512)) :
    ∃ record rangeData entries,
      CreatePatch sha1 now ⟨some f, some sc⟩ =
        (.ok, ⟨some f, some ⟨some record,
          some (CreatePatch.header entries ++ (A ++ T).drop (512 * (A.length / 512))),
          some rangeData⟩⟩) ∧
      entries =
        (List.range' (A.length / 512)
          (((A ++ T).length + 511) / 512 - A.length / 512)).map (blockEntry (A ++ T)) ++
        (if ((A ++ T).length + 511) / 512 ≤ (A.length + 511) / 512 then
          [⟨((A ++ T).length : Int), 0, PATCH_TRUNCATE⟩] else []) ∧
      (∀ e ∈ entries, ((512 * (A.length / 512) : Nat) : Int) ≤ e.Offset) ∧
      (A.length % 512 = 0 →
        (∀ e ∈ entries, (A.length : Int) ≤ e.Offset) ∧
          (A ++ T).drop (512 * (A.length / 512)) = T) := by
  obtain ⟨data, atim, mtim, ctim⟩ := f
  simp only at hfile
  subst hfile
  rw [MakeRDiffBlocks_eq] at hprev
  simp only at hprev
  have hdata : (A ++ T) ≠ [] := by
    intro h
    exact hT (List.append_eq_nil.mp h).2
  have hentries := CreatePatch.entries_append sha1 A T hT hsep ((A ++ T).length : Int)
  rw [← hprev] at hentries
  obtain ⟨text, ht⟩ := CreatePatch_patch_path sha1 now ⟨A ++ T, atim, mtim, ctim⟩ sc Prev _
    hmeta hdata hentries
  obtain ⟨hpf, _⟩ := patchFileOf_eq sha1 (A ++ T) Prev.PatchState _ _ hentries
  have hoff : ∀ e ∈ (List.range' (A.length / 512)
      (((A ++ T).length + 511) / 512 - A.length / 512)).map (blockEntry (A ++ T)) ++
      (if ((A ++ T).length + 511) / 512 ≤ (A.length + 511) / 512 then
        [(⟨((A ++ T).length : Int), 0, PATCH_TRUNCATE⟩ : Patch)] else []),
      ((512 * (A.length / 512) : Nat) : Int) ≤ e.Offset := by
    intro e he
    rcases List.mem_append.mp he with he | he
    · obtain ⟨i, hi, rfl⟩ := List.mem_map.mp he
      have := (List.mem_range'_1.mp hi).1
      simp only [blockEntry]
      omega
    · split at he
      · rw [List.mem_singleton] at he
        subst he
        simp only [List.length_append]
        omega
      · simp at he
  have hfilter : ((List.range' (A.length / 512)
      (((A ++ T).length + 511) / 512 - A.length / 512)).map (blockEntry (A ++ T)) ++
      (if ((A ++ T).length + 511) / 512 ≤ (A.length + 511) / 512 then
        [(⟨((A ++ T).length : Int), 0, PATCH_TRUNCATE⟩ : Patch)] else [])).filter
        (fun e => decide (e.Type_ = PATCH_CHANGE)) =
      (List.range' (A.length / 512)
        (((A ++ T).length + 511) / 512 - A.length / 512)).map (blockEntry (A ++ T)) := by
    rw [List.filter_append]
    have h1 : ∀ l : List Nat, (l.map (blockEntry (A ++ T))).filter
        (fun e => decide (e.Type_ = PATCH_CHANGE)) = l.map (blockEntry (A ++ T)) := by
      intro l
      rw [List.filter_eq_self]
      intro e he
      obtain ⟨i, _, rfl⟩ := List.mem_map.mp he
      simp [blockEntry]
    rw [h1]
    split <;> simp [PATCH_TRUNCATE, PATCH_CHANGE]
  have hchunks : (List.range' (A.length / 512)
      (((A ++ T).length + 511) / 512 - A.length / 512)).flatMap
        (fun i => payloadOf (A ++ T) (blockEntry (A ++ T) i)) =
      (A ++ T).drop (512 * (A.length / 512)) := by
    rw [← chunks_from (A ++ T) _ (A.length / 512) rfl]
    apply List.flatMap_congr
    intro i _
    exact payloadOf_blockEntry (A ++ T) i
  rw [hfilter, List.flatMap_map, hchunks] at hpf
  rw [hpf] at ht
  refine ⟨_, text, _, ht, rfl, hoff, ?_⟩
  intro hr
  have hq : 512 * (A.length / 512) = A.length := by omega
  refine ⟨?_, ?_⟩
  · intro e he
    have := hoff e he
    rw [hq] at this
    exact this
  · rw [hq, List.drop_left]

/-- An instance of C20 (amended): the one-byte file `A` followed by the byte `B`. -/
theorem CreatePatch_append_witness :
    ∃ record rangeData entries,
      CreatePatch prefixDigest 1 ⟨some (fileOf ([65] ++ [66])), some samplePrior⟩ =
        (.ok, ⟨some (fileOf ([65] ++ [66])), some ⟨some record,
          some (CreatePatch.header entries ++
            (([65] : List Byte) ++ [66]).drop (512 * (([65] : List Byte).length / 512))),
          some rangeData⟩⟩) ∧
      entries =
        (List.range' (([65] : List Byte).length / 512)
          (((([65] : List Byte) ++ [66]).length + 511) / 512 -
            ([65] : List Byte).length / 512)).map (blockEntry ([65] ++ [66])) ++
        (if ((([65] : List Byte) ++ [66]).length + 511) / 512 ≤
            (([65] : List Byte).length + 511) / 512 then
          [⟨(((([65] : List Byte) ++ [66]).length : Nat) : Int), 0, PATCH_TRUNCATE⟩] else []) ∧
      (∀ e ∈ entries, ((512 * (([65] : List Byte).length / 512) : Nat) : Int) ≤ e.Offset) ∧
      (([65] : List Byte).length % 512 = 0 →
        (∀ e ∈ entries, ((([65] : List Byte).length : Nat) : Int) ≤ e.Offset) ∧
          (([65] : List Byte) ++ [66]).drop (512 * (([65] : List Byte).length / 512)) = [66]) :=
  CreatePatch_append prefixDigest 1 (fileOf ([65] ++ [66])) samplePrior _ [65] [66] rfl
    (by decide) rfl (by decide) (by decide)

/-! ## Restore chain -/

theorem untilBaseline_ne_nil (versions : List Version) (h : versions ≠ []) :
    untilBaseline versions ≠ [] := by
  cases versions with
  | nil => exact absurd rfl h
  | cons v rest =>
    unfold untilBaseline
    split <;> simp
theorem parseDigits_append (a b : List Byte) :
    ∀ n, parseDigits (a ++ b) n = (parseDigits a n).bind (parseDigits b) := by
  induction a with
  | nil => intro n; rfl
  | cons c cs ih =>
    intro n
    simp only [List.cons_append, parseDigits]
    split
    · exact ih _
    · rfl

theorem digitByte_val (n : Nat) (h : n < 10) :
    ((⟨(48 + n) % 256, Nat.mod_lt _ (by decide)⟩ : Byte) : Nat) = 48 + n := by
  show (48 + n) % 256 = 48 + n
  omega

theorem natDigits_digits :
    ∀ (fuel n : Nat), ∀ c ∈ natDigits fuel n, 48 ≤ c.val ∧ c.val ≤ 57 := by
  intro fuel
  induction fuel with
  | zero => intro n c hc; simp [natDigits] at hc
  | succ fuel ih =>
    intro n c hc
    unfold natDigits at hc
    split at hc
    · rename_i h10
      rw [List.mem_singleton] at hc
      subst hc
      rw [digitByte_val n h10]
      omega
    · rcases List.mem_append.mp hc with hc | hc
      · exact ih _ c hc
      · rw [List.mem_singleton] at hc
        subst hc
        rw [digitByte_val (n % 10) (Nat.mod_lt _ (by decide))]
        omega

theorem natDigits_ne_nil (fuel n : Nat) : natDigits (fuel + 1) n ≠ [] := by
  unfold natDigits
  split <;> simp

theorem parseDigits_natDigits :
    ∀ (fuel n : Nat), n < fuel → parseDigits (natDigits fuel n) 0 = some n := by
  intro fuel
  induction fuel with
  | zero => intro n h; omega
  | succ fuel ih =>
    intro n hn
    unfold natDigits
    split
    · rename_i h10
      simp only [parseDigits, digitByte_val n h10]
      rw [if_pos (by omega)]
      congr 1
      omega
    · rw [parseDigits_append, ih (n / 10) (by omega)]
      have h10 : n % 10 < 10 := Nat.mod_lt _ (by decide)
      simp only [Option.bind, parseDigits, digitByte_val (n % 10) h10]
      rw [if_pos (by omega)]
      congr 1
      omega

theorem FormatInt_bytes (i : Int) :
    ∀ c ∈ FormatInt i, c = asciiByte '-' ∨ (48 ≤ c.val ∧ c.val ≤ 57) := by
  intro c hc
  unfold FormatInt at hc
  split at hc
  · rcases List.mem_cons.mp hc with hc | hc
    · exact Or.inl hc
    · exact Or.inr (natDigits_digits _ _ c hc)
  · exact Or.inr (natDigits_digits _ _ c hc)

theorem FormatInt_ne_nil (i : Int) : FormatInt i ≠ [] := by
  unfold FormatInt
  split
  · simp
  · exact natDigits_ne_nil _ _

theorem FormatInt_not_mem (i : Int) (c : Byte) (h1 : c ≠ asciiByte '-')
    (h2 : ¬ (48 ≤ c.val ∧ c.val ≤ 57)) : c ∉ FormatInt i := by
  intro hc
  rcases FormatInt_bytes i c hc with h | h
  · exact h1 h
  · exact h2 h

theorem ParseInt_FormatInt (i : Int) (bitSize : Nat)
    (hlo : -((2 ^ (bitSize - 1) : Nat) : Int) ≤ i) (hhi : i < ((2 ^ (bitSize - 1) : Nat) : Int)) :
    ParseInt (FormatInt i) bitSize = some i := by
  obtain ⟨C, hC⟩ : ∃ C, C = 2 ^ (bitSize - 1) := ⟨_, rfl⟩
  rw [← hC] at hlo hhi
  unfold FormatInt
  have hp := parseDigits_natDigits (i.natAbs + 1) i.natAbs (by omega)
  have hne := natDigits_ne_nil i.natAbs i.natAbs
  by_cases hneg : i < 0
  · rw [if_pos hneg]
    simp only [ParseInt, true_or, or_true, if_true, decide_True, hne, if_false, hp, ← hC]
    rw [if_neg (by simp), if_neg (by simp only [true_and, not_lt]; omega)]
    congr 1
    omega
  · rw [if_neg hneg]
    obtain ⟨c, cs, hcs⟩ := List.exists_cons_of_ne_nil hne
    have hc : 48 ≤ c.val ∧ c.val ≤ 57 :=
      natDigits_digits (i.natAbs + 1) i.natAbs c (by rw [hcs]; exact List.mem_cons_self _ _)
    have hplus : c ≠ asciiByte '+' := by
      intro h
      rw [h] at hc
      revert hc
      decide
    have hminus : c ≠ asciiByte '-' := by
      intro h
      rw [h] at hc
      revert hc
      decide
    rw [hcs] at hp ⊢
    simp only [ParseInt, hplus, hminus, or_self, if_false, decide_False, hp, ← hC]
    rw [if_neg (by simp), if_neg (by simp only [true_and, not_le]; omega), if_neg (by simp)]
    simp only [Bool.false_eq_true, if_false]
    congr 1
    omega

theorem Split_no_sep (sep : Byte) :
    ∀ (a : List Byte), sep ∉ a → Split sep a = [a] := by
  intro a
  induction a with
  | nil => intro _; rfl
  | cons c cs ih =>
    intro h
    have hc : c ≠ sep := fun e => h (e ▸ List.mem_cons_self _ _)
    have hcs : sep ∉ cs := fun e => h (List.mem_cons_of_mem _ e)
    simp only [Split, hc, if_false, ih hcs]

theorem Split_append (sep : Byte) (rest : List Byte) :
    ∀ (a : List Byte), sep ∉ a → Split sep (a ++ sep :: rest) = a :: Split sep rest := by
  intro a
  induction a with
  | nil => intro _; simp [Split]
  | cons c cs ih =>
    intro h
    have hc : c ≠ sep := fun e => h (e ▸ List.mem_cons_self _ _)
    have hcs : sep ∉ cs := fun e => h (List.mem_cons_of_mem _ e)
    simp only [List.cons_append, Split, hc, if_false]
    rw [show cs.append (sep :: rest) = cs ++ sep :: rest from rfl, ih hcs]

/-! ## Metadata codecs -/

theorem fromHexChar_hexDigit (n : Nat) (h : n < 16) : fromHexChar (hexDigit n) = some n := by
  interval_cases n <;> rfl

theorem hexDigit_ne (n : Nat) (h : n < 16) :
    hexDigit n ≠ asciiByte '"' ∧ hexDigit n ≠ asciiByte ':' := by
  interval_cases n <;> decide

theorem EncodeToString_cons (b : Byte) (l : List Byte) :
    EncodeToString (b :: l) =
      hexDigit (b.val / 16) :: hexDigit (b.val % 16) :: EncodeToString l := by
  simp [EncodeToString]

theorem DecodeString_EncodeToString (l : List Byte) :
    DecodeString (EncodeToString l) = some l := by
  induction l with
  | nil => rfl
  | cons b l ih =>
    have hb := b.isLt
    rw [EncodeToString_cons]
    simp only [DecodeString, fromHexChar_hexDigit _ (show b.val / 16 < 16 by omega),
      fromHexChar_hexDigit _ (show b.val % 16 < 16 by omega), ih]
    congr 2
    apply Fin.ext
    show (b.val / 16 * 16 + b.val % 16) % 256 = b.val
    omega

theorem EncodeToString_length (l : List Byte) : (EncodeToString l).length = 2 * l.length := by
  induction l with
  | nil => rfl
  | cons b l ih =>
    rw [EncodeToString_cons]
    simp only [List.length_cons, ih]
    omega

theorem EncodeToString_bytes (l : List Byte) :
    ∀ c ∈ EncodeToString l, c ≠ asciiByte '"' ∧ c ≠ asciiByte ':' := by
  induction l with
  | nil => intro c hc; simp [EncodeToString] at hc
  | cons b l ih =>
    intro c hc
    have hb := b.isLt
    rw [EncodeToString_cons] at hc
    rcases List.mem_cons.mp hc with rfl | hc
    · exact hexDigit_ne _ (by omega)
    · rcases List.mem_cons.mp hc with rfl | hc
      · exact hexDigit_ne _ (by omega)
      · exact ih c hc

theorem dropWhile_eq_self (cut : Byte) (l : List Byte) (h : cut ∉ l) :
    (l.dropWhile fun c => c = cut) = l := by
  cases l with
  | nil => rfl
  | cons a m =>
    have ha : a ≠ cut := fun e => h (e ▸ List.mem_cons_self _ _)
    simp [List.dropWhile_cons, ha]

theorem Trim_quoted (cut : Byte) (s : List Byte) (h : cut ∉ s) :
    Trim cut (cut :: (s ++ [cut])) = s := by
  unfold Trim
  cases s with
  | nil => simp [List.dropWhile_cons]
  | cons a m =>
    have ha : a ≠ cut := fun e => h (e ▸ List.mem_cons_self _ _)
    have h1 : ((cut :: (a :: m ++ [cut])).dropWhile fun c => c = cut) = a :: m ++ [cut] := by
      simp [List.dropWhile_cons, ha]
    rw [h1, List.reverse_append, List.reverse_singleton, List.singleton_append,
      List.dropWhile_cons]
    simp only [decide_True, if_true]
    rw [dropWhile_eq_self cut _ (by simpa [and_comm] using h), List.reverse_reverse]

theorem copyHash_full (hash h : SHAValue) : copyHash hash h.val = h := by
  apply Subtype.ext
  show (h.val ++ hash.val.drop h.val.length).take 20 = h.val
  rw [List.take_append_of_le_length (by rw [h.property]), List.take_of_length_le (by rw [h.property])]

theorem SHAValue_round_trip (hash h : SHAValue) :
    SHAValue.UnmarshalJSON hash (SHAValue.MarshalJSON h) = .ok h := by
  unfold SHAValue.MarshalJSON
  by_cases he : h = SHAValue.empty
  · rw [if_pos he, he]
    rfl
  · rw [if_neg he]
    have hq : (asciiByte '"') ∉ EncodeToString h.val :=
      fun hc => (EncodeToString_bytes _ _ hc).1 rfl
    have ht : Trim (asciiByte '"') (ascii "\"" ++ EncodeToString h.val ++ ascii "\"") =
        EncodeToString h.val := Trim_quoted _ _ hq
    have hl : (EncodeToString h.val).length = 40 := by
      rw [EncodeToString_length, h.property]
    simp only [SHAValue.UnmarshalJSON, ht, hl, DecodeString_EncodeToString, copyHash_full]
    rfl

theorem RDiffBlock_round_trip (block b : RDiffBlock)
    (ho : isInt 64 b.Offset) (hs : isInt 64 b.Size) :
    RDiffBlock.UnmarshalJSON block (RDiffBlock.MarshalJSON b) = .ok b := by
  have hcq : asciiByte ':' ≠ asciiByte '-' := by decide
  have hcd : ¬ (48 ≤ (asciiByte ':').val ∧ (asciiByte ':').val ≤ 57) := by decide
  have hqq : asciiByte '"' ≠ asciiByte '-' := by decide
  have hqd : ¬ (48 ≤ (asciiByte '"').val ∧ (asciiByte '"').val ≤ 57) := by decide
  have hq : (asciiByte '"') ∉ FormatInt b.Offset ++ ascii ":" ++ FormatInt b.Size ++ ascii ":" ++
      EncodeToString b.Signature.val := by
    intro hc
    simp only [List.mem_append] at hc
    rcases hc with (((hc | hc) | hc) | hc) | hc
    · exact FormatInt_not_mem _ _ hqq hqd hc
    · revert hc; decide
    · exact FormatInt_not_mem _ _ hqq hqd hc
    · revert hc; decide
    · exact (EncodeToString_bytes _ _ hc).1 rfl
  have ht : Trim (asciiByte '"') (RDiffBlock.MarshalJSON b) =
      FormatInt b.Offset ++ ascii ":" ++ FormatInt b.Size ++ ascii ":" ++
        EncodeToString b.Signature.val := by
    have := Trim_quoted _ _ hq
    simpa [RDiffBlock.MarshalJSON, ascii] using this
  have hsplit : Split (asciiByte ':') (FormatInt b.Offset ++ ascii ":" ++ FormatInt b.Size ++
      ascii ":" ++ EncodeToString b.Signature.val) =
      [FormatInt b.Offset, FormatInt b.Size, EncodeToString b.Signature.val] := by
    have e : FormatInt b.Offset ++ ascii ":" ++ FormatInt b.Size ++ ascii ":" ++
        EncodeToString b.Signature.val =
        FormatInt b.Offset ++ asciiByte ':' :: (FormatInt b.Size ++ asciiByte ':' ::
          EncodeToString b.Signature.val) := by
      simp [ascii]
    rw [e, Split_append _ _ _ (FormatInt_not_mem _ _ hcq hcd),
      Split_append _ _ _ (FormatInt_not_mem _ _ hcq hcd),
      Split_no_sep _ _ (fun hc => (EncodeToString_bytes _ _ hc).2 rfl)]
  have hl : (EncodeToString b.Signature.val).length = 40 := by
    rw [EncodeToString_length, b.Signature.property]
  unfold RDiffBlock.UnmarshalJSON
  simp only [ht, hsplit, List.getElem?_cons_zero, List.getElem?_cons_succ,
    ParseInt_FormatInt _ 64 ho.1 ho.2, ParseInt_FormatInt _ 64 hs.1 hs.2, hl,
    DecodeString_EncodeToString, copyHash_full]
  rfl

theorem Unmarshal.blocks_MarshalJSON :
    ∀ (blocks : List RDiffBlock),
      (∀ block ∈ blocks, isInt 64 block.Offset ∧ isInt 64 block.Size) →
      Unmarshal.blocks (blocks.map RDiffBlock.MarshalJSON) = .ok blocks := by
  intro blocks
  induction blocks with
  | nil => intro _; rfl
  | cons b rest ih =>
    intro h
    have hb := h b (List.mem_cons_self _ _)
    simp only [List.map_cons, Unmarshal.blocks,
      RDiffBlock_round_trip _ b hb.1 hb.2,
      ih fun block hblock => h block (List.mem_cons_of_mem _ hblock)]

theorem Unmarshal_Marshal (m : FileMetaData) (h : m.typed) : Unmarshal (Marshal m) = .ok m := by
  obtain ⟨h1, h2, h3, h4, h5, h6, h7, h8⟩ := h
  have hstate : Unmarshal.state (Marshal m).patch_state = .ok m.PatchState := by
    simp only [Marshal]
    by_cases he : m.PatchState = []
    · rw [if_pos he, he]
      rfl
    · rw [if_neg he]
      exact Unmarshal.blocks_MarshalJSON _ h8
  unfold Unmarshal
  rw [hstate]
  simp only [Marshal, Unmarshal.number, Unmarshal.hash, ParseInt_FormatInt _ 64 h1.1 h1.2,
    ParseInt_FormatInt _ 64 h2.1 h2.2, ParseInt_FormatInt _ 64 h3.1 h3.2,
    ParseInt_FormatInt _ 64 h4.1 h4.2, ParseInt_FormatInt _ 64 h5.1 h5.2,
    ParseInt_FormatInt _ 64 h6.1 h6.2, ParseInt_FormatInt _ 8 h7.1 h7.2,
    SHAValue_round_trip]
  rfl

/-- C17: the codecs of the metadata record round-trip.  Decoding the encoding of any hash
gives the hash back, the all-zero hash being encoded as the empty string; the encoding
of a block descriptor is the quoted string `offset:size:hex_signature` with a signature
of 40 hex characters, and decoding it gives the descriptor back; hence decoding the
document written for a record gives the record back, and after a successful capture
there is such a record in the `.meta` file. -/
theorem metadata_codecs_round_trip :
    (∀ hash h : SHAValue, SHAValue.UnmarshalJSON hash (SHAValue.MarshalJSON h) = .ok h) ∧
    SHAValue.MarshalJSON SHAValue.empty = ascii "\"\"" ∧
    (∀ block b : RDiffBlock, isInt 64 b.Offset → isInt 64 b.Size →
      RDiffBlock.MarshalJSON b =
          ascii "\"" ++ FormatInt b.Offset ++ ascii ":" ++ FormatInt b.Size ++ ascii ":" ++
            EncodeToString b.Signature.val ++ ascii "\"" ∧
        (EncodeToString b.Signature.val).length = 40 ∧
        DecodeString (EncodeToString b.Signature.val) = some b.Signature.val ∧
        RDiffBlock.UnmarshalJSON block (RDiffBlock.MarshalJSON b) = .ok b) ∧
    (∀ m : FileMetaData, m.typed → Unmarshal (Marshal m) = .ok m) ∧
    (∀ (sha1 : List Byte → SHAValue) (now : Int) (fs fs1 : FS),
      CreatePatch sha1 now fs = (.ok, fs1) →
      ∃ m, GetFileMetaData fs1 = some m ∧ (m.typed → Unmarshal (Marshal m) = .ok m)) := by
  refine ⟨SHAValue_round_trip, rfl, ?_, Unmarshal_Marshal, ?_⟩
  · intro block b ho hs
    refine ⟨rfl, ?_, DecodeString_EncodeToString _, RDiffBlock_round_trip block b ho hs⟩
    rw [EncodeToString_length, b.Signature.property]
  · intro sha1 now fs fs1 h
    obtain ⟨f, sc, md, _, hfs, hmd, _⟩ := CreatePatch_ok_inv sha1 now fs fs1 h
    refine ⟨md, ?_, Unmarshal_Marshal md⟩
    rw [hfs]
    exact hmd

/-- An instance of C17: a block descriptor and a record of two blocks are decoded from
their encodings. -/
theorem metadata_codecs_round_trip_witness :
    RDiffBlock.UnmarshalJSON ⟨0, 0, SHAValue.empty⟩
        (RDiffBlock.MarshalJSON ⟨512, 100, sampleSigB⟩) = .ok ⟨512, 100, sampleSigB⟩ ∧
      Unmarshal (Marshal sampleRecord) = .ok sampleRecord :=
  ⟨(metadata_codecs_round_trip.2.2.1 ⟨0, 0, SHAValue.empty⟩ ⟨512, 100, sampleSigB⟩
      (by decide) (by decide)).2.2.2,
    metadata_codecs_round_trip.2.2.2.1 sampleRecord (by decide)⟩

/-- C18 (failing input): a `patch_state` element with fewer than three fields makes
`(*RDiffBlock).UnmarshalJSON` index a missing field: it panics instead of returning an
error, and so does the load of a document that holds such an element; an element with
a fourth field is accepted, the extra field being ignored. -/
theorem RDiffBlock_UnmarshalJSON_field_count_unchecked :
    (∀ block : RDiffBlock,
      RDiffBlock.UnmarshalJSON block (ascii "\"512:512\"") = .error .panic) ∧
    (∀ block : RDiffBlock, RDiffBlock.UnmarshalJSON block (ascii "\"512\"") = .error .panic) ∧
    Unmarshal sampleCorrupt = .error .panic ∧
    RDiffBlock.UnmarshalJSON ⟨0, 0, SHAValue.empty⟩
        (ascii "\"0:512:0101010101010101010101010101010101010101:9\"") =
      .ok ⟨0, 512, sampleSigA⟩ := by
  refine ⟨fun _ => ?_, fun _ => ?_, ?_, ?_⟩
  · rfl
  · rfl
  · decide
  · decide

/-! ## Patch files within the reader's buffer -/

theorem splitAfter_append (delim : Byte) (tail : List Byte) :
    ∀ (line : List Byte), delim ∉ line →
      splitAfter delim (line ++ delim :: tail) = some (line ++ [delim], tail) := by
  intro line
  induction line with
  | nil => intro _; simp [splitAfter]
  | cons c cs ih =>
    intro h
    have hc : c ≠ delim := fun e => h (e ▸ List.mem_cons_self _ _)
    have hcs : delim ∉ cs := fun e => h (List.mem_cons_of_mem _ e)
    simp only [List.cons_append, splitAfter, hc, if_false]
    rw [show cs.append (delim :: tail) = cs ++ delim :: tail from rfl, ih hcs]

theorem Reader.ReadString_buffered (delim : Byte) (line tail : List Byte) (h : delim ∉ line) :
    Reader.ReadString ⟨line ++ delim :: tail, []⟩ delim =
      (line ++ [delim], none, ⟨tail, []⟩) := by
  simp only [Reader.ReadString, List.length_nil, Nat.mul_zero, Nat.zero_add,
    Reader.ReadString.loop, splitAfter_append delim tail line h, List.nil_append]

theorem Reader.ReadString_first (delim : Byte) (line tail : List Byte) (h : delim ∉ line)
    (hlen : (line ++ delim :: tail).length ≤ 4096) :
    (NewReader (line ++ delim :: tail)).ReadString delim =
      (line ++ [delim], none, ⟨tail, []⟩) := by
  have hne : line ++ delim :: tail ≠ [] := by simp
  have h0 : ¬ defaultBufSize ≤ ([] : List Byte).length := by decide
  have htake : (line ++ delim :: tail).take (defaultBufSize - ([] : List Byte).length) =
      line ++ delim :: tail := List.take_of_length_le hlen
  have hdrop : (line ++ delim :: tail).drop (defaultBufSize - ([] : List Byte).length) = [] :=
    List.drop_of_length_le hlen
  unfold Reader.ReadString NewReader
  rw [show 2 * (line ++ delim :: tail).length + 3 = (2 * (line ++ delim :: tail).length + 1) + 1 + 1
    from rfl]
  rw [Reader.ReadString.loop]
  simp only [splitAfter, h0, if_false, hne, htake, hdrop, List.nil_append]
  rw [Reader.ReadString.loop]
  simp only [splitAfter_append delim tail line h, List.nil_append]

theorem entryLine_no_newline (e : Patch) : asciiByte '\n' ∉ entryLine e := by
  have h1 : asciiByte '\n' ≠ asciiByte '-' := by decide
  have h2 : ¬ (48 ≤ (asciiByte '\n').val ∧ (asciiByte '\n').val ≤ 57) := by decide
  intro hc
  simp only [entryLine, List.mem_append] at hc
  rcases hc with (((hc | hc) | hc) | hc) | hc
  · exact FormatInt_not_mem _ _ h1 h2 hc
  · revert hc; decide
  · exact FormatInt_not_mem _ _ h1 h2 hc
  · revert hc; decide
  · exact FormatInt_not_mem _ _ h1 h2 hc

theorem entryLine_split (e : Patch) :
    Split (asciiByte ':') (entryLine e) =
      [FormatInt e.Offset, FormatInt e.Size, FormatInt e.Type_] := by
  have hcq : asciiByte ':' ≠ asciiByte '-' := by decide
  have hcd : ¬ (48 ≤ (asciiByte ':').val ∧ (asciiByte ':').val ≤ 57) := by decide
  have e1 : entryLine e = FormatInt e.Offset ++ asciiByte ':' :: (FormatInt e.Size ++
      asciiByte ':' :: FormatInt e.Type_) := by
    simp [entryLine, ascii]
  rw [e1, Split_append _ _ _ (FormatInt_not_mem _ _ hcq hcd),
    Split_append _ _ _ (FormatInt_not_mem _ _ hcq hcd),
    Split_no_sep _ _ (FormatInt_not_mem _ _ hcq hcd)]

theorem CreatePatch.header_eq (patches : List Patch) :
    CreatePatch.header patches =
      FormatInt patches.length ++ asciiByte '\n' ::
        patches.flatMap fun e => entryLine e ++ [asciiByte '\n'] := by
  simp only [CreatePatch.header, entryLine, List.append_assoc]
  rfl

theorem length_le_header (patches : List Patch) :
    patches.length ≤ (patches.flatMap fun e => entryLine e ++ [asciiByte '\n']).length := by
  induction patches with
  | nil => simp
  | cons e rest ih =>
    simp only [List.flatMap_cons, List.length_append, List.length_cons, List.length_nil]
    omega

theorem MergePatch.readLines_buffered (tail : List Byte) :
    ∀ (E patchlines : List Patch), (∀ e ∈ E, e.typed) →
      MergePatch.readLines E.length
          ⟨(E.flatMap fun e => entryLine e ++ [asciiByte '\n']) ++ tail, []⟩ patchlines =
        .ok (patchlines ++ E, ⟨tail, []⟩) := by
  intro E
  induction E with
  | nil => intro patchlines _; simp [MergePatch.readLines]
  | cons e rest ih =>
    intro patchlines h
    obtain ⟨ho, hs, ht⟩ := h e (List.mem_cons_self _ _)
    have hb : (((e :: rest).flatMap fun e => entryLine e ++ [asciiByte '\n']) ++ tail) =
        entryLine e ++ asciiByte '\n' ::
          ((rest.flatMap fun e => entryLine e ++ [asciiByte '\n']) ++ tail) := by
      simp
    have hne : entryLine e ++ [asciiByte '\n'] ≠ [] := by simp
    rw [hb, List.length_cons, MergePatch.readLines,
      Reader.ReadString_buffered _ _ _ (entryLine_no_newline e)]
    simp only [ne_eq, not_true_eq_false, false_and, if_false, hne, List.dropLast_concat,
      entryLine_split, List.getElem?_cons_zero, List.getElem?_cons_succ,
      ParseInt_FormatInt _ 64 ho.1 ho.2, ParseInt_FormatInt _ 64 hs.1 hs.2,
      ParseInt_FormatInt _ 8 ht.1 ht.2]
    rw [ih _ fun x hx => h x (List.mem_cons_of_mem _ hx)]
    simp

theorem MergePatch_buffered (basefile tail : List Byte) (E : List Patch)
    (htyped : ∀ e ∈ E, e.typed) (hlen : (CreatePatch.header E ++ tail).length ≤ 4096) :
    MergePatch (some basefile) (some (CreatePatch.header E ++ tail)) =
      MergePatch.result (MergePatch.apply basefile.length E ⟨tail, []⟩ basefile) := by
  have hcount : asciiByte '\n' ∉ FormatInt (E.length : Int) :=
    FormatInt_not_mem _ _ (by decide) (by decide)
  have hfile : CreatePatch.header E ++ tail =
      FormatInt (E.length : Int) ++ asciiByte '\n' ::
        ((E.flatMap fun e => entryLine e ++ [asciiByte '\n']) ++ tail) := by
    rw [CreatePatch.header_eq]
    simp
  have hE : (E.length : Int) < ((2 ^ (64 - 1) : Nat) : Int) := by
    have h1 := length_le_header E
    have h2 : (CreatePatch.header E ++ tail).length =
        (FormatInt (E.length : Int)).length + 1 +
          (E.flatMap fun e => entryLine e ++ [asciiByte '\n']).length + tail.length := by
      rw [hfile]
      simp only [List.length_append, List.length_cons]
      omega
    have h3 : ((2 ^ (64 - 1) : Nat) : Int) = 9223372036854775808 := by norm_num
    omega
  rw [hfile] at hlen ⊢
  have hne : FormatInt (E.length : Int) ++ [asciiByte '\n'] ≠ [] := by simp
  unfold MergePatch
  simp only [Reader.ReadString_first _ _ _ hcount hlen, ne_eq, not_true_eq_false, false_and,
    if_false, hne, List.dropLast_concat,
    ParseInt_FormatInt _ 64 (show -((2 ^ (64 - 1) : Nat) : Int) ≤ (E.length : Int) by omega) hE,
    Int.toNat_ofNat, MergePatch.readLines_buffered tail E [] htyped, List.nil_append]
  rfl

theorem MergePatch.apply_step (L : Int) (e : Patch) (rest : List Patch)
    (buf file : List Byte) (hs : e.Size ≠ 0) :
    MergePatch.apply L (e :: rest) ⟨buf, []⟩ file =
      if ((min 512 buf.length : Nat) : Int) ≠ e.Size then (some .sizeMismatched, file)
      else if e.Offset < L then
        if e.Offset < 0 then (some .EINVAL, file)
        else
          MergePatch.apply L rest ⟨buf.drop 512, []⟩ (WriteAt file (buf.take 512) e.Offset.toNat)
      else MergePatch.apply L rest ⟨buf.drop 512, []⟩ (file ++ buf.take 512) := by
  rw [MergePatch.apply, if_neg hs]
  by_cases hb : buf = []
  · subst hb
    have : ¬ ((0 : Int) = e.Size) := fun h => hs h.symm
    simp [Reader.Read, RDIFF_BLOCKSIZE, defaultBufSize, this]
  · simp only [Reader.Read, hb, if_false, RDIFF_BLOCKSIZE, ne_eq, not_true_eq_false, false_and,
      List.length_take]

theorem fullBlocks_typed (C : List Patch) (h : fullBlocks C) : ∀ e ∈ C, e.typed := by
  intro e he
  obtain ⟨ht, hs, _, ho⟩ := h e he
  refine ⟨ho, ?_, ?_⟩
  · rw [hs]; decide
  · rw [ht]; decide

theorem MergePatch.apply_fullBlocks (L : Int) (rest : List Patch) (buf : List Byte) :
    ∀ (C : List Patch) (pl file : List Byte), fullBlocks C → pl.length = 512 * C.length →
      MergePatch.apply L (C ++ rest) ⟨pl ++ buf, []⟩ file =
        MergePatch.apply L rest ⟨buf, []⟩ (specPlace L C pl file) := by
  intro C
  induction C with
  | nil =>
    intro pl file _ hpl
    have : pl = [] := List.eq_nil_of_length_eq_zero (by simpa using hpl)
    subst this
    rfl
  | cons e C ih =>
    intro pl file hC hpl
    obtain ⟨ht, hs, ho, _⟩ := hC e (List.mem_cons_self _ _)
    have hC1 : fullBlocks C := fun x hx => hC x (List.mem_cons_of_mem _ hx)
    rw [List.length_cons] at hpl
    have hmin : ((min 512 (pl ++ buf).length : Nat) : Int) = e.Size := by
      rw [hs, List.length_append]
      have : min 512 (pl.length + buf.length) = 512 := by omega
      rw [this]
      rfl
    have htk : (pl ++ buf).take 512 = pl.take 512 :=
      List.take_append_of_le_length (by omega)
    have hdr : (pl ++ buf).drop 512 = pl.drop 512 ++ buf :=
      List.drop_append_of_le_length (by omega)
    have htr : e.Type_ ≠ PATCH_TRUNCATE := by rw [ht]; decide
    have hsz : e.Size.toNat = 512 := by rw [hs]; rfl
    rw [List.cons_append, MergePatch.apply_step L e _ _ _ (by rw [hs]; decide)]
    simp only [hmin, ne_eq, not_true_eq_false, if_false, htk, hdr,
      show ¬ e.Offset < 0 by omega, specPlace, htr, hsz]
    split
    · exact ih _ _ hC1 (by rw [List.length_drop]; omega)
    · exact ih _ _ hC1 (by rw [List.length_drop]; omega)

theorem specPlace_append (L : Int) (rest : List Patch) (q : List Byte) :
    ∀ (C : List Patch) (pl file : List Byte), fullBlocks C → pl.length = 512 * C.length →
      specPlace L (C ++ rest) (pl ++ q) file = specPlace L rest q (specPlace L C pl file) := by
  intro C
  induction C with
  | nil =>
    intro pl file _ hpl
    have : pl = [] := List.eq_nil_of_length_eq_zero (by simpa using hpl)
    subst this
    rfl
  | cons e C ih =>
    intro pl file hC hpl
    obtain ⟨ht, hs, ho, _⟩ := hC e (List.mem_cons_self _ _)
    have hC1 : fullBlocks C := fun x hx => hC x (List.mem_cons_of_mem _ hx)
    rw [List.length_cons] at hpl
    have htk : (pl ++ q).take 512 = pl.take 512 :=
      List.take_append_of_le_length (by omega)
    have hdr : (pl ++ q).drop 512 = pl.drop 512 ++ q :=
      List.drop_append_of_le_length (by omega)
    have htr : e.Type_ ≠ PATCH_TRUNCATE := by rw [ht]; decide
    have hsz : e.Size.toNat = 512 := by rw [hs]; rfl
    simp only [List.cons_append, specPlace, htr, if_false, hsz, htk, hdr]
    exact ih _ _ hC1 (by rw [List.length_drop]; omega)

/-! ## Malformed patch headers -/

/-- C15 (failing input): on an empty patch file `MergePatch` slices the empty first line
and panics; on a patch file that declares one entry and has no entry line it slices the
empty line read at the end of the file and panics; on an entry line with one or two
fields it indexes the missing field and panics.  The base file is left as it was.  A
first line that is not a decimal count is reported as an error. -/
theorem MergePatch_malformed_header_panics :
    (∀ base : List Byte, MergePatch (some base) (some []) = (.panic, some base)) ∧
    (∀ base : List Byte, MergePatch (some base) (some (ascii "1\n")) = (.panic, some base)) ∧
    (∀ base : List Byte, MergePatch (some base) (some (ascii "1\n5\n")) = (.panic, some base)) ∧
    (∀ base : List Byte,
      MergePatch (some base) (some (ascii "1\n5:3\n")) = (.panic, some base)) ∧
    (∀ base : List Byte,
      MergePatch (some base) (some (ascii "x\n")) = (.error .syntaxOrRange, some base)) := by
  refine ⟨fun _ => rfl, fun _ => rfl, fun _ => rfl, fun _ => rfl, fun _ => rfl⟩

/-! ## Payload reads -/

theorem take_drop_min (buf : List Byte) (k : Nat) (h : k = min 512 buf.length) :
    buf.take 512 = buf.take k ∧ buf.drop 512 = buf.drop k := by
  by_cases hb : 512 ≤ buf.length
  · have : k = 512 := by omega
    rw [this]
    exact ⟨rfl, rfl⟩
  · have : k = buf.length := by omega
    rw [this, List.take_of_length_le (by omega), List.drop_of_length_le (by omega),
      List.take_length, List.drop_length]
    exact ⟨rfl, rfl⟩

theorem MergePatch_entry (basefile : List Byte) (C : List Patch) (pl : List Byte) (e : Patch)
    (rest : List Patch) (buf : List Byte) (hC : fullBlocks C) (hpl : pl.length = 512 * C.length)
    (he : e.typed) (hrest : ∀ x ∈ rest, x.typed) (hs : e.Size ≠ 0)
    (hlen : (CreatePatch.header (C ++ e :: rest) ++ (pl ++ buf)).length ≤ 4096) :
    MergePatch (some basefile) (some (CreatePatch.header (C ++ e :: rest) ++ (pl ++ buf))) =
      MergePatch.result
        (MergePatch.apply basefile.length (e :: rest) ⟨buf, []⟩
          (specPlace basefile.length C pl basefile)) := by
  have htyped : ∀ x ∈ C ++ e :: rest, x.typed := by
    intro x hx
    rcases List.mem_append.mp hx with hx | hx
    · exact fullBlocks_typed C hC x hx
    · rcases List.mem_cons.mp hx with rfl | hx
      · exact he
      · exact hrest x hx
  rw [MergePatch_buffered basefile _ _ htyped hlen,
    MergePatch.apply_fullBlocks _ _ _ C pl basefile hC hpl]

theorem finalTruncate_typed (t : Option Patch) (h : finalTruncate t) :
    ∀ x ∈ t.toList, x.typed := by
  intro x hx
  obtain ⟨hk, hs, _, ho⟩ := h x (by simpa using hx)
  refine ⟨ho, ?_, ?_⟩
  · rw [hs]; decide
  · rw [hk]; decide

theorem MergePatch.apply_finalTruncate (L : Int) (t : Option Patch) (h : finalTruncate t)
    (b : Reader) (payload file : List Byte) :
    MergePatch.apply L t.toList b file = (none, specPlace L t.toList payload file) := by
  cases t with
  | none => rfl
  | some x =>
    obtain ⟨hk, hs, ho, _⟩ := h x rfl
    simp only [Option.toList, MergePatch.apply, hs, if_true, show ¬ x.Offset < 0 by omega,
      if_false, specPlace, hk]

/-- A patch of full blocks, an optional last block of at most 512 bytes and an optional
final truncate, lying within the 4096 bytes of the reader's buffer, is applied as the
placement rule says. -/
theorem MergePatch_places_buffered_patch (basefile : List Byte) (C : List Patch)
    (pl : List Byte) (t : Option Patch)
    (hC : fullBlocks C) (hpl : pl.length = 512 * C.length) (ht : finalTruncate t) :
    ((CreatePatch.header (C ++ t.toList) ++ pl).length ≤ 4096 →
      MergePatch (some basefile) (some (CreatePatch.header (C ++ t.toList) ++ pl)) =
        (.ok, some (specPlace basefile.length (C ++ t.toList) pl basefile))) ∧
    (∀ (e : Patch) (p : List Byte), e.Type_ = PATCH_CHANGE → 1 ≤ e.Size → e.Size ≤ 512 →
      0 ≤ e.Offset → isInt 64 e.Offset → (p.length : Int) = e.Size →
      (CreatePatch.header (C ++ e :: t.toList) ++ (pl ++ p)).length ≤ 4096 →
      MergePatch (some basefile) (some (CreatePatch.header (C ++ e :: t.toList) ++ (pl ++ p))) =
        (.ok, some (specPlace basefile.length (C ++ e :: t.toList) (pl ++ p) basefile))) := by
  constructor
  · intro hlen
    have htyped : ∀ x ∈ C ++ t.toList, x.typed := by
      intro x hx
      rcases List.mem_append.mp hx with hx | hx
      · exact fullBlocks_typed C hC x hx
      · exact finalTruncate_typed t ht x hx
    have hlen1 : (CreatePatch.header (C ++ t.toList) ++ (pl ++ [])).length ≤ 4096 := by
      rw [List.append_nil]; exact hlen
    have := MergePatch_buffered basefile (pl ++ []) _ htyped hlen1
    rw [List.append_nil] at this
    rw [this]
    have h2 := MergePatch.apply_fullBlocks basefile.length t.toList [] C pl basefile hC hpl
    rw [List.append_nil] at h2
    rw [h2, MergePatch.apply_finalTruncate _ t ht _ []]
    have h3 := specPlace_append basefile.length t.toList [] C pl basefile hC hpl
    rw [List.append_nil] at h3
    rw [h3]
    rfl
  · intro e p hk hs1 hs2 ho hoi hp hlen
    have he : e.typed := by
      refine ⟨hoi, ?_, ?_⟩
      · constructor
        · have : (0 : Int) ≤ ((2 ^ (64 - 1) : Nat) : Int) := Int.ofNat_nonneg _
          omega
        · have : ((2 ^ (64 - 1) : Nat) : Int) = 9223372036854775808 := by norm_num
          omega
      · rw [hk]; decide
    have htr : e.Type_ ≠ PATCH_TRUNCATE := by rw [hk]; decide
    have hmin : ((min 512 p.length : Nat) : Int) = e.Size := by
      rw [Nat.min_eq_right (by omega)]
      exact hp
    have hk1 : e.Size.toNat = min 512 p.length := by omega
    obtain ⟨h1, h2⟩ := take_drop_min p _ hk1
    rw [MergePatch_entry basefile C pl e t.toList p hC hpl he
        (finalTruncate_typed t ht) (by omega) hlen,
      MergePatch.apply_step _ _ _ _ _ (by omega), if_neg (by rw [hmin]; simp),
      if_neg (show ¬ e.Offset < 0 by omega), h1, h2,
      specPlace_append basefile.length (e :: t.toList) p C pl basefile hC hpl]
    simp only [specPlace, htr, if_false]
    split
    · rw [MergePatch.apply_finalTruncate _ t ht _ (p.drop e.Size.toNat)]
      rfl
    · rw [MergePatch.apply_finalTruncate _ t ht _ (p.drop e.Size.toNat)]
      rfl

/-- C12 (failing input): a base file of 600 bytes and a patch of eight full entries of 512
bytes at offsets 0, 512, .., 3584, each carrying its payload.  The placement rule gives
the 4096 bytes of the payload.  `MergePatch` reads each payload with one
`bufio.Reader.Read`: the first fill of the 4096-byte buffer holds the 86 bytes of the
header and 4010 bytes of payload, so the eighth read returns 426 bytes, and
`MergePatch` returns "patchline size mismatched", leaving 3584 bytes. -/
theorem MergePatch_fails_beyond_buffer :
    fullBlocks sampleBlocks ∧ largeFile.length = 512 * sampleBlocks.length ∧
      (CreatePatch.header sampleBlocks).length = 86 ∧
      specPlace 600 sampleBlocks largeFile (List.replicate 600 65) = largeFile ∧
      MergePatch (some (List.replicate 600 65))
          (some (CreatePatch.header sampleBlocks ++ largeFile)) =
        (.error .sizeMismatched, some (List.replicate 3584 66)) := by
  decide!

/-! ## Truncation -/

/-- In a capture of `N` over the blocks of `N ++ R`, the full blocks of `N` give no entry. -/
theorem CreatePatch.entryAt_prefix_old (sha1 : List Byte → SHAValue) (N R : List Byte) (i : Nat)
    (hi : i < N.length / 512) :
    CreatePatch.entryAt (refBlocks sha1 N) (refBlocks sha1 (N ++ R)) i = [] := by
  have hc : i < (N.length + 511) / 512 := by omega
  have hp : i < ((N ++ R).length + 511) / 512 := by
    rw [List.length_append]; omega
  have hlt : i < (refBlocks sha1 (N ++ R)).length := by rw [refBlocks_length]; exact hp
  have hle : 512 * i ≤ N.length := by omega
  have hd : (N ++ R).drop (512 * i) = N.drop (512 * i) ++ R :=
    List.drop_append_of_le_length hle
  have ht : ((N ++ R).drop (512 * i)).take 512 = (N.drop (512 * i)).take 512 := by
    rw [hd, List.take_append_of_le_length (by rw [List.length_drop]; omega)]
  unfold CreatePatch.entryAt CreatePatch.changeAt
  rw [if_pos hlt, refBlocks_signature sha1 (N ++ R) i hp, refBlocks_signature sha1 N i hc, ht]
  simp

/-- In a capture of `N` over the blocks of `N ++ R`, the last, partial block of `N` gives
its entry, provided the digest separates it from the block it replaces. -/
theorem CreatePatch.entryAt_prefix_last (sha1 : List Byte → SHAValue) (N R : List Byte)
    (hr : N.length % 512 ≠ 0)
    (hsep : sha1 (N.drop (512 * (N.length / 512))) ≠
      sha1 (((N ++ R).drop (512 * (N.length / 512))).take 512)) :
    CreatePatch.entryAt (refBlocks sha1 N) (refBlocks sha1 (N ++ R)) (N.length / 512) =
      [blockEntry N (N.length / 512)] := by
  have hc : N.length / 512 < (N.length + 511) / 512 := by omega
  have hp : N.length / 512 < ((N ++ R).length + 511) / 512 := by
    rw [List.length_append]; omega
  have hlen : N.length / 512 < (refBlocks sha1 N).length := by rw [refBlocks_length]; exact hc
  rcases CreatePatch.entryAt_refBlocks sha1 N (refBlocks sha1 (N ++ R)) _ hlen with h0 | h1
  · exfalso
    unfold CreatePatch.entryAt CreatePatch.changeAt at h0
    rw [if_pos (by rw [refBlocks_length]; exact hp), refBlocks_signature sha1 N _ hc,
      refBlocks_signature sha1 (N ++ R) _ hp] at h0
    simp only at h0
    have hold : (N.drop (512 * (N.length / 512))).take 512 = N.drop (512 * (N.length / 512)) :=
      List.take_of_length_le (by rw [List.length_drop]; omega)
    rw [hold] at h0
    simp only [ite_not, ne_eq] at h0
    split at h0
    · rename_i heq
      exact hsep heq
    · simp at h0
  · exact h1

/-- The entry list of a capture of `N` over the blocks of `N ++ R`. -/
theorem CreatePatch.entries_prefix (sha1 : List Byte → SHAValue) (N R : List Byte)
    (hR : R ≠ [])
    (hsep : N.length % 512 ≠ 0 →
      sha1 (N.drop (512 * (N.length / 512))) ≠
        sha1 (((N ++ R).drop (512 * (N.length / 512))).take 512)) (fileSize : Int) :
    CreatePatch.entries (refBlocks sha1 N) (refBlocks sha1 (N ++ R)) fileSize =
      some ((if N.length % 512 = 0 then [] else [blockEntry N (N.length / 512)]) ++
        [⟨fileSize, 0, PATCH_TRUNCATE⟩]) := by
  have hm : 0 < R.length := List.length_pos.mpr hR
  have hle : (N.length + 511) / 512 ≤ ((N ++ R).length + 511) / 512 := by
    rw [List.length_append]; omega
  cases he : CreatePatch.entries (refBlocks sha1 N) (refBlocks sha1 (N ++ R)) fileSize with
  | none =>
    exfalso
    obtain ⟨hlen, hnil⟩ := (CreatePatch.entries_eq_none_iff _ _ _).mp he
    rw [refBlocks_length, refBlocks_length] at hlen
    rw [refBlocks_length, refBlocks_length, ← hlen, Nat.min_self, List.flatMap_eq_nil_iff] at hnil
    have hr : N.length % 512 ≠ 0 := by
      intro h0
      rw [List.length_append] at hlen
      omega
    have hq : N.length / 512 < (N.length + 511) / 512 := by omega
    have h1 := hnil (N.length / 512) (List.mem_range.mpr hq)
    have h2 := CreatePatch.entryAt_prefix_last sha1 N R hr (hsep hr)
    unfold CreatePatch.entryAt at h2
    rw [if_pos (by rw [refBlocks_length]; omega), h1] at h2
    exact absurd h2 (by simp)
  | some patches =>
    rw [CreatePatch.entries_eq _ _ _ _ he, refBlocks_length, refBlocks_length, if_pos hle,
      range_split (N.length / 512) _ (show N.length / 512 ≤ (N.length + 511) / 512 by omega),
      List.flatMap_append]
    have hold : (List.range (N.length / 512)).flatMap
        (CreatePatch.entryAt (refBlocks sha1 N) (refBlocks sha1 (N ++ R))) = [] := by
      rw [List.flatMap_eq_nil_iff]
      intro i hi
      exact CreatePatch.entryAt_prefix_old sha1 N R i (List.mem_range.mp hi)
    rw [hold, List.nil_append]
    by_cases hr : N.length % 512 = 0
    · have : (N.length + 511) / 512 - N.length / 512 = 0 := by omega
      rw [this, if_pos hr]
      rfl
    · have : (N.length + 511) / 512 - N.length / 512 = 1 := by omega
      rw [this, if_neg hr]
      simp only [List.range'_one, List.flatMap_cons, List.flatMap_nil, List.append_nil]
      rw [CreatePatch.entryAt_prefix_last sha1 N R hr (hsep hr)]

/-- The patch branch of `CreatePatch`, with the text of the range file. -/
theorem CreatePatch_patch_path_range (sha1 : List Byte → SHAValue) (now : Int) (f : OSFile)
    (sc : Sidecar) (md : FileMetaData) (patches : List Patch) (text : List Byte)
    (hmeta : sc.metaFile = some md) (hdata : f.data ≠ [])
    (hsome : CreatePatch.entries (refBlocks sha1 f.data) md.PatchState f.data.length =
      some patches)
    (hrange : ∀ sc1 : Sidecar, CreateRangeFile ⟨some f, some sc1⟩ patches =
      (none, ⟨some f, some { sc1 with rangeFile := some text }⟩)) :
    CreatePatch sha1 now ⟨some f, some sc⟩ =
      (.ok, ⟨some f, some
        ⟨some (recordOf now f FORMAT_PATCH (patchFileOf f.data patches).length md.PatchHash
            (sha1 (patchFileOf f.data patches)) (refBlocks sha1 f.data)),
          some (patchFileOf f.data patches), some text⟩⟩) := by
  obtain ⟨mf, pf, rf⟩ := sc
  simp only at hmeta
  subst hmeta
  obtain ⟨last, hlast, hsize⟩ := refBlocks_last sha1 f.data hdata
  have hoff : ∀ p ∈ patches, 0 ≤ p.Offset := by
    intro p hp
    rcases CreatePatch.entries_mem _ _ _ _ hsome p hp with ⟨c, hc, rfl⟩ | rfl
    · obtain ⟨i, hi⟩ := List.getElem?_of_mem hc
      have hi' : i < (f.data.length + 511) / 512 := by
        have := (List.getElem?_eq_some_iff.mp hi).1
        rwa [refBlocks_length] at this
      rw [refBlocks_getElem? sha1 f.data i hi'] at hi
      rw [← Option.some.inj hi]
      exact Int.natCast_nonneg _
    · exact Int.natCast_nonneg f.data.length
  have hpay : CreatePatch.payload f.data patches (List.replicate RDIFF_BLOCKSIZE 0)
      (CreatePatch.header patches) = (none, patchFileOf f.data patches) := by
    have := CreatePatch.payload_no_error f.data patches (List.replicate RDIFF_BLOCKSIZE 0)
      (CreatePatch.header patches) hoff
    exact Prod.ext this rfl
  have hrange1 := hrange ⟨some md, some (patchFileOf f.data patches), rf⟩
  have hupd := UpdateFileMetaData_patch sha1 now f
    ⟨some md, some (patchFileOf f.data patches), some text⟩
    (patchFileOf f.data patches) (refBlocks sha1 f.data) md.PatchHash
    (refBlocks_ne_nil sha1 f.data hdata) rfl
  simp only [CreatePatch, MakeRDiffBlocks_eq, IsBaseline, GetFileMetaData, hlast, hsize,
    hsome, hpay, hrange1, hupd, Outcome.ofErr]
  simp

theorem CreateRangeFile_truncate_only (f : OSFile) (sc : Sidecar) (n : Int) :
    CreateRangeFile ⟨some f, some sc⟩ [⟨n, 0, PATCH_TRUNCATE⟩] =
      (none, ⟨some f, some { sc with
        rangeFile := some (ascii "bytes */" ++ FormatInt (f.data.length : Int)) }⟩) := by
  simp [CreateRangeFile]
  rfl

theorem CreateRangeFile_change_truncate (f : OSFile) (sc : Sidecar) (e : Patch) (n : Int)
    (he : e.Type_ = PATCH_CHANGE) :
    CreateRangeFile ⟨some f, some sc⟩ [e, ⟨n, 0, PATCH_TRUNCATE⟩] =
      (none, ⟨some f, some { sc with
        rangeFile := some (ascii "bytes " ++ FormatInt e.Offset ++ ascii "-" ++
          FormatInt (CreateRangeFile.rangeEnd e) ++ ascii "/" ++
          FormatInt (f.data.length : Int)) }⟩) := by
  have h1 : e.Type_ ≠ PATCH_TRUNCATE := by rw [he]; decide
  simp [CreateRangeFile, CreateRangeFile.loop, h1]

/-- C21, as stated, fails: capturing 1000 bytes and then their first 300 bytes generates
the entries `(0,300,CHANGE),(300,0,TRUNCATE)` with the 300 bytes as payload and the
manifest `bytes 0-299/300`, not the single entry `(300,0,TRUNCATE)`: the one block of
the new file is shorter than the block it replaces and has another signature. -/
theorem CreatePatch_truncation_rewrites_last_block :
    sampleA300 = sampleA1000.take 300 ∧
    (CreatePatch sizedDigest 0 ⟨some (fileOf sampleA1000), none⟩).1 = .ok ∧
    (GetFileMetaData (CreatePatch sizedDigest 0 ⟨some (fileOf sampleA1000), none⟩).2).map
      FileMetaData.PatchState = some (MakeRDiffBlocks sizedDigest sampleA1000).1 ∧
    (MakeRDiffBlocks sizedDigest sampleA300).1.length <
      (MakeRDiffBlocks sizedDigest sampleA1000).1.length ∧
    CreatePatch.entries (MakeRDiffBlocks sizedDigest sampleA300).1
      (MakeRDiffBlocks sizedDigest sampleA1000).1 300 =
        some [⟨0, 300, PATCH_CHANGE⟩, ⟨300, 0, PATCH_TRUNCATE⟩] ∧
    (CreatePatch sizedDigest 1 ⟨some (fileOf sampleA300),
      (CreatePatch sizedDigest 0 ⟨some (fileOf sampleA1000), none⟩).2.sidecar⟩).2.sidecar.bind
        Sidecar.patchFile =
      some (ascii "2\n0:300:0\n300:0:2\n" ++ sampleA300) ∧
    (CreatePatch sizedDigest 1 ⟨some (fileOf sampleA300),
      (CreatePatch sizedDigest 0 ⟨some (fileOf sampleA1000), none⟩).2.sidecar⟩).2.sidecar.bind
        Sidecar.rangeFile =
      some (ascii "bytes 0-299/300") := by
  decide!

theorem blockEntry_last (N : List Byte) :
    blockEntry N (N.length / 512) =
      ⟨((512 * (N.length / 512) : Nat) : Int), ((N.length % 512 : Nat) : Int), PATCH_CHANGE⟩ := by
  unfold blockEntry
  have : min 512 (N.length - 512 * (N.length / 512)) = N.length % 512 := by omega
  rw [this]

/-- C21 (amended): let the new file `N` be a non-empty proper prefix of the prior file
`N ++ R`, captured over the record of the prior file (the digest separating a last,
partial block of `N` from the full block it replaces).  `CreatePatch` succeeds.  When
`len(N)` is a multiple of 512, the patch is the single entry `(len(N), 0, TRUNCATE)` with
no payload and the manifest is `bytes */len(N)`.  Otherwise the patch is the entry
`(512*⌊len(N)/512⌋, len(N) mod 512, CHANGE)` followed by `(len(N), 0, TRUNCATE)`, its
payload is the last, partial block of `N`, and the manifest is
`bytes 512*⌊len(N)/512⌋-(len(N)-1)/len(N)`. -/
theorem CreatePatch_truncation (sha1 : List Byte → SHAValue) (now : Int) (f : OSFile)
    (sc : Sidecar) (Prev : FileMetaData) (N R : List Byte)
    (hmeta : sc.metaFile = some Prev)
    (hprev : Prev.PatchState = (MakeRDiffBlocks sha1 (N ++ R)).1)
    (hfile : f.data = N) (hN : N ≠ []) (hR : R ≠ [])
    (hsep : N.length % 512 ≠ 0 →
      sha1 (N.drop (512 * (N.length / 512))) ≠
        sha1 (((N ++ R).drop (512 * (N.length / 512))).take 512)) :
    (N.length % 512 = 0 →
      CreatePatch.entries (MakeRDiffBlocks sha1 N).1 Prev.PatchState (N.length : Int) =
          some [⟨(N.length : Int), 0, PATCH_TRUNCATE⟩] ∧
        ∃ record, CreatePatch sha1 now ⟨some f, some sc⟩ =
          (.ok, ⟨some f, some ⟨some record,
            some (ascii "1\n" ++ FormatInt (N.length : Int) ++ ascii ":0:2\n"),
            some (ascii "bytes */" ++ FormatInt (N.length : Int))⟩⟩)) ∧
    (N.length % 512 ≠ 0 →
      CreatePatch.entries (MakeRDiffBlocks sha1 N).1 Prev.PatchState (N.length : Int) =
          some [⟨((512 * (N.length / 512) : Nat) : Int), ((N.length % 512 : Nat) : Int),
              PATCH_CHANGE⟩,
            ⟨(N.length : Int), 0, PATCH_TRUNCATE⟩] ∧
        ∃ record, CreatePatch sha1 now ⟨some f, some sc⟩ =
          (.ok, ⟨some f, some ⟨some record,
            some (ascii "2\n" ++ FormatInt ((512 * (N.length / 512) : Nat) : Int) ++ ascii ":" ++
              FormatInt ((N.length % 512 : Nat) : Int) ++ ascii ":0\n" ++
              FormatInt (N.length : Int) ++ ascii ":0:2\n" ++
              N.drop (512 * (N.length / 512))),
            some (ascii "bytes " ++ FormatInt ((512 * (N.length / 512) : Nat) : Int) ++
              ascii "-" ++ FormatInt ((N.length : Int) - 1) ++ ascii "/" ++
              FormatInt (N.length : Int))⟩⟩)) := by
  obtain ⟨data, atim, mtim, ctim⟩ := f
  simp only at hfile
  subst hfile
  rw [MakeRDiffBlocks_eq] at hprev
  simp only at hprev
  rw [MakeRDiffBlocks_eq]
  simp only
  have hentries := CreatePatch.entries_prefix sha1 data R hR hsep (data.length : Int)
  rw [← hprev] at hentries
  obtain ⟨hpf, _⟩ := patchFileOf_eq sha1 data Prev.PatchState _ _ hentries
  constructor
  · intro hr
    rw [if_pos hr, List.nil_append] at hentries hpf
    have hcp := CreatePatch_patch_path_range sha1 now ⟨data, atim, mtim, ctim⟩ sc Prev _
      (ascii "bytes */" ++ FormatInt (data.length : Int)) hmeta hN hentries
      (fun sc1 => CreateRangeFile_truncate_only _ sc1 _)
    rw [hpf] at hcp
    have hh : CreatePatch.header [(⟨(data.length : Int), 0, PATCH_TRUNCATE⟩ : Patch)] ++
        ([(⟨(data.length : Int), 0, PATCH_TRUNCATE⟩ : Patch)].filter
          fun e => decide (e.Type_ = PATCH_CHANGE)).flatMap (payloadOf data) =
        ascii "1\n" ++ FormatInt (data.length : Int) ++ ascii ":0:2\n" := by
      simp [CreatePatch.header, PATCH_TRUNCATE, PATCH_CHANGE,
        show FormatInt 1 = ascii "1" by decide, show FormatInt 0 = ascii "0" by decide,
        show FormatInt 2 = ascii "2" by decide, ascii]
    rw [hh] at hcp
    exact ⟨hentries, _, hcp⟩
  · intro hr
    rw [if_neg hr, blockEntry_last data] at hentries hpf
    simp only [List.singleton_append] at hentries hpf
    have hrange : ∀ sc1 : Sidecar,
        CreateRangeFile ⟨some ⟨data, atim, mtim, ctim⟩, some sc1⟩
          [⟨((512 * (data.length / 512) : Nat) : Int), ((data.length % 512 : Nat) : Int),
            PATCH_CHANGE⟩, ⟨(data.length : Int), 0, PATCH_TRUNCATE⟩] =
        (none, ⟨some ⟨data, atim, mtim, ctim⟩, some { sc1 with
          rangeFile := some (ascii "bytes " ++ FormatInt ((512 * (data.length / 512) : Nat) : Int) ++
            ascii "-" ++ FormatInt ((data.length : Int) - 1) ++ ascii "/" ++
            FormatInt (data.length : Int)) }⟩) := by
      intro sc1
      rw [CreateRangeFile_change_truncate _ sc1 _ _ rfl]
      simp only
      rw [CreateRangeFile.rangeEnd_last_block data.length PATCH_CHANGE]
    have hcp := CreatePatch_patch_path_range sha1 now ⟨data, atim, mtim, ctim⟩ sc Prev _ _ hmeta hN
      hentries hrange
    rw [hpf] at hcp
    have hpl : payloadOf data ⟨((512 * (data.length / 512) : Nat) : Int),
        ((data.length % 512 : Nat) : Int), PATCH_CHANGE⟩ = data.drop (512 * (data.length / 512)) := by
      simp only [payloadOf, Int.toNat_ofNat]
      exact List.take_of_length_le (by rw [List.length_drop]; omega)
    have hh : CreatePatch.header [(⟨((512 * (data.length / 512) : Nat) : Int),
          ((data.length % 512 : Nat) : Int), PATCH_CHANGE⟩ : Patch),
          ⟨(data.length : Int), 0, PATCH_TRUNCATE⟩] ++
        ([(⟨((512 * (data.length / 512) : Nat) : Int),
          ((data.length % 512 : Nat) : Int), PATCH_CHANGE⟩ : Patch),
          ⟨(data.length : Int), 0, PATCH_TRUNCATE⟩].filter
          fun e => decide (e.Type_ = PATCH_CHANGE)).flatMap (payloadOf data) =
        ascii "2\n" ++ FormatInt ((512 * (data.length / 512) : Nat) : Int) ++ ascii ":" ++
          FormatInt ((data.length % 512 : Nat) : Int) ++ ascii ":0\n" ++
          FormatInt (data.length : Int) ++ ascii ":0:2\n" ++
          data.drop (512 * (data.length / 512)) := by
      have hf : ([(⟨((512 * (data.length / 512) : Nat) : Int),
          ((data.length % 512 : Nat) : Int), PATCH_CHANGE⟩ : Patch),
          ⟨(data.length : Int), 0, PATCH_TRUNCATE⟩].filter
          fun e => decide (e.Type_ = PATCH_CHANGE)) =
          [⟨((512 * (data.length / 512) : Nat) : Int),
          ((data.length % 512 : Nat) : Int), PATCH_CHANGE⟩] := by
        simp [PATCH_TRUNCATE, PATCH_CHANGE]
      rw [hf, List.flatMap_cons, List.flatMap_nil, List.append_nil, hpl]
      simp [CreatePatch.header, PATCH_TRUNCATE, PATCH_CHANGE,
        show FormatInt 0 = ascii "0" by decide,
        show FormatInt 2 = ascii "2" by decide, ascii]
    rw [hh] at hcp
    exact ⟨hentries, _, hcp⟩

/-- An instance of C21 (amended): the file `AB` cut to `A` gives a change and a truncate;
a file of 513 bytes cut to its first block gives the truncate alone. -/
theorem CreatePatch_truncation_witness :
    (∃ record, CreatePatch sizedDigest 1
        ⟨some (fileOf [65]), some (priorOf sizedDigest ([65] ++ [66]))⟩ =
      (.ok, ⟨some (fileOf [65]), some ⟨some record,
        some (ascii "2\n" ++ FormatInt ((512 * (([65] : List Byte).length / 512) : Nat) : Int) ++
          ascii ":" ++ FormatInt ((([65] : List Byte).length % 512 : Nat) : Int) ++ ascii ":0\n" ++
          FormatInt (([65] : List Byte).length : Int) ++ ascii ":0:2\n" ++
          ([65] : List Byte).drop (512 * (([65] : List Byte).length / 512))),
        some (ascii "bytes " ++ FormatInt ((512 * (([65] : List Byte).length / 512) : Nat) : Int) ++
          ascii "-" ++ FormatInt ((([65] : List Byte).length : Int) - 1) ++ ascii "/" ++
          FormatInt (([65] : List Byte).length : Int))⟩⟩)) ∧
    (∃ record, CreatePatch sizedDigest 1
        ⟨some (fileOf sampleBlock512), some (priorOf sizedDigest (sampleBlock512 ++ [66]))⟩ =
      (.ok, ⟨some (fileOf sampleBlock512), some ⟨some record,
        some (ascii "1\n" ++ FormatInt (sampleBlock512.length : Int) ++ ascii ":0:2\n"),
        some (ascii "bytes */" ++ FormatInt (sampleBlock512.length : Int))⟩⟩)) :=
  ⟨((CreatePatch_truncation sizedDigest 1 (fileOf [65]) (priorOf sizedDigest ([65] ++ [66])) _
      [65] [66] rfl (by rfl) rfl (by decide) (by decide) (fun _ => by decide)).2 (by decide)).2,
    ((CreatePatch_truncation sizedDigest 1 (fileOf sampleBlock512)
      (priorOf sizedDigest (sampleBlock512 ++ [66])) _ sampleBlock512 [66] rfl
      (by simp only [recordOf])
      (by simp only [fileOf])
      (replicate_ne_nil_of_pos 512 65 (by decide)) (by decide)
      (fun h => absurd (by rw [sampleBlock512, List.length_replicate]) h)).1
      (by rw [sampleBlock512, List.length_replicate])).2⟩

/-! ## Well-formed entry lists -/

theorem CreatePatch.entries_ne_nil (rdiffBlocks state : List RDiffBlock) (fileSize : Int)
    (patches : List Patch)
    (h : CreatePatch.entries rdiffBlocks state fileSize = some patches) : patches ≠ [] := by
  rw [CreatePatch.entries_eq _ _ _ _ h]
  by_cases hle : rdiffBlocks.length ≤ state.length
  · rw [if_pos hle]
    simp
  · rw [if_neg hle, List.append_nil]
    intro hnil
    rw [List.flatMap_eq_nil_iff] at hnil
    have hlt : state.length < rdiffBlocks.length := by omega
    have h1 := hnil state.length (List.mem_range.mpr hlt)
    obtain ⟨cur, hcur⟩ : ∃ cur, rdiffBlocks[state.length]? = some cur :=
      ⟨_, List.getElem?_eq_getElem hlt⟩
    simp [CreatePatch.entryAt, CreatePatch.newAt, hcur] at h1

/-- C22: for every capture in which `CreatePatch` writes a patch file (a non-empty file
with a prior record, not a no-content capture), the entry list is not empty, its
offsets are strictly increasing, every `PATCH_CHANGE` entry has an offset that is a
multiple of 512, a size between 1 and 512 and a range within `[0, current file size)`,
and every `PATCH_CHANGE` entry that is followed by another `PATCH_CHANGE` entry has a
size of exactly 512. -/
theorem CreatePatch_entries_well_formed (sha1 : List Byte → SHAValue) (now : Int) (f : OSFile)
    (sc : Sidecar) (Prev : FileMetaData) (patches : List Patch)
    (hmeta : sc.metaFile = some Prev) (hdata : f.data ≠ [])
    (hentries : CreatePatch.entries (MakeRDiffBlocks sha1 f.data).1 Prev.PatchState
      f.data.length = some patches) :
    (∃ record rangeData,
      CreatePatch sha1 now ⟨some f, some sc⟩ =
        (.ok, ⟨some f, some ⟨some record, some (patchFileOf f.data patches),
          some rangeData⟩⟩)) ∧
    patches ≠ [] ∧
    patches.Pairwise (fun a b => a.Offset < b.Offset) ∧
    (∀ e ∈ patches, e.Type_ = PATCH_CHANGE →
      e.Offset % 512 = 0 ∧ 1 ≤ e.Size ∧ e.Size ≤ 512 ∧ 0 ≤ e.Offset ∧
        e.Offset + e.Size ≤ (f.data.length : Int)) ∧
    patches.Pairwise
      (fun a b => a.Type_ = PATCH_CHANGE → b.Type_ = PATCH_CHANGE → a.Size = 512) := by
  rw [MakeRDiffBlocks_eq] at hentries
  simp only at hentries
  obtain ⟨text, ht⟩ := CreatePatch_patch_path sha1 now f sc Prev patches hmeta hdata hentries
  obtain ⟨l, hsorted, hbound, hpatches⟩ :=
    CreatePatch.entries_blocks sha1 f.data Prev.PatchState _ patches hentries
  have hne := CreatePatch.entries_ne_nil _ _ _ _ hentries
  have htail : ∀ e ∈ (if (refBlocks sha1 f.data).length ≤ Prev.PatchState.length then
      [(⟨(f.data.length : Int), 0, PATCH_TRUNCATE⟩ : Patch)] else []),
      e = ⟨(f.data.length : Int), 0, PATCH_TRUNCATE⟩ := by
    intro e he
    split at he
    · exact List.mem_singleton.mp he
    · simp at he
  have hkind : (PATCH_TRUNCATE : Int) ≠ PATCH_CHANGE := by decide
  refine ⟨⟨_, text, ht⟩, hne, ?_, ?_, ?_⟩
  · rw [hpatches, List.pairwise_append]
    refine ⟨?_, ?_, ?_⟩
    · rw [List.pairwise_map]
      refine hsorted.imp ?_
      intro i j hij
      simp only [blockEntry]
      omega
    · split
      · exact List.pairwise_singleton _ _
      · exact List.Pairwise.nil
    · intro a ha b hb
      obtain ⟨i, hi, rfl⟩ := List.mem_map.mp ha
      rw [htail b hb]
      have := hbound i hi
      simp only [blockEntry]
      omega
  · intro e he hk
    rw [hpatches] at he
    rcases List.mem_append.mp he with he | he
    · obtain ⟨i, hi, rfl⟩ := List.mem_map.mp he
      have := hbound i hi
      simp only [blockEntry]
      refine ⟨?_, ?_, ?_, ?_, ?_⟩ <;> omega
    · rw [htail e he] at hk
      exact absurd hk hkind
  · rw [hpatches, List.pairwise_append]
    refine ⟨?_, ?_, ?_⟩
    · rw [List.pairwise_map]
      refine List.Pairwise.imp_of_mem ?_ hsorted
      intro i j _ hj hij _ _
      have := hbound j hj
      simp only [blockEntry]
      omega
    · split
      · exact List.pairwise_singleton _ _
      · exact List.Pairwise.nil
    · intro a _ b hb _ hk
      rw [htail b hb] at hk
      exact absurd hk hkind

/-- An instance of C22: the entries of the capture in which the one-byte file `A` has
become `B`. -/
theorem CreatePatch_entries_well_formed_witness :
    (∃ record rangeData,
      CreatePatch prefixDigest 1 ⟨some (fileOf [66]), some samplePrior⟩ =
        (.ok, ⟨some (fileOf [66]), some ⟨some record,
          some (patchFileOf (fileOf [66]).data sampleEntries), some rangeData⟩⟩)) ∧
    sampleEntries ≠ [] ∧
    sampleEntries.Pairwise (fun a b => a.Offset < b.Offset) ∧
    (∀ e ∈ sampleEntries, e.Type_ = PATCH_CHANGE →
      e.Offset % 512 = 0 ∧ 1 ≤ e.Size ∧ e.Size ≤ 512 ∧ 0 ≤ e.Offset ∧
        e.Offset + e.Size ≤ ((fileOf [66]).data.length : Int)) ∧
    sampleEntries.Pairwise
      (fun a b => a.Type_ = PATCH_CHANGE → b.Type_ = PATCH_CHANGE → a.Size = 512) :=
  CreatePatch_entries_well_formed prefixDigest 1 (fileOf [66]) samplePrior _ sampleEntries rfl
    (by decide) (by decide)

end Bindiff
